import Mathlib

/-!
# Bayesian logic network (`src/bayes.js`): embedding and verification

The library keeps a `network` array of events and answers probability
queries by exact enumeration.  This file embeds the data model and the
functions of `src/bayes.js` and proves properties of them.

Modelling conventions.

* Probabilities are exact rationals (`ℚ`): the properties below are stated
  in exact arithmetic, not for IEEE doubles.  The only operation of the source
  that can leave the finite numbers is the final division of
  `conditionalProbability`.
* `getProbability` returns `probabilities` itself when the dependency list is
  empty and the event is not negated; that can be an array of one element,
  which arithmetic converts to its element (`Number([v])` is `v`) and which the
  exact-match branch of `conditionalProbability` hands back as it is.  Such a
  value has type `Value`, and what `conditionalProbability` returns has type
  `Num`.
* An event handle is an index into `network`; a negated handle is its bitwise
  complement.  Handles are `Int`, and `~x` is `-x - 1`, which is what the
  JavaScript operator computes on the 32-bit range that array indices and
  their complements live in.
* The shift operators of JavaScript work on 32-bit integers and take the shift
  count modulo 32; `probIndex` and `nuisanceIterate` are embedded with that
  behaviour (`toInt32`, `% 32`).
* `probabilities` of an event is either a number or an array written at
  computed indices; an array is kept as the list of the cells written so far,
  the latest write first.
* Errors that the source throws are values of `Err`, named after the
  JavaScript error class.
-/

namespace BLN

/-! ## Data model -/

/-- The classes of the exceptions raised by the library. -/
inductive Err where
  | typeError
  | rangeError
  | referenceError
  deriving DecidableEq, Repr

/-- What `getProbability` returns: a number, or the `probabilities` array of
the event itself, an array whose only element is `v`. -/
inductive Value where
  | number (q : ℚ)
  | array (v : ℚ)
  deriving DecidableEq, Repr

/-- What `conditionalProbability` returns: a finite number; `NaN`/`±Infinity`,
when the divisor of the final division `p_joint / p_depends` is zero; or the
array `[v]` that the exact-match branch received from `getProbability`. -/
inductive Num where
  | finite (q : ℚ)
  | nonFinite
  | array (v : ℚ)
  deriving DecidableEq, Repr

/-- `Number(x)`: the number that arithmetic (`*=`, `1 - x`) makes of a value;
`Number([v])` is `v`. -/
def Value.toNumber : Value → ℚ
  | .number q => q
  | .array v => v

/-- A value of `getProbability` as a value returned by
`conditionalProbability`, unconverted. -/
def Value.toNum : Value → Num
  | .number q => .finite q
  | .array v => .array v

/-- Identifier of an event: a number (also the value of `id_counter`) or a
string; identifiers of other JavaScript types are not modelled. -/
inductive Ident where
  | num (n : Nat)
  | str (s : String)
  deriving DecidableEq, Repr

/-- The `probabilities` field: a number (set by an unconditional `is`) or an
array (initially `[]`) holding the cells written by `this.probabilities[i] = p`,
the latest write first.  A key may be negative: `probIndex` yields a negative
`int32` once bit 31 is set, and JavaScript then stores an ordinary property. -/
inductive ProbData where
  | scalar (p : ℚ)
  | table (cells : List (Int × ℚ))
  deriving DecidableEq, Repr

/-- An entry of `network`: `{ id, probabilities, depends }`. -/
structure Event where
  id : Ident
  probabilities : ProbData
  depends : List Int
  deriving DecidableEq, Repr

/-- The `network` array. -/
abbrev Network := List Event

/-! ## Handles -/

/-- Bitwise complement `~x` of a handle. -/
def bnot (x : Int) : Int := -x - 1

/-- Source: `norm = e => (e >= 0) ? e : ~e`. -/
def norm (e : Int) : Int := if e ≥ 0 then e else bnot e

/-- Array access `network[i]` for a numeric `i`: `undefined` (here `none`)
outside the array. -/
def eventAt (net : Network) (i : Int) : Option Event :=
  if i < 0 then none else net.get? i.toNat

/-! ## Table indexing -/

/-- Value of a 32-bit pattern read as a signed integer (`ToInt32`). -/
def toInt32 (n : Nat) : Int :=
  if n % 2 ^ 32 < 2 ^ 31 then ((n % 2 ^ 32 : Nat) : Int) else ((n % 2 ^ 32 : Nat) : Int) - 2 ^ 32

/-- Loop of `probIndex`: `index |= (events[i] >= 0) << i`, with `index` kept as
its 32-bit pattern and the shift count taken modulo 32. -/
def probIndexLoop : List Int → Nat → Nat → Nat
  | [], _, index => index
  | e :: es, i, index =>
      probIndexLoop es (i + 1) (index ||| ((if e ≥ 0 then 1 else 0) <<< (i % 32)))

/-- Source: `probIndex(events)`, the index in the probability table. -/
def probIndex (events : List Int) : Int := toInt32 (probIndexLoop events 0 0)

/-! ## Probability data -/

/-- Property read `probabilities[index]` on an array: the latest value written
at `index`, if any. -/
def cellAt (cells : List (Int × ℚ)) (index : Int) : Option ℚ := cells.lookup index

/-- The `length` of an array: one more than its largest non-negative key. -/
def arrayLength (cells : List (Int × ℚ)) : Int :=
  cells.foldl (fun m c => max m (c.1 + 1)) 0

/-- Read `probabilities[index]`; indexing a number gives `undefined`. -/
def readIndexed : ProbData → Int → Option ℚ
  | .scalar _, _ => none
  | .table cells, index => cellAt cells index

/-- The value of `probabilities` itself when it passes the missing-data test
`isNaN(p) || p === undefined || p.length === 0`: a number passes; an array
passes only with length 1, where `Number([v])` is `v` (an empty array has
length 0, a longer one converts to `NaN`).  The value is the number, or the
array `[v]` itself. -/
def readWhole : ProbData → Option Value
  | .scalar p => some (.number p)
  | .table cells => if arrayLength cells = 1 then (cellAt cells 0).map Value.array else none

/-- The number that `probabilities` itself converts to, when it passes the
missing-data test. -/
def wholeNumber (data : ProbData) : Option ℚ := (readWhole data).map Value.toNumber

/-- Source: `getName(e)` reads `network[norm(e)].id`; it throws a `TypeError`
when that entry does not exist. -/
def nameable (net : Network) (e : Int) : Bool := (eventAt net (norm e)).isSome

/-- The exception of the missing-data branch of `getProbability`: the
`ReferenceError`, unless building its message fails because a dependency is not
an entry of the network (`getName` then throws a `TypeError`). -/
def missingData (net : Network) (dependencies : List Int) : Err :=
  if dependencies.all (nameable net) then .referenceError else .typeError

/-- Source: `getProbability(event, dependencies)`. -/
def getProbability (net : Network) (event : Int) (dependencies : List Int) :
    Except Err Value :=
  match eventAt net (norm event) with
  | none => .error .typeError
  | some ev =>
    let probability :=
      if dependencies.length = 0 then readWhole ev.probabilities
      else (readIndexed ev.probabilities (probIndex dependencies)).map Value.number
    match probability with
    | none => .error (missingData net dependencies)
    | some p => if event < 0 then .ok (.number (1 - p.toNumber)) else .ok p

/-- The number that arithmetic makes of the value of
`getProbability(event, dependencies)`. -/
def lookupNumber (net : Network) (event : Int) (dependencies : List Int) : Except Err ℚ :=
  (getProbability net event dependencies).map Value.toNumber

/-! ## Joint probability -/

/-- Source: `applyConditions(depends, events)`. -/
def applyConditions (depends events : List Int) : List Int :=
  depends.map (fun d => if events.contains (bnot d) then bnot d else d)

/-- The `for` loop of `jointProbability` over the remaining terms, `events`
being the whole argument list. -/
def jointLoop (net : Network) (events : List Int) : List Int → ℚ → Except Err ℚ
  | [], probability => .ok probability
  | e :: rest, probability =>
    match eventAt net (norm e) with
    | none => .error .typeError
    | some event =>
      match getProbability net e (applyConditions event.depends events) with
      | .error err => .error err
      | .ok p => jointLoop net events rest (probability * p.toNumber)

/-- Source: `jointProbability(...events)`. -/
def jointProbability (net : Network) (events : List Int) : Except Err ℚ :=
  jointLoop net events events 1

/-! ## Conditional probability -/

/-- Source: `1 << length`, a 32-bit shift. -/
def shiftLeftOne (length : Nat) : Int := toInt32 (1 <<< (length % 32))

/-- Inner loop of `nuisanceIterate`: the nuisance values from position `n` on,
each complemented unless bit `n` of `i` is set (`(i >> n) & 1`). -/
def nuisanceSigns (i : Nat) : List Int → Nat → List Int
  | [], _ => []
  | param :: rest, n =>
      (if (i >>> (n % 32)) &&& 1 = 0 then bnot param else param) :: nuisanceSigns i rest (n + 1)

/-- Source: the generator `nuisanceIterate(depends, nuisance)`, as the list of
the combinations it yields, in order. -/
def nuisanceIterate (depends nuisance : List Int) : List (List Int) :=
  (List.range (shiftLeftOne nuisance.length).toNat).map
    (fun i => depends ++ nuisanceSigns i nuisance 0)

/-- Source: `nuisanceVariables(...events)`. -/
def nuisanceVariables (net : Network) (events : List Int) : List Int :=
  ((List.range net.length).map Int.ofNat).filter
    (fun d => !(events.map norm).contains d)

/-- Source: `perfectMatch(event, dependencies)`. -/
def perfectMatch (net : Network) (event : Int) (dependencies : List Int) :
    Except Err Bool :=
  match eventAt net (norm event) with
  | none => .error .typeError
  | some ev =>
    if ev.depends.length ≠ dependencies.length then .ok false
    else .ok ((List.zip ev.depends dependencies).all (fun dc => decide (dc.1 = dc.2)))

/-- The summation loops of `conditionalProbability`:
`acc += jointProbability(...fixed, ...combination)` for each combination. -/
def sumJoint (net : Network) (fixed : List Int) : List (List Int) → ℚ → Except Err ℚ
  | [], acc => .ok acc
  | combination :: rest, acc =>
    match jointProbability net (fixed ++ combination) with
    | .error err => .error err
    | .ok p => sumJoint net fixed rest (acc + p)

/-- The division `p_joint / p_depends`. -/
def divide (n d : ℚ) : Num := if d = 0 then .nonFinite else .finite (n / d)

/-- Source: `conditionalProbability(events, dependencies)`.  With no target,
`events[0]` is `undefined` and `perfectMatch` throws a `TypeError`.  The
exact-match branch returns what `getProbability` returned, unconverted. -/
def conditionalProbability (net : Network) (events dependencies : List Int) :
    Except Err Num :=
  match events with
  | [] => .error .typeError
  | first :: _ =>
    match perfectMatch net first dependencies with
    | .error err => .error err
    | .ok true =>
      match getProbability net first dependencies with
      | .error err => .error err
      | .ok p => .ok p.toNum
    | .ok false =>
      let nuisance := nuisanceVariables net (events ++ dependencies)
      match sumJoint net events (nuisanceIterate dependencies nuisance) 0 with
      | .error err => .error err
      | .ok p_joint =>
        match sumJoint net [] (nuisanceIterate dependencies (nuisance ++ events)) 0 with
        | .error err => .error err
        | .ok p_depends => .ok (divide p_joint p_depends)

/-! ## The network of `src/tests.js` -/

/-- The network of the `+P()` tests: events `A` to `E`. -/
def testNetwork : Network :=
  [ ⟨.str "A", .scalar (3/10), []⟩,
    ⟨.str "B", .scalar (6/10), []⟩,
    ⟨.str "C", .table [(0, 4/10), (1, 8/10)], [0]⟩,
    ⟨.str "D", .table [(0, 2/10), (1, 8/10), (2, 1/10), (3, 7/10)], [0, 1]⟩,
    ⟨.str "E", .table [(0, 2/10), (1, 7/10)], [2]⟩ ]


/-! ## The probability builder -/

/-- The `is` member of a probability object: absent or `undefined`, or
`setProbability.bind(prob, givens)` with `givens` either `null` (`none`) or the
argument list of the last `given`. -/
inductive IsMember where
  | undefined
  | bound (givens : Option (List Int))
  deriving DecidableEq, Repr

/-- The `given` member of a probability object: `undefined`,
`createConditional.bind(prob)`, or the closure that `P` makes for several
events (which keeps their list). -/
inductive GivenMember where
  | undefined
  | conditional
  | joint (events : List Int)
  deriving DecidableEq, Repr

/-- The `Symbol.toPrimitive` member: the query run when the object is coerced
to a number, either on fixed event lists or on the current `this.event`. -/
inductive Query where
  | fixed (events dependencies : List Int)
  | ofEvent (dependencies : List Int)
  deriving DecidableEq, Repr

/-- A probability object, as built by `P`. -/
structure Prob where
  event : Int
  depends : List Int
  probabilities : ProbData
  is : IsMember
  given : GivenMember
  toPrimitive : Query
  deriving DecidableEq, Repr

/-- Source: `P(event, ...others)` for a numeric `event`. -/
def P (event : Int) (others : List Int) : Prob :=
  if others.length = 0 then
    ⟨event, [], .table [], .bound none, .conditional, .fixed [event] []⟩
  else
    ⟨event, [], .table [], .undefined, .joint (event :: others), .fixed (event :: others) []⟩

/-- Source: `createConditional(...events)` with `this = self`. -/
def createConditional (self : Prob) (events : List Int) : Prob :=
  ⟨self.event,
   if self.depends.length = 0 then events.map norm else self.depends,
   self.probabilities,
   .bound (some events),
   .undefined,
   .ofEvent events⟩

/-- Assignment `probabilities[index] = p`: a new cell on an array; on a number
the assignment has no effect. -/
def writeIndexed : ProbData → Int → ℚ → ProbData
  | .scalar q, _, _ => .scalar q
  | .table cells, index, p => .table ((index, p) :: cells)

/-- Source: `setProbability(givens, probability)` with `this = self`. -/
def setProbability (self : Prob) (givens : Option (List Int)) (probability : ℚ) :
    Except Err Prob :=
  if probability < 0 ∨ probability > 100 then .error .rangeError
  else
    let percent := if probability > 1 then probability / 100 else probability
    let event := if self.event < 0 then bnot self.event else self.event
    let value := if self.event < 0 then 1 - percent else percent
    match givens with
    | none =>
      .ok ⟨event, self.depends, .scalar value, .undefined, .undefined, self.toPrimitive⟩
    | some gs =>
      .ok ⟨event, self.depends, writeIndexed self.probabilities (probIndex gs) value,
           .undefined, .conditional, self.toPrimitive⟩

/-- The call `prob.is(probability)`; calling a member that is `undefined` is a
`TypeError`. -/
def invokeIs (self : Prob) (probability : ℚ) : Except Err Prob :=
  match self.is with
  | .undefined => .error .typeError
  | .bound givens => setProbability self givens probability

/-- The call `prob.given(...events)`. -/
def invokeGiven (self : Prob) (events : List Int) : Except Err Prob :=
  match self.given with
  | .undefined => .error .typeError
  | .conditional => .ok (createConditional self events)
  | .joint targets =>
    .ok ⟨self.event, events.map norm, self.probabilities, self.is, .undefined,
         .fixed targets events⟩

/-- The chain `prob.given(...c1).is(v1).given(...c2).is(v2)...`. -/
def chain (self : Prob) : List (List Int × ℚ) → Except Err Prob
  | [] => .ok self
  | (events, value) :: rest =>
    match invokeGiven self events with
    | .error err => .error err
    | .ok conditioned =>
      match invokeIs conditioned value with
      | .error err => .error err
      | .ok assigned => chain assigned rest

/-- An argument of `facts`: a probability object, or a value whose `event` is
not a number. -/
inductive Fact where
  | prob (p : Prob)
  | other
  deriving DecidableEq, Repr

/-- Source: `facts(...probs)`.  The result is the network after the loop and
the exception that stopped it, if any.  The data is copied by value; in the
source the event afterwards shares its array with the probability object. -/
def facts (net : Network) : List Fact → Network × Option Err
  | [] => (net, none)
  | .other :: _ => (net, some .typeError)
  | .prob p :: rest =>
    match eventAt net p.event with
    | none => (net, some .referenceError)
    | some event =>
      facts (net.set p.event.toNat ⟨event.id, p.probabilities, p.depends⟩) rest

/-- A finished builder expression as an argument of `facts`. -/
def built : Except Err Prob → Fact
  | .ok p => .prob p
  | .error _ => .other

/-- A network of `n` events created by `EVENT()` with no data yet. -/
def blankNetwork (n : Nat) : Network :=
  (List.range n).map (fun i => ⟨.num i, .table [], []⟩)

/-! ## Specification-side notions -/

/-- The handles of the events of the network, in creation order. -/
def handles (net : Network) : List Int := (List.range net.length).map Int.ofNat

/-- The number whose bit `i` is set exactly when the `i`-th handle is
non-negative. -/
def patternValue : List Int → Nat
  | [] => 0
  | e :: es => (if e ≥ 0 then 1 else 0) + 2 * patternValue es

/-- All truth assignments of the events `hs`: every list that holds, for each
`h` of `hs` in order, either `h` (true) or `~h` (false). -/
def assignments : List Int → List (List Int)
  | [] => [[]]
  | h :: rest =>
    (assignments rest).map (fun s => h :: s) ++ (assignments rest).map (fun s => bnot h :: s)

/-- The sum of `jointProbability` over a list of term lists, defined when every
one of them has a value. -/
def sumOfJoint (net : Network) : List (List Int) → Option ℚ
  | [] => some 0
  | terms :: rest =>
    match jointProbability net terms with
    | .error _ => none
    | .ok p => (sumOfJoint net rest).map (fun s => p + s)

/-- A handle list signed by a polarity combination: the `i`-th handle as it is
when the `i`-th polarity is true, complemented otherwise. -/
def signed (handles : List Int) (polarity : List Bool) : List Int :=
  List.zipWith (fun d b => if b then d else bnot d) handles polarity

/-- The percentage rule of `setProbability`: a value above 1 is a percentage. -/
def percent (v : ℚ) : ℚ := if v > 1 then v / 100 else v

/-- The dependency graph is acyclic: some rank strictly decreases from every
event to each of its declared dependencies, which are non-negated handles. -/
def Acyclic (net : Network) : Prop :=
  ∃ rank : Int → Nat, ∀ (v : Int) (ev : Event), eventAt net v = some ev →
    ∀ d ∈ ev.depends, 0 ≤ d ∧ rank d < rank v

/-- Every event has a fully assigned table: an event without dependencies holds
a readable number, and an event with `k > 0` dependencies holds a value in the
slot of every polarity combination of its `k` dependencies. -/
def FullyAssigned (net : Network) : Prop :=
  ∀ (v : Int) (ev : Event), eventAt net v = some ev →
    (ev.depends = [] → ∃ p, wholeNumber ev.probabilities = some p) ∧
    (ev.depends ≠ [] → ∀ signs : List Int, signs.length = ev.depends.length →
      ∃ p, readIndexed ev.probabilities (probIndex signs) = some p)

/-- The table entry that `jointProbability` reads for event `v` when its
argument list is `terms`; 0 when there is none. -/
def entryUnder (net : Network) (terms : List Int) (v : Int) : ℚ :=
  match eventAt net v with
  | none => 0
  | some ev =>
    (if ev.depends.length = 0 then wholeNumber ev.probabilities
      else readIndexed ev.probabilities (probIndex (applyConditions ev.depends terms))).getD 0

/-- The dependencies of every event are handles of events of the network. -/
def DependsOnEvents (net : Network) : Prop :=
  ∀ ev ∈ net, ∀ d ∈ ev.depends, 0 ≤ d ∧ d < net.length

instance (net : Network) : Decidable (DependsOnEvents net) := by
  unfold DependsOnEvents; infer_instance

/-- The term list mentions every event of the network exactly once, in either
polarity. -/
def FullAssignment (net : Network) (terms : List Int) : Prop :=
  (terms.map norm).Perm (handles net)

/-- Product of a list of factors, defined when every factor is. -/
def productOf : List (Option ℚ) → Option ℚ
  | [] => some 1
  | none :: _ => none
  | some p :: rest => (productOf rest).map (fun q => p * q)

/-- The index whose bit `i` is 1 exactly when the `i`-th dependency is asserted
true in the term list. -/
def assertedIndex (depends terms : List Int) : Int :=
  ((patternValue (depends.map (fun d => if terms.contains d then 0 else -1)) : Nat) : Int)

/-- The chain-rule factor of event `v` under a term list: the entry of its table
at `assertedIndex` (its number when it has no dependency), taken as is when `v`
is asserted true and complemented when it is asserted false. -/
def chainFactor (net : Network) (terms : List Int) (v : Int) : Option ℚ :=
  match eventAt net v with
  | none => none
  | some ev =>
    let entry :=
      if ev.depends = [] then wholeNumber ev.probabilities
      else readIndexed ev.probabilities (assertedIndex ev.depends terms)
    match entry with
    | none => none
    | some p => if terms.contains v then some p else some (1 - p)

/-- A product that is defined, or else the missing-data `ReferenceError`. -/
def orMissing : Option ℚ → Except Err ℚ
  | some q => .ok q
  | none => .error .referenceError

/-- The body of the loop of `jointProbability` for one term `e` of the argument
list `events`: the number that the loop multiplies in, or the exception it stops
with. -/
def termFactor (net : Network) (events : List Int) (e : Int) : Except Err ℚ :=
  match eventAt net (norm e) with
  | none => .error .typeError
  | some event => lookupNumber net e (applyConditions event.depends events)

/-- The chain-rule product over all events of the network. -/
def chainRuleProduct (net : Network) (terms : List Int) : Option ℚ :=
  productOf ((handles net).map (chainFactor net terms))

/-! ## Concrete networks -/

/-- A network of 33 events: 32 unconditional events of probability one half and
event 32, which depends on all of them and holds the value written by
`P(32).given(0, ..., 31).is(3/10)` (see `wideNetwork_built`). -/
def wideNetwork : Network :=
  (List.range 32).map (fun i => (⟨.num i, .scalar (1/2), []⟩ : Event)) ++
  [⟨.num 32, .table [(-1, 3/10)], (List.range 32).map Int.ofNat⟩]

/-- A network of 32 events: 31 unconditional events of probability one half and
event 31, which depends on event 0 and has a value only for event 0 false
(see `partialNetwork_built`). -/
def partialNetwork : Network :=
  (List.range 31).map (fun i => (⟨.num i, .scalar (1/2), []⟩ : Event)) ++
  [⟨.num 31, .table [(0, 1/2)], [0]⟩]

/-- A network of 34 events: 33 unconditional events of probability one half and
event 33, which depends on all of them and holds the value written by
`P(33).given(0, ~1, ..., ~32).is(1/5)`: dependency 0 true, the others false
(see `aliasNetwork_built`). -/
def aliasNetwork : Network :=
  (List.range 33).map (fun i => (⟨.num i, .scalar (1/2), []⟩ : Event)) ++
  [⟨.num 33, .table [(1, 1/5)], (List.range 33).map Int.ofNat⟩]

/-- Two events `A` and `C` where `P(C | A)` was assigned and `P(C | ~A)` was
not. -/
def gapNetwork : Network :=
  [⟨.str "A", .scalar (3/10), []⟩, ⟨.str "C", .table [(1, 8/10)], [0]⟩]

/-- The network after `facts(P(e).given().is(3/10))` on a single event. -/
def oneSlotNetwork : Network := [⟨.num 0, .table [(0, 3/10)], []⟩]

deriving instance DecidableEq for Except


/-! ## Calls that may throw, with the object they leave behind -/

/-- The call `prob.is(probability)` as a step on the object: the object after
the call and the exception raised, if any.  A call of an `undefined` member
touches nothing, and `setProbability` throws its `RangeError` before its first
assignment to `this`, so a call that throws leaves the object as it was. -/
def runIs (self : Prob) (probability : ℚ) : Prob × Option Err :=
  match invokeIs self probability with
  | .ok assigned => (assigned, none)
  | .error err => (self, some err)

/-- The call `prob.given(...events)` as a step on the object: the object after
the call and the exception raised, if any. -/
def runGiven (self : Prob) (events : List Int) : Prob × Option Err :=
  match invokeGiven self events with
  | .ok conditioned => (conditioned, none)
  | .error err => (self, some err)

/-- The coercion `+prob`: the `Symbol.toPrimitive` member of the object runs its
query, and a result that is not a primitive value (the array) makes the
coercion throw a `TypeError`. -/
def coerce (net : Network) (prob : Prob) : Except Err Num :=
  let result :=
    match prob.toPrimitive with
    | .fixed events dependencies => conditionalProbability net events dependencies
    | .ofEvent dependencies => conditionalProbability net [prob.event] dependencies
  match result with
  | .error err => .error err
  | .ok (.array _) => .error .typeError
  | .ok (.finite q) => .ok (.finite q)
  | .ok .nonFinite => .ok .nonFinite

/-- The states that a probability object made by `P` goes through under `is`
and `given` calls that return. -/
inductive Reachable (start : Prob) : Prob → Prop where
  | start : Reachable start start
  | afterIs (p p' : Prob) (v : ℚ) :
      Reachable start p → invokeIs p v = .ok p' → Reachable start p'
  | afterGiven (p p' : Prob) (events : List Int) :
      Reachable start p → invokeGiven p events = .ok p' → Reachable start p'

/-! ## The event registry -/

/-- The closure state of the library: `id_counter` and `network`. -/
structure Registry where
  id_counter : Nat
  network : Network
  deriving DecidableEq, Repr

/-- The argument of an `EVENT` call: none (or `undefined`), a number or string,
`null`, or the array of string chunks that a call as a template tag passes
(an object with a `raw` member). -/
inductive EventArg where
  | omitted
  | value (id : Ident)
  | null
  | template (strings : List String)
  deriving DecidableEq, Repr

/-- The registry after pushing a new event with identifier `id`, and the
index returned: `network.push(event) - 1`. -/
def pushEvent (s : Registry) (counter : Nat) (id : Ident) : Registry × Except Err Int :=
  (⟨counter, s.network ++ [⟨id, .table [], []⟩]⟩, .ok (Int.ofNat s.network.length))

/-- Source: `EVENT(id = id_counter++)`, with `_BAYES_GLOBAL_VARS` unset.  The
default `id_counter++` is taken for a missing argument; for an argument of type
`"object"` the test `"raw" in id` is evaluated, which throws a `TypeError` on
`null` and selects `id[0] || id_counter++` for a template tag. -/
def EVENT (s : Registry) : EventArg → Registry × Except Err Int
  | .omitted => pushEvent s (s.id_counter + 1) (.num s.id_counter)
  | .value id => pushEvent s s.id_counter id
  | .null => (s, .error .typeError)
  | .template strings =>
    match strings.head? with
    | none => pushEvent s (s.id_counter + 1) (.num s.id_counter)
    | some chunk =>
      if chunk = "" then pushEvent s (s.id_counter + 1) (.num s.id_counter)
      else pushEvent s s.id_counter (.str chunk)

/-- Source: `_reset()`. -/
def reset : Registry := ⟨0, []⟩

/-- A sequence of `EVENT` calls: the registry after them and what each call
returned or threw. -/
def events (s : Registry) : List EventArg → Registry × List (Except Err Int)
  | [] => (s, [])
  | arg :: rest =>
    ((events (EVENT s arg).1 rest).1, (EVENT s arg).2 :: (events (EVENT s arg).1 rest).2)

/-! ## Further specification-side notions -/

/-- The probability data holds values of `[0, 1]` only. -/
def unitData : ProbData → Bool
  | .scalar p => decide (0 ≤ p ∧ p ≤ 1)
  | .table cells => cells.all (fun c => decide (0 ≤ c.2 ∧ c.2 ≤ 1))

/-- Every stored probability of the network lies in `[0, 1]`. -/
def StoredInUnit (net : Network) : Prop := ∀ ev ∈ net, unitData ev.probabilities = true

instance (net : Network) : Decidable (StoredInUnit net) := by
  unfold StoredInUnit; infer_instance

/-- The last probability object among the arguments of `facts` whose event is
`v`, if any. -/
def lastFor (v : Int) : List Fact → Option Prob
  | [] => none
  | .other :: rest => lastFor v rest
  | .prob p :: rest =>
    match lastFor v rest with
    | some q => some q
    | none => if p.event = v then some p else none

/-- An argument of `facts` that the loop accepts: a probability object whose
event is an entry of the network. -/
def accepted (net : Network) : Fact → Bool
  | .other => false
  | .prob p => (eventAt net p.event).isSome

/-- A network of 33 events: event 0 of probability 1/10, events 1 to 31 of
probability 1/2, and event 32, which depends on event 0 and has probability
9/10 in both cases. -/
def overflowNetwork : Network :=
  [(⟨.num 0, .scalar (1/10), []⟩ : Event)] ++
  (List.range 31).map (fun i => (⟨.num (i + 1), .scalar (1/2), []⟩ : Event)) ++
  [⟨.num 32, .table [(0, 9/10), (1, 9/10)], [0]⟩]

/-- The assignment number `i` of the free variables: the `j`-th free variable as
given when bit `j` of `i` is set, complemented when it is clear. -/
def bitAssignment (i : Nat) (free : List Int) : List Int :=
  List.zipWith (fun j x => if i.testBit j then x else bnot x) (List.range free.length) free

/-! ## The enumeration path and further specification-side notions -/

/-- Source: the part of `conditionalProbability(events, dependencies)` that
follows the exact-match test: the two sums over the nuisance variables and
Bayes' rule. -/
def enumeration (net : Network) (events dependencies : List Int) : Except Err Num :=
  let nuisance := nuisanceVariables net (events ++ dependencies)
  match sumJoint net events (nuisanceIterate dependencies nuisance) 0 with
  | .error err => .error err
  | .ok p_joint =>
    match sumJoint net [] (nuisanceIterate dependencies (nuisance ++ events)) 0 with
    | .error err => .error err
    | .ok p_depends => .ok (divide p_joint p_depends)

/-- The combination of its dependencies under which an event is looked up for a
term list: a dependency is required false when it appears negated among the
terms, and true otherwise. -/
def resolved (depends terms : List Int) : List Int :=
  depends.map (fun d => if bnot d ∈ terms then bnot d else d)

/-- The product of the factors of a term list: for each term the table entry of
its event under the term list, complemented for a negated term. -/
def jointValue (net : Network) (terms : List Int) : ℚ :=
  (terms.map (fun t =>
    if t < 0 then 1 - entryUnder net terms (norm t) else entryUnder net terms (norm t))).prod

/-- The probability that all events of `D` are true: the sum of the joint
probability over all assignments of the other events of the network, the events
of `D` being asserted true. -/
def probabilityAllTrue (net : Network) (D : List Int) : Option ℚ :=
  sumOfJoint net ((assignments (nuisanceVariables net D)).map (fun s => D ++ s))

/-! # Theorems -/

/-! ## Handles -/

theorem norm_of_nonneg {e : Int} (h : 0 ≤ e) : norm e = e := by simp [norm, h]

theorem norm_bnot_of_nonneg {e : Int} (h : 0 ≤ e) : norm (bnot e) = e := by
  unfold norm bnot
  split <;> omega

theorem bnot_bnot (e : Int) : bnot (bnot e) = e := by unfold bnot; omega

theorem bnot_neg_of_nonneg {e : Int} (h : 0 ≤ e) : bnot e < 0 := by unfold bnot; omega

theorem norm_nonneg (e : Int) : 0 ≤ norm e := by
  unfold norm bnot
  split <;> omega

/-! ## Table indexing -/

theorem patternValue_lt (es : List Int) : patternValue es < 2 ^ es.length := by
  induction es with
  | nil => simp [patternValue]
  | cons e es ih =>
    simp only [patternValue, List.length_cons, pow_succ]
    split <;> omega

theorem probIndexLoop_eq (es : List Int) : ∀ (i index : Nat), i + es.length ≤ 32 →
    index < 2 ^ i → probIndexLoop es i index = index + 2 ^ i * patternValue es := by
  induction es with
  | nil => intro i index _ _; simp [probIndexLoop, patternValue]
  | cons e es ih =>
    intro i index hlen hidx
    simp only [List.length_cons] at hlen
    have hi : i % 32 = i := Nat.mod_eq_of_lt (by omega)
    have hstep : index ||| ((if e ≥ 0 then 1 else 0) <<< i)
        = index + 2 ^ i * (if e ≥ 0 then 1 else 0) := by
      split
      · rw [Nat.one_shiftLeft, Nat.or_comm, Nat.add_comm, Nat.mul_one]
        have := Nat.mul_add_lt_is_or hidx 1
        simpa using this.symm
      · simp
    have hlt : index + 2 ^ i * (if e ≥ 0 then 1 else 0) < 2 ^ (i + 1) := by
      rw [pow_succ]; split <;> omega
    rw [probIndexLoop, hi, hstep, ih (i + 1) _ (by omega) hlt, patternValue, pow_succ]
    ring

theorem probIndexLoop_zero (es : List Int) (h : es.length ≤ 32) :
    probIndexLoop es 0 0 = patternValue es := by
  rw [probIndexLoop_eq es 0 0 (by omega) (by norm_num)]; simp

theorem toInt32_of_lt {n : Nat} (h : n < 2 ^ 31) : toInt32 n = n := by
  have h1 : n % 2 ^ 32 = n := Nat.mod_eq_of_lt (by omega)
  rw [toInt32, h1, if_pos h]

theorem probIndex_eq_patternValue (es : List Int) (h : es.length ≤ 31) :
    probIndex es = patternValue es := by
  have hlt := patternValue_lt es
  have : patternValue es < 2 ^ 31 :=
    lt_of_lt_of_le hlt (Nat.pow_le_pow_right (by norm_num) h)
  rw [probIndex, probIndexLoop_zero es (by omega), toInt32_of_lt this]

theorem toInt32_injOn {a b : Nat} (ha : a < 2 ^ 32) (hb : b < 2 ^ 32)
    (h : toInt32 a = toInt32 b) : a = b := by
  have h1 : a % 2 ^ 32 = a := Nat.mod_eq_of_lt ha
  have h2 : b % 2 ^ 32 = b := Nat.mod_eq_of_lt hb
  simp only [toInt32, h1, h2] at h
  split at h <;> split at h <;> omega

theorem patternValue_eq_iff : ∀ (a b : List Int), a.length = b.length →
    (patternValue a = patternValue b ↔
      a.map (fun e => decide (e ≥ 0)) = b.map (fun e => decide (e ≥ 0)))
  | [], [], _ => by simp
  | [], _ :: _, h => by simp at h
  | _ :: _, [], h => by simp at h
  | x :: a, y :: b, h => by
    have ih := patternValue_eq_iff a b (by simpa using h)
    simp only [patternValue, List.map_cons, List.cons.injEq, decide_eq_decide]
    rw [← ih]
    constructor
    · intro hxy
      by_cases hx : x ≥ 0 <;> by_cases hy : y ≥ 0 <;> simp [hx, hy] at hxy ⊢ <;> omega
    · rintro ⟨hs, hv⟩
      rw [hv]
      simp only [hs]

theorem patternValue_testBit : ∀ (es : List Int) (i : Nat) (hi : i < es.length),
    (patternValue es).testBit i = decide (es[i] ≥ 0)
  | e :: es, 0, _ => by
    simp only [patternValue, Nat.testBit_zero, List.getElem_cons_zero]
    by_cases he : e ≥ 0 <;> simp [he]
  | e :: es, i + 1, hi => by
    have ih := patternValue_testBit es i (by simpa using hi)
    simp only [patternValue, Nat.testBit_succ, List.getElem_cons_succ]
    rw [← ih]
    congr 1
    split <;> omega

theorem patternValue_surj : ∀ (k n : Nat), n < 2 ^ k →
    ∃ es : List Int, es.length = k ∧ patternValue es = n
  | 0, n, h => ⟨[], rfl, by simp at h; simp [patternValue, h]⟩
  | k + 1, n, h => by
    obtain ⟨es, hl, hv⟩ := patternValue_surj k (n / 2) (by rw [pow_succ] at h; omega)
    refine ⟨(if n % 2 = 1 then 0 else -1) :: es, by simp [hl], ?_⟩
    simp only [patternValue, hv]
    by_cases hn : n % 2 = 1 <;> simp [hn] <;> omega



theorem patternValue_all_true : ∀ (es : List Int), (∀ e ∈ es, 0 ≤ e) →
    patternValue es + 1 = 2 ^ es.length
  | [], _ => by simp [patternValue]
  | e :: es, h => by
    have ih := patternValue_all_true es (fun x hx => h x (List.mem_cons_of_mem _ hx))
    have he : e ≥ 0 := h e (List.mem_cons_self _ _)
    simp only [patternValue, he, if_true, List.length_cons, pow_succ]
    omega

theorem probIndex_all_true (es : List Int) (h : ∀ e ∈ es, 0 ≤ e) (hk : es.length ≤ 31) :
    probIndex es = 2 ^ es.length - 1 := by
  rw [probIndex_eq_patternValue es hk]
  have := patternValue_all_true es h
  have h2 : ((patternValue es + 1 : Nat) : Int) = ((2 ^ es.length : Nat) : Int) := by rw [this]
  push_cast at h2
  linarith

/-! ## Lookups -/

theorem zip_all_eq_self (l : List Int) :
    (List.zip l l).all (fun dc => decide (dc.1 = dc.2)) = true := by
  induction l with
  | nil => rfl
  | cons a l ih => simp [List.zip_cons_cons, ih]

theorem perfectMatch_self (net : Network) (e : Int) (ev : Event)
    (hev : eventAt net (norm e) = some ev) : perfectMatch net e ev.depends = .ok true := by
  simp [perfectMatch, hev, zip_all_eq_self]

theorem getProbability_of_value (net : Network) (event : Int) (dependencies : List Int)
    (ev : Event) (x : Value) (hev : eventAt net (norm event) = some ev)
    (hx : (if dependencies.length = 0 then readWhole ev.probabilities
      else (readIndexed ev.probabilities (probIndex dependencies)).map Value.number) = some x) :
    getProbability net event dependencies
      = if event < 0 then .ok (.number (1 - x.toNumber)) else .ok x := by
  simp only [getProbability, hev, hx]

theorem getProbability_of_missing (net : Network) (event : Int) (dependencies : List Int)
    (ev : Event) (hev : eventAt net (norm event) = some ev)
    (hx : (if dependencies.length = 0 then readWhole ev.probabilities
      else (readIndexed ev.probabilities (probIndex dependencies)).map Value.number) = none) :
    getProbability net event dependencies = .error (missingData net dependencies) := by
  simp only [getProbability, hev, hx]

theorem getProbability_of_unknown (net : Network) (event : Int) (dependencies : List Int)
    (hev : eventAt net (norm event) = none) :
    getProbability net event dependencies = .error .typeError := by
  simp only [getProbability, hev]

/-- The value that `getProbability` reads and the number it converts to. -/
theorem read_value_of_number (data : ProbData) (dependencies : List Int) (p : ℚ)
    (hp : (if dependencies.length = 0 then wholeNumber data
      else readIndexed data (probIndex dependencies)) = some p) :
    ∃ x : Value, (if dependencies.length = 0 then readWhole data
      else (readIndexed data (probIndex dependencies)).map Value.number) = some x ∧
      x.toNumber = p := by
  by_cases h : dependencies.length = 0
  · rw [if_pos h] at hp
    rw [if_pos h]
    exact Option.map_eq_some'.mp hp
  · rw [if_neg h] at hp
    rw [if_neg h, hp]
    exact ⟨.number p, rfl, rfl⟩

theorem read_value_of_none (data : ProbData) (dependencies : List Int)
    (hp : (if dependencies.length = 0 then wholeNumber data
      else readIndexed data (probIndex dependencies)) = none) :
    (if dependencies.length = 0 then readWhole data
      else (readIndexed data (probIndex dependencies)).map Value.number) = none := by
  by_cases h : dependencies.length = 0
  · rw [if_pos h] at hp
    rw [if_pos h]
    exact Option.map_eq_none'.mp hp
  · rw [if_neg h] at hp
    rw [if_neg h, hp]
    rfl

theorem lookupNumber_of_some (net : Network) (event : Int) (dependencies : List Int)
    (ev : Event) (p : ℚ) (hev : eventAt net (norm event) = some ev)
    (hp : (if dependencies.length = 0 then wholeNumber ev.probabilities
      else readIndexed ev.probabilities (probIndex dependencies)) = some p) :
    lookupNumber net event dependencies = if event < 0 then .ok (1 - p) else .ok p := by
  obtain ⟨x, hx, hxp⟩ := read_value_of_number ev.probabilities dependencies p hp
  rw [lookupNumber, getProbability_of_value net event dependencies ev x hev hx]
  split
  · rw [hxp]; rfl
  · rw [← hxp]; rfl

theorem lookupNumber_of_none (net : Network) (event : Int) (dependencies : List Int)
    (ev : Event) (hev : eventAt net (norm event) = some ev)
    (hp : (if dependencies.length = 0 then wholeNumber ev.probabilities
      else readIndexed ev.probabilities (probIndex dependencies)) = none) :
    lookupNumber net event dependencies = .error (missingData net dependencies) := by
  rw [lookupNumber, getProbability_of_missing net event dependencies ev hev
    (read_value_of_none ev.probabilities dependencies hp)]
  rfl

theorem lookupNumber_of_unknown (net : Network) (event : Int) (dependencies : List Int)
    (hev : eventAt net (norm event) = none) :
    lookupNumber net event dependencies = .error .typeError := by
  rw [lookupNumber, getProbability_of_unknown net event dependencies hev]
  rfl

theorem wholeNumber_scalar (p : ℚ) : wholeNumber (.scalar p) = some p := rfl

theorem wholeNumber_table (cells : List (Int × ℚ)) :
    wholeNumber (.table cells) = if arrayLength cells = 1 then cellAt cells 0 else none := by
  simp only [wholeNumber, readWhole]
  by_cases h : arrayLength cells = 1
  · rw [if_pos h, if_pos h]; cases cellAt cells 0 <;> rfl
  · rw [if_neg h, if_neg h]; rfl

theorem arrayLength_loop (cells : List (Int × ℚ)) : ∀ m : Int,
    cells.foldl (fun m c => max m (c.1 + 1)) m = m ∨
      ∃ c ∈ cells, cells.foldl (fun m c => max m (c.1 + 1)) m = c.1 + 1 := by
  induction cells with
  | nil => intro m; left; rfl
  | cons c cells ih =>
    intro m
    simp only [List.foldl_cons]
    rcases ih (max m (c.1 + 1)) with h | ⟨c', hc', h⟩
    · rcases le_total m (c.1 + 1) with hle | hle
      · right; exact ⟨c, List.mem_cons_self _ _, by rw [h, max_eq_right hle]⟩
      · left; rw [h, max_eq_left hle]
    · right; exact ⟨c', List.mem_cons_of_mem _ hc', h⟩

theorem cellAt_zero_of_length_one (cells : List (Int × ℚ)) (h : arrayLength cells = 1) :
    ∃ p, cellAt cells 0 = some p := by
  rcases arrayLength_loop cells 0 with h0 | ⟨c, hc, h1⟩
  · rw [arrayLength] at h; rw [h0] at h; omega
  · rw [arrayLength] at h
    rw [h] at h1
    have hkey : c.1 = 0 := by omega
    cases hl : cellAt cells 0 with
    | some p => exact ⟨p, rfl⟩
    | none =>
      rw [cellAt, List.lookup_eq_none_iff] at hl
      have := hl c hc
      simp [hkey] at this

theorem missingData_of_nameable (net : Network) (dependencies : List Int)
    (h : ∀ d ∈ dependencies, nameable net d = true) :
    missingData net dependencies = .referenceError := by
  have : dependencies.all (nameable net) = true := List.all_eq_true.mpr h
  simp [missingData, this]

/-- Table indexing up to 31 handles: `probIndex` returns the number whose
bit `i` is 1 exactly when the `i`-th handle is non-negative; the index lies in
`[0, 2^k)`; two lists of length `k` have the same index if and only if they
have the same polarity pattern; and every index in `[0, 2^k)` is the index of
some list of length `k`. -/
theorem probIndex_bijection (k : Nat) (hk : k ≤ 31) :
    (∀ events : List Int, events.length = k →
      0 ≤ probIndex events ∧ probIndex events < 2 ^ k ∧
      ∀ (i : Nat) (hi : i < events.length),
        (probIndex events).toNat.testBit i = decide (events[i] ≥ 0)) ∧
    (∀ a b : List Int, a.length = k → b.length = k →
      (probIndex a = probIndex b ↔
        a.map (fun e => decide (e ≥ 0)) = b.map (fun e => decide (e ≥ 0)))) ∧
    (∀ n : Int, 0 ≤ n → n < 2 ^ k →
      ∃ events : List Int, events.length = k ∧ probIndex events = n) := by
  refine ⟨?_, ?_, ?_⟩
  · intro events hlen
    have hidx := probIndex_eq_patternValue events (by omega)
    have hlt := patternValue_lt events
    refine ⟨by rw [hidx]; exact Int.ofNat_nonneg _, ?_, ?_⟩
    · rw [hidx, ← hlen]; exact_mod_cast hlt
    · intro i hi
      rw [hidx, Int.toNat_ofNat]
      exact patternValue_testBit events i hi
  · intro a b ha hb
    rw [probIndex_eq_patternValue a (by omega), probIndex_eq_patternValue b (by omega),
      ← patternValue_eq_iff a b (by omega)]
    exact Int.ofNat_inj
  · intro n h0 hn
    obtain ⟨es, hl, hv⟩ := patternValue_surj k n.toNat (by
      have : ((n.toNat : Nat) : Int) < ((2 ^ k : Nat) : Int) := by
        rw [Int.toNat_of_nonneg h0]; exact_mod_cast hn
      exact_mod_cast this)
    refine ⟨es, hl, ?_⟩
    rw [probIndex_eq_patternValue es (by omega), hv, Int.toNat_of_nonneg h0]

/-- Witness of `probIndex_bijection` at two handles. -/
theorem probIndex_bijection_witness :
    (∀ events : List Int, events.length = 2 →
      0 ≤ probIndex events ∧ probIndex events < 2 ^ 2 ∧
      ∀ (i : Nat) (hi : i < events.length),
        (probIndex events).toNat.testBit i = decide (events[i] ≥ 0)) ∧
    (∀ a b : List Int, a.length = 2 → b.length = 2 →
      (probIndex a = probIndex b ↔
        a.map (fun e => decide (e ≥ 0)) = b.map (fun e => decide (e ≥ 0)))) ∧
    (∀ n : Int, 0 ≤ n → n < 2 ^ 2 →
      ∃ events : List Int, events.length = 2 ∧ probIndex events = n) :=
  probIndex_bijection 2 (by decide)

/-- C9, evaluation at the failing input: with 32 handles of which only the
last is non-negative the index is `-2^31`, outside `[0, 2^32)`; with 33 handles
the list whose only non-negative handle is the first and the list whose only
non-negative handle is the last share the index 1, since `1 << 32` is
`1 << 0`. -/
theorem probIndex_wraps_at_32 :
    probIndex (List.replicate 31 (-1) ++ [0]) = -2147483648 ∧
    ¬ (0 ≤ probIndex (List.replicate 31 (-1) ++ [0])) ∧
    probIndex (0 :: List.replicate 32 (-1)) = 1 ∧
    probIndex (List.replicate 32 (-1) ++ [0]) = 1 ∧
    (0 :: List.replicate 32 (-1) : List Int).map (fun e => decide (e ≥ 0)) ≠
      (List.replicate 32 (-1) ++ [0] : List Int).map (fun e => decide (e ≥ 0)) := by
  decide

/-- The number of a lookup: for every event of the network and every dependency
list naming events of the network, the lookup either yields a number or raises
the missing-data `ReferenceError`; with a non-empty list it raises if and only
if no value is stored at the derived index; with an empty list it raises if and
only if the data is an array whose length is not 1; and a stored 0 yields 0 for
the event and 1 for its negation. -/
theorem lookupNumber_missing_iff (net : Network) (event : Int) (dependencies : List Int)
    (ev : Event) (hev : eventAt net (norm event) = some ev)
    (hdeps : ∀ d ∈ dependencies, nameable net d = true) :
    ((∃ p, lookupNumber net event dependencies = .ok p) ∨
      lookupNumber net event dependencies = .error .referenceError) ∧
    (dependencies ≠ [] →
      (lookupNumber net event dependencies = .error .referenceError ↔
        readIndexed ev.probabilities (probIndex dependencies) = none)) ∧
    (dependencies = [] →
      (lookupNumber net event dependencies = .error .referenceError ↔
        ∃ cells, ev.probabilities = .table cells ∧ arrayLength cells ≠ 1)) ∧
    ((dependencies = [] ∧ ev.probabilities = .scalar 0) ∨
      (dependencies ≠ [] ∧ readIndexed ev.probabilities (probIndex dependencies) = some 0) →
      lookupNumber net (norm event) dependencies = .ok 0 ∧
      lookupNumber net (bnot (norm event)) dependencies = .ok 1) := by
  have hmiss := missingData_of_nameable net dependencies hdeps
  have hn0 := norm_nonneg event
  have hev1 : eventAt net (norm (norm event)) = some ev := by
    rw [norm_of_nonneg hn0]; exact hev
  have hev2 : eventAt net (norm (bnot (norm event))) = some ev := by
    rw [norm_bnot_of_nonneg hn0]; exact hev
  have hneg : bnot (norm event) < 0 := bnot_neg_of_nonneg hn0
  have hlen : dependencies.length = 0 ↔ dependencies = [] := List.length_eq_zero
  have hkey : ∀ r, (if dependencies.length = 0 then wholeNumber ev.probabilities
      else readIndexed ev.probabilities (probIndex dependencies)) = r →
      (r = none → lookupNumber net event dependencies = .error .referenceError) ∧
      (∀ p, r = some p → ∃ q, lookupNumber net event dependencies = .ok q) := by
    intro r hr
    constructor
    · intro h
      rw [lookupNumber_of_none net event dependencies ev hev (hr.trans h), hmiss]
    · intro p h
      rw [lookupNumber_of_some net event dependencies ev p hev (hr.trans h)]
      split <;> exact ⟨_, rfl⟩
  refine ⟨?_, ?_, ?_, ?_⟩
  · cases hr : (if dependencies.length = 0 then wholeNumber ev.probabilities
        else readIndexed ev.probabilities (probIndex dependencies)) with
    | none => right; exact (hkey _ hr).1 rfl
    | some p => left; exact (hkey _ hr).2 p rfl
  · intro hne
    have hl : ¬ dependencies.length = 0 := fun h => hne (hlen.mp h)
    have hk := hkey _ (if_neg hl)
    constructor
    · intro herr
      cases hr : readIndexed ev.probabilities (probIndex dependencies) with
      | none => rfl
      | some p =>
        obtain ⟨q, hq⟩ := hk.2 p hr
        rw [hq] at herr
        cases herr
    · exact hk.1
  · intro he
    have hl : dependencies.length = 0 := hlen.mpr he
    have hk := hkey _ (if_pos hl)
    constructor
    · intro herr
      cases hp : ev.probabilities with
      | scalar p =>
        obtain ⟨q, hq⟩ := hk.2 p (by rw [hp]; rfl)
        rw [hq] at herr
        cases herr
      | table cells =>
        refine ⟨cells, rfl, ?_⟩
        intro h1
        obtain ⟨p, hp0⟩ := cellAt_zero_of_length_one cells h1
        obtain ⟨q, hq⟩ := hk.2 p (by rw [hp, wholeNumber_table, if_pos h1]; exact hp0)
        rw [hq] at herr
        cases herr
    · rintro ⟨cells, hp, h1⟩
      exact hk.1 (by rw [hp, wholeNumber_table, if_neg h1])
  · rintro (⟨he, hs⟩ | ⟨hne, hs⟩)
    · have hl : dependencies.length = 0 := hlen.mpr he
      have hr : (if dependencies.length = 0 then wholeNumber ev.probabilities
          else readIndexed ev.probabilities (probIndex dependencies)) = some 0 := by
        rw [if_pos hl, hs]; rfl
      rw [lookupNumber_of_some net _ dependencies ev 0 hev1 hr,
        lookupNumber_of_some net _ dependencies ev 0 hev2 hr]
      simp [hneg, not_lt.mpr hn0]
    · have hl : ¬ dependencies.length = 0 := fun h => hne (hlen.mp h)
      have hr : (if dependencies.length = 0 then wholeNumber ev.probabilities
          else readIndexed ev.probabilities (probIndex dependencies)) = some 0 := by
        rw [if_neg hl, hs]
      rw [lookupNumber_of_some net _ dependencies ev 0 hev1 hr,
        lookupNumber_of_some net _ dependencies ev 0 hev2 hr]
      simp [hneg, not_lt.mpr hn0]

/-- Witness of `lookupNumber_missing_iff`: event `C` of the test network
under its dependency `A`. -/
theorem lookupNumber_missing_iff_witness :
    eventAt testNetwork (norm 2) = some ⟨.str "C", .table [(0, 4/10), (1, 8/10)], [0]⟩ ∧
    (∀ d ∈ [(0 : Int)], nameable testNetwork d = true) ∧
    ((∃ p, lookupNumber testNetwork 2 [0] = .ok p) ∨
      lookupNumber testNetwork 2 [0] = .error .referenceError) :=
  ⟨rfl, by decide,
    (lookupNumber_missing_iff testNetwork 2 [0] ⟨.str "C", .table [(0, 4/10), (1, 8/10)], [0]⟩
      rfl (by decide)).1⟩

/-- C8, evaluation at the failing input: after `facts(P(e).given().is(3/10))`
the event holds a one-slot array and no scalar.  The lookup with the empty
dependency list does not raise the missing-data error: for `e` it returns the
array itself, which is not a number, and for `~e` it returns the number 7/10. -/
theorem getProbability_returns_the_array :
    (chain (P 0 []) [([], 3/10)]).toOption.map (fun p => facts (blankNetwork 1) [.prob p])
      = some (oneSlotNetwork, none) ∧
    (eventAt oneSlotNetwork 0).map (fun ev => ev.probabilities) = some (.table [(0, 3/10)]) ∧
    getProbability oneSlotNetwork 0 [] = .ok (.array (3/10)) ∧
    getProbability oneSlotNetwork (bnot 0) [] = .ok (.number (7/10)) := by
  decide!

/-- Exact match up to 31 dependencies: for an event `e` whose declared
dependency list has `k ≤ 31` entries, `conditionalProbability([e], depends)`
returns the value stored at index `2^k - 1` (the number itself when `k = 0`) and
`conditionalProbability([~e], depends)` returns 1 minus that value; nothing is
assumed about the other events of the network, so their data is not needed. -/
theorem exact_match_is_lookup (net : Network) (e : Int) (ev : Event) (v : ℚ)
    (he : 0 ≤ e) (hev : eventAt net e = some ev)
    (hnorm : ∀ d ∈ ev.depends, 0 ≤ d) (hk : ev.depends.length ≤ 31)
    (hv : (ev.depends = [] ∧ ev.probabilities = .scalar v) ∨
      (ev.depends ≠ [] ∧
        readIndexed ev.probabilities (2 ^ ev.depends.length - 1) = some v)) :
    conditionalProbability net [e] ev.depends = .ok (.finite v) ∧
    conditionalProbability net [bnot e] ev.depends = .ok (.finite (1 - v)) := by
  have hev1 : eventAt net (norm e) = some ev := by rw [norm_of_nonneg he]; exact hev
  have hev2 : eventAt net (norm (bnot e)) = some ev := by
    rw [norm_bnot_of_nonneg he]; exact hev
  have hneg : bnot e < 0 := bnot_neg_of_nonneg he
  have hidx := probIndex_all_true ev.depends hnorm hk
  have hlen : ev.depends.length = 0 ↔ ev.depends = [] := List.length_eq_zero
  have hread : (if ev.depends.length = 0 then readWhole ev.probabilities
      else (readIndexed ev.probabilities (probIndex ev.depends)).map Value.number)
      = some (.number v) := by
    rcases hv with ⟨h0, hs⟩ | ⟨hne, hs⟩
    · rw [if_pos (hlen.mpr h0), hs]; rfl
    · rw [if_neg (fun h => hne (hlen.mp h)), hidx, hs]; rfl
  have hg1 : getProbability net e ev.depends = .ok (.number v) := by
    rw [getProbability_of_value net e ev.depends ev _ hev1 hread, if_neg (not_lt.mpr he)]
  have hg2 : getProbability net (bnot e) ev.depends = .ok (.number (1 - v)) := by
    rw [getProbability_of_value net (bnot e) ev.depends ev _ hev2 hread, if_pos hneg]
    rfl
  constructor
  · simp only [conditionalProbability, perfectMatch_self net e ev hev1, hg1, Value.toNum]
  · simp only [conditionalProbability, perfectMatch_self net (bnot e) ev hev2, hg2,
      Value.toNum]

/-- Witness of `exact_match_is_lookup`: `P(C | A)` in the test network. -/
theorem exact_match_is_lookup_witness :
    eventAt testNetwork 2 = some ⟨.str "C", .table [(0, 4/10), (1, 8/10)], [0]⟩ ∧
    conditionalProbability testNetwork [2] [0] = .ok (.finite (8/10)) ∧
    conditionalProbability testNetwork [bnot 2] [0] = .ok (.finite (1 - 8/10)) :=
  ⟨rfl,
    exact_match_is_lookup testNetwork 2 ⟨.str "C", .table [(0, 4/10), (1, 8/10)], [0]⟩ (8/10)
      (by decide) rfl (by decide) (by decide) (Or.inr ⟨by decide, by decide!⟩)⟩

/-- The network `wideNetwork` is what the builder and `facts` produce from 33
fresh events. -/
theorem wideNetwork_built :
    facts (blankNetwork 33)
      ((List.range 32).map (fun i => built (invokeIs (P (Int.ofNat i) []) (1/2))) ++
        [built (chain (P 32 []) [((List.range 32).map Int.ofNat, 3/10)])])
      = (wideNetwork, none) := by
  decide!

/-- The network `partialNetwork` is what the builder and `facts` produce from 32
fresh events. -/
theorem partialNetwork_built :
    facts (blankNetwork 32)
      ((List.range 31).map (fun i => built (invokeIs (P (Int.ofNat i) []) (1/2))) ++
        [built (chain (P 31 []) [([-1], 1/2)])])
      = (partialNetwork, none) := by
  decide!

/-- With 32 dependencies the assignment `P(32).given(0, ..., 31).is(3/10)`
writes slot `-1`; index `2^32 - 1` holds nothing, and the exact-match query
returns the value of slot `-1`, which is the value stored for the all-true
combination. -/
theorem exact_match_reads_slot_minus_one :
    (chain (P 32 []) [((List.range 32).map Int.ofNat, 3/10)]).toOption.map
        (fun p => (p.depends, p.probabilities))
      = some ((List.range 32).map Int.ofNat, .table [(-1, 3/10)]) ∧
    (eventAt wideNetwork 32).map
        (fun ev => (ev.depends.length, readIndexed ev.probabilities (2 ^ 32 - 1),
          readIndexed ev.probabilities (-1)))
      = some (32, none, some (3/10)) ∧
    conditionalProbability wideNetwork [32] ((List.range 32).map Int.ofNat)
      = .ok (.finite (3/10)) := by
  decide!

/-- C3, evaluation at the failing input: event 33 with the 33 dependencies
`0, ..., 32`. The builder stores 3/10 for the combination in which all
dependencies are true and then 8/10 for the combination in which only
dependency 32 is false; both assignments write slot `-1`, since `1 << 32` is
`1 << 0`. The exact-match query with all dependencies true returns 8/10, the
value stored for the other combination, and index `2^33 - 1` holds nothing. -/
theorem exact_match_returns_overwritten_value :
    (chain (P 33 [])
        [((List.range 33).map Int.ofNat, 3/10),
         (signed ((List.range 33).map Int.ofNat) (List.replicate 32 true ++ [false]), 8/10)]
      ).toOption.map (fun p => (p.depends, p.probabilities))
      = some ((List.range 33).map Int.ofNat, .table [(-1, 8/10), (-1, 3/10)]) ∧
    ((patternValue ((List.range 33).map Int.ofNat) : Nat) : Int) = 2 ^ 33 - 1 ∧
    readIndexed (.table [(-1, 8/10), (-1, 3/10)]) (2 ^ 33 - 1) = none ∧
    (chain (P 33 [])
        [((List.range 33).map Int.ofNat, 3/10),
         (signed ((List.range 33).map Int.ofNat) (List.replicate 32 true ++ [false]), 8/10)]
      ).toOption.map (fun p =>
        conditionalProbability (facts (blankNetwork 34) [.prob p]).1 [33]
          ((List.range 33).map Int.ofNat))
      = some (.ok (.finite (8/10))) := by
  decide!

/-- C2, evaluation at the failing input: in the test network the joint query
`P(A, B)` with no observation returns 3/10, the stored probability of `A`
alone, while the enumeration ratio is `(9/50) / 1`. -/
theorem joint_query_answered_by_first_target :
    conditionalProbability testNetwork [0, 1] [] = .ok (.finite (3/10)) ∧
    getProbability testNetwork 0 [] = .ok (.number (3/10)) ∧
    sumOfJoint testNetwork ((assignments [2, 3, 4]).map (fun s => [0, 1] ++ [] ++ s))
      = some (9/50) ∧
    sumOfJoint testNetwork ((assignments [2, 3, 4, 0, 1]).map (fun t => [] ++ t)) = some 1 := by
  decide!

/-! ## The builder -/

theorem signed_length : ∀ (D : List Int) (c : List Bool), c.length = D.length →
    (signed D c).length = D.length := by
  intro D c h
  simp [signed, h]

theorem signed_map_norm : ∀ (D : List Int) (c : List Bool), (∀ d ∈ D, 0 ≤ d) →
    c.length = D.length → (signed D c).map norm = D
  | [], [], _, _ => rfl
  | [], _ :: _, _, h => by simp at h
  | _ :: _, [], _, h => by simp at h
  | d :: D, b :: c, hD, h => by
    have ih := signed_map_norm D c (fun x hx => hD x (List.mem_cons_of_mem _ hx))
      (by simpa using h)
    have hd : 0 ≤ d := hD d (List.mem_cons_self _ _)
    have ih2 : List.map norm (List.zipWith (fun d b => if b = true then d else bnot d) D c) = D := ih
    cases b <;> simp [signed, List.zipWith, norm_of_nonneg hd, norm_bnot_of_nonneg hd, ih2]

theorem signed_polarity : ∀ (D : List Int) (c : List Bool), (∀ d ∈ D, 0 ≤ d) →
    c.length = D.length → (signed D c).map (fun e => decide (e ≥ 0)) = c
  | [], [], _, _ => rfl
  | [], _ :: _, _, h => by simp at h
  | _ :: _, [], _, h => by simp at h
  | d :: D, b :: c, hD, h => by
    have ih := signed_polarity D c (fun x hx => hD x (List.mem_cons_of_mem _ hx))
      (by simpa using h)
    have hd : 0 ≤ d := hD d (List.mem_cons_self _ _)
    have hb : ¬ (0 ≤ bnot d) := not_le.mpr (bnot_neg_of_nonneg hd)
    have ih2 : List.map (fun e => decide (e ≥ 0))
        (List.zipWith (fun d b => if b = true then d else bnot d) D c) = c := ih
    cases b <;> simp [signed, List.zipWith, hd, hb] <;> simpa using ih2

theorem probIndex_signed_inj (D : List Int) (c c' : List Bool) (hD : ∀ d ∈ D, 0 ≤ d)
    (hk : D.length ≤ 32) (hc : c.length = D.length) (hc' : c'.length = D.length)
    (h : probIndex (signed D c) = probIndex (signed D c')) : c = c' := by
  have l1 := signed_length D c hc
  have l2 := signed_length D c' hc'
  rw [probIndex, probIndex, probIndexLoop_zero _ (by omega), probIndexLoop_zero _ (by omega)] at h
  have hlt1 := patternValue_lt (signed D c)
  have hlt2 := patternValue_lt (signed D c')
  have hp : (2 : Nat) ^ D.length ≤ 2 ^ 32 := Nat.pow_le_pow_right (by norm_num) hk
  rw [l1] at hlt1
  rw [l2] at hlt2
  have := toInt32_injOn (by omega) (by omega) h
  rw [patternValue_eq_iff _ _ (by omega), signed_polarity D c hD hc,
    signed_polarity D c' hD hc'] at this
  exact this

theorem lookup_of_mem_nodup : ∀ (l : List (Int × ℚ)) (k : Int) (v : ℚ),
    (l.map Prod.fst).Nodup → (k, v) ∈ l → l.lookup k = some v
  | [], _, _, _, h => by simp at h
  | (k', v') :: l, k, v, hnd, h => by
    simp only [List.map_cons, List.nodup_cons] at hnd
    rcases List.mem_cons.mp h with heq | hmem
    · cases heq; simp
    · have hne : k ≠ k' := by
        rintro rfl
        exact hnd.1 (List.mem_map.mpr ⟨(k, v), hmem, rfl⟩)
      rw [List.lookup_cons]
      have : (k == k') = false := by simpa using hne
      rw [this]
      exact lookup_of_mem_nodup l k v hnd.2 hmem

theorem percent_eq (v : ℚ) : (if v > 1 then v / 100 else v) = percent v := rfl

theorem chain_ok (e : Int) (he : 0 ≤ e) (D : List Int) (hD : ∀ d ∈ D, 0 ≤ d) :
    ∀ (calls : List (List Bool × ℚ)) (p : Prob) (cells : List (Int × ℚ)),
    p.event = e → p.given = .conditional → p.probabilities = .table cells →
    (p.depends = [] ∨ p.depends = D) →
    (∀ cv ∈ calls, cv.1.length = D.length) → (∀ cv ∈ calls, 0 ≤ cv.2 ∧ cv.2 ≤ 100) →
    ∃ p', chain p (calls.map (fun cv => (signed D cv.1, cv.2))) = .ok p' ∧
      p'.event = e ∧ p'.given = .conditional ∧
      p'.probabilities = .table
        ((calls.reverse.map (fun cv => (probIndex (signed D cv.1), percent cv.2))) ++ cells) ∧
      (calls ≠ [] → p'.depends = D) := by
  intro calls
  induction calls with
  | nil =>
    intro p cells h1 h2 h3 _ _ _
    exact ⟨p, rfl, h1, h2, by simpa using h3, fun h => absurd rfl h⟩
  | cons cv rest ih =>
    intro p cells h1 h2 h3 h4 hc hv
    have hlen := hc cv (List.mem_cons_self _ _)
    obtain ⟨hv0, hv100⟩ := hv cv (List.mem_cons_self _ _)
    have hdep : (if p.depends.length = 0 then (signed D cv.1).map norm else p.depends) = D := by
      rw [signed_map_norm D cv.1 hD hlen]
      rcases h4 with h | h
      · simp [h]
      · rw [h]; split <;> rfl
    have hrange : ¬ (cv.2 < 0 ∨ cv.2 > 100) := by
      rintro (h | h)
      · exact absurd hv0 (not_le.mpr h)
      · exact absurd hv100 (not_le.mpr h)
    have hneg : ¬ e < 0 := not_lt.mpr he
    obtain ⟨p', hp', r1, r2, r3, r4⟩ := ih
      ⟨e, D, .table ((probIndex (signed D cv.1), percent cv.2) :: cells), .undefined,
        .conditional, .ofEvent (signed D cv.1)⟩
      ((probIndex (signed D cv.1), percent cv.2) :: cells) rfl rfl rfl (Or.inr rfl)
      (fun x hx => hc x (List.mem_cons_of_mem _ hx))
      (fun x hx => hv x (List.mem_cons_of_mem _ hx))
    refine ⟨p', ?_, r1, r2, ?_, fun _ => ?_⟩
    · simp only [List.map_cons, chain, invokeGiven, h2, createConditional, invokeIs,
        setProbability, hrange, if_false, h1, hneg, h3, writeIndexed, hdep, percent_eq]
      exact hp'
    · rw [r3]; simp
    · by_cases hr : rest = []
      · subst hr
        simp only [List.map_nil, chain] at hp'
        cases hp'
        rfl
      · exact r4 hr

theorem eventAt_nonneg {net : Network} {e : Int} {ev : Event} (h : eventAt net e = some ev) :
    0 ≤ e := by
  by_contra hneg
  simp [eventAt, not_le.mp hneg] at h

theorem eventAt_set_self (net : Network) (e : Int) (ev new : Event)
    (h : eventAt net e = some ev) : eventAt (net.set e.toNat new) e = some new := by
  have he := eventAt_nonneg h
  simp only [eventAt, not_lt.mpr he, if_false, List.get?_eq_getElem?] at h ⊢
  rw [List.getElem?_set_self', h]
  rfl

theorem facts_single (net : Network) (p : Prob) (ev : Event)
    (h : eventAt net p.event = some ev) :
    facts net [.prob p] = (net.set p.event.toNat ⟨ev.id, p.probabilities, p.depends⟩, none) := by
  simp only [facts, h]

theorem round_trip_read (D : List Int) (calls : List (List Bool × ℚ))
    (hD : ∀ d ∈ D, 0 ≤ d) (hk : D.length ≤ 32) (hne : calls ≠ [])
    (hcomb : ∀ cv ∈ calls, cv.1.length = D.length)
    (hnd : (calls.map Prod.fst).Nodup) (cv : List Bool × ℚ) (hcv : cv ∈ calls) :
    (if (signed D cv.1).length = 0
      then wholeNumber (.table (calls.reverse.map
        (fun cv => (probIndex (signed D cv.1), percent cv.2))))
      else readIndexed (.table (calls.reverse.map
        (fun cv => (probIndex (signed D cv.1), percent cv.2))))
        (probIndex (signed D cv.1))) = some (percent cv.2) := by
  have hlen := signed_length D cv.1 (hcomb cv hcv)
  by_cases h0 : D.length = 0
  · -- no parent: the single call wrote slot 0
    have hD0 : D = [] := List.length_eq_zero.mp h0
    subst hD0
    have hall : ∀ x ∈ calls, x.1 = [] := fun x hx =>
      List.length_eq_zero.mp (by simpa using hcomb x hx)
    have hsingle : calls = [cv] := by
      match calls, hne, hnd, hall, hcv with
      | [a], _, _, _, hcv =>
        have : cv = a := by simpa using hcv
        rw [this]
      | a :: b :: rest, _, hnd, hall, _ =>
        exfalso
        have ha := hall a (by simp)
        have hb := hall b (by simp)
        simp only [List.map_cons, List.nodup_cons, List.mem_cons] at hnd
        exact hnd.1 (Or.inl (ha.trans hb.symm))
    have hc0 : cv.1 = [] := hall cv hcv
    rw [hsingle]
    simp only [hc0, signed, List.zipWith_nil_left, List.length_nil, if_true,
      List.reverse_cons, List.reverse_nil, List.nil_append, List.map_cons, List.map_nil]
    have h2 : probIndex [] = 0 := by decide
    have h1 : arrayLength [(probIndex [], percent cv.2)] = 1 := by
      rw [h2]; simp [arrayLength]
    rw [wholeNumber_table, if_pos h1, cellAt, h2]
    exact List.lookup_cons_self
  · rw [if_neg (by omega)]
    simp only [readIndexed, cellAt]
    apply lookup_of_mem_nodup
    · rw [List.map_map]
      have hrev : (calls.reverse.map Prod.fst).Nodup := by
        rw [List.map_reverse]; exact List.nodup_reverse.mpr hnd
      have hmap : List.map (Prod.fst ∘ fun cv : List Bool × ℚ =>
          (probIndex (signed D cv.1), percent cv.2)) calls.reverse
          = (calls.reverse.map Prod.fst).map (fun c => probIndex (signed D c)) := by
        rw [List.map_map]; rfl
      rw [hmap]
      apply List.Nodup.map_on _ hrev
      intro x hx y hy hxy
      obtain ⟨cx, hcx, rfl⟩ := List.mem_map.mp hx
      obtain ⟨cy, hcy, rfl⟩ := List.mem_map.mp hy
      exact probIndex_signed_inj D _ _ hD hk (hcomb cx (List.mem_reverse.mp hcx))
        (hcomb cy (List.mem_reverse.mp hcy)) hxy
    · exact List.mem_map.mpr ⟨cv, List.mem_reverse.mpr hcv, rfl⟩

/-- The round trip up to 32 parents, in the numbers that arithmetic makes of
the lookups: a builder for event `e` that is given `given(c).is(v)` calls for distinct polarity combinations `c` of the parent list
`D` (handles in the order of `D`, values in `[0, 100]`) and is then committed
with `facts` leaves `D` as the dependencies of `e`, and for every call the
lookup of `e` under `c` returns the normalised value and the lookup of `~e`
returns 1 minus it; so no call changes the value stored by another. -/
theorem store_lookup_round_trip (net : Network) (e : Int) (ev : Event) (D : List Int)
    (calls : List (List Bool × ℚ))
    (hev : eventAt net e = some ev) (hD : ∀ d ∈ D, 0 ≤ d) (hk : D.length ≤ 32)
    (hne : calls ≠ [])
    (hcomb : ∀ cv ∈ calls, cv.1.length = D.length)
    (hval : ∀ cv ∈ calls, 0 ≤ cv.2 ∧ cv.2 ≤ 100)
    (hnd : (calls.map Prod.fst).Nodup) :
    ∃ (p : Prob) (net' : Network),
      chain (P e []) (calls.map (fun cv => (signed D cv.1, cv.2))) = .ok p ∧
      facts net [.prob p] = (net', none) ∧
      (eventAt net' e).map (fun x => x.depends) = some D ∧
      ∀ cv ∈ calls,
        lookupNumber net' e (signed D cv.1) = .ok (percent cv.2) ∧
        lookupNumber net' (bnot e) (signed D cv.1) = .ok (1 - percent cv.2) := by
  have he := eventAt_nonneg hev
  obtain ⟨p, hp, r1, _, r3, r4⟩ := chain_ok e he D hD calls (P e []) [] rfl rfl rfl
    (Or.inl rfl) hcomb hval
  have hdep := r4 hne
  have hev' : eventAt net p.event = some ev := by rw [r1]; exact hev
  have hfacts := facts_single net p ev hev'
  rw [r1, r3, hdep, List.append_nil] at hfacts
  have hat := eventAt_set_self net e ev
    ⟨ev.id, .table (calls.reverse.map (fun cv => (probIndex (signed D cv.1), percent cv.2))), D⟩
    hev
  refine ⟨p, _, hp, hfacts, by rw [hat]; rfl, ?_⟩
  intro cv hcv
  have hread := round_trip_read D calls hD hk hne hcomb hnd cv hcv
  have hneg : bnot e < 0 := bnot_neg_of_nonneg he
  constructor
  · rw [lookupNumber_of_some _ e _ _ (percent cv.2)
      (by rw [norm_of_nonneg he]; exact hat) hread]
    simp [not_lt.mpr he]
  · rw [lookupNumber_of_some _ (bnot e) _ _ (percent cv.2)
      (by rw [norm_bnot_of_nonneg he]; exact hat) hread]
    simp [hneg]


/-- Witness of `store_lookup_round_trip`: the test
`P(e1).given(e2).is(0.1).given(~e2).is(90)` on two events. -/
theorem store_lookup_round_trip_witness :
    eventAt (blankNetwork 2) 1 = some ⟨.num 1, .table [], []⟩ ∧
    ∃ (p : Prob) (net' : Network),
      chain (P 1 []) ([([true], (1/10 : ℚ)), ([false], 90)].map
        (fun cv => (signed [0] cv.1, cv.2))) = .ok p ∧
      facts (blankNetwork 2) [.prob p] = (net', none) ∧
      (eventAt net' 1).map (fun x => x.depends) = some [0] ∧
      ∀ cv ∈ [([true], (1/10 : ℚ)), ([false], 90)],
        lookupNumber net' 1 (signed [0] cv.1) = .ok (percent cv.2) ∧
        lookupNumber net' (bnot 1) (signed [0] cv.1) = .ok (1 - percent cv.2) :=
  ⟨rfl, store_lookup_round_trip (blankNetwork 2) 1 ⟨.num 1, .table [], []⟩ [0]
    [([true], 1/10), ([false], 90)] rfl (by decide) (by decide) (List.cons_ne_nil _ _)
    (by intro cv hcv; simp at hcv; rcases hcv with rfl | rfl <;> rfl)
    (by intro cv hcv; simp at hcv; rcases hcv with rfl | rfl <;> norm_num)
    (by decide)⟩

/-- C10, evaluation at the failing input: event 33 with the 33 parents
`0, ..., 32`. The builder stores 1/5 for the combination "only parent 0 true"
and then 7/10 for the combination "only parent 32 true"; both calls write slot
1, since `1 << 32` is `1 << 0`, so the second assignment replaces the value
stored by the first, and after `facts` the lookup under the first combination
returns 7/10 instead of the stored 1/5. -/
theorem store_lookup_aliases_at_33 :
    (chain (P 33 [])
        [(signed ((List.range 33).map Int.ofNat) (true :: List.replicate 32 false), 1/5),
         (signed ((List.range 33).map Int.ofNat) (List.replicate 32 false ++ [true]),
           7/10)]).toOption.map (fun p => (p.depends, p.probabilities))
      = some ((List.range 33).map Int.ofNat, .table [(1, 7/10), (1, 1/5)]) ∧
    (chain (P 33 [])
        [(signed ((List.range 33).map Int.ofNat) (true :: List.replicate 32 false), 1/5),
         (signed ((List.range 33).map Int.ofNat) (List.replicate 32 false ++ [true]),
           7/10)]).toOption.map (fun p =>
        getProbability (facts (blankNetwork 34) [.prob p]).1 33
          (signed ((List.range 33).map Int.ofNat) (true :: List.replicate 32 false)))
      = some (.ok (.number (7/10))) := by
  decide!

/-! ## Joint probability -/

theorem jointLoop_cons (net : Network) (events : List Int) (e : Int) (rest : List Int)
    (acc : ℚ) :
    jointLoop net events (e :: rest) acc =
      match termFactor net events e with
      | .error err => .error err
      | .ok p => jointLoop net events rest (acc * p) := by
  simp only [jointLoop, termFactor]
  cases eventAt net (norm e) with
  | none => rfl
  | some event =>
    simp only [lookupNumber]
    cases getProbability net e (applyConditions event.depends events) <;> rfl

theorem jointLoop_of_factors (net : Network) (events : List Int) (f : Int → Option ℚ) :
    ∀ (rest : List Int) (acc : ℚ),
    (∀ t ∈ rest, termFactor net events t = orMissing (f t)) →
    jointLoop net events rest acc
      = orMissing ((productOf (rest.map f)).map (fun q => acc * q)) := by
  intro rest
  induction rest with
  | nil => intro acc _; simp [jointLoop, productOf, orMissing]
  | cons t rest ih =>
    intro acc h
    have ht := h t (List.mem_cons_self _ _)
    have ih' := fun a => ih a (fun x hx => h x (List.mem_cons_of_mem _ hx))
    rw [jointLoop_cons, ht]
    cases hf : f t with
    | none => simp [orMissing, productOf, hf]
    | some p =>
      simp only [orMissing, List.map_cons, productOf, hf]
      rw [ih' (acc * p)]
      cases productOf (rest.map f) with
      | none => rfl
      | some q => simp [orMissing, mul_assoc]

theorem productOf_perm {l₁ l₂ : List (Option ℚ)} (h : l₁.Perm l₂) :
    productOf l₁ = productOf l₂ := by
  induction h with
  | nil => rfl
  | cons x _ ih => cases x <;> simp only [productOf, ih]
  | swap x y l =>
    cases x <;> cases y <;> cases h : productOf l <;> simp [productOf, h, mul_left_comm]
  | trans _ _ ih₁ ih₂ => exact ih₁.trans ih₂

theorem handles_mem {net : Network} {v : Int} :
    v ∈ handles net ↔ 0 ≤ v ∧ v < net.length := by
  simp only [handles, List.mem_map, List.mem_range, Int.ofNat_eq_coe]
  constructor
  · rintro ⟨k, hk, rfl⟩; omega
  · rintro ⟨h0, h1⟩; exact ⟨v.toNat, by omega, by omega⟩

theorem handles_nodup (net : Network) : (handles net).Nodup := by
  unfold handles
  apply List.Nodup.map_on _ (List.nodup_range _)
  intro x _ y _ h
  exact Int.ofNat_inj.mp h

theorem eventAt_isSome_iff {net : Network} {v : Int} :
    (∃ ev, eventAt net v = some ev) ↔ 0 ≤ v ∧ v < net.length := by
  unfold eventAt
  constructor
  · rintro ⟨ev, h⟩
    split at h
    · cases h
    · rename_i hv
      rw [List.get?_eq_some] at h
      obtain ⟨hlt, _⟩ := h
      omega
  · rintro ⟨h0, h1⟩
    rw [if_neg (by omega)]
    have : v.toNat < net.length := by omega
    exact ⟨net.get ⟨v.toNat, this⟩, List.get?_eq_get this⟩

theorem eventAt_mem {net : Network} {v : Int} {ev : Event} (h : eventAt net v = some ev) :
    ev ∈ net := by
  unfold eventAt at h
  split at h
  · cases h
  · exact List.get?_mem h

theorem norm_eq_cases (t : Int) : t = norm t ∨ t = bnot (norm t) := by
  unfold norm bnot
  split <;> omega

theorem bnot_ne_self (d : Int) : bnot d ≠ d := by unfold bnot; omega

/-- In a full assignment an event of the network is present in exactly one
polarity. -/
theorem fullAssignment_polarity {net : Network} {terms : List Int}
    (hfull : FullAssignment net terms) {d : Int} (h0 : 0 ≤ d) (h1 : d < net.length) :
    (d ∈ terms ↔ bnot d ∉ terms) := by
  have hnd : (terms.map norm).Nodup := (List.Perm.nodup_iff hfull).mpr (handles_nodup net)
  have hmem : d ∈ terms.map norm := (List.Perm.mem_iff hfull).mpr (handles_mem.mpr ⟨h0, h1⟩)
  constructor
  · intro hd hb
    have := List.inj_on_of_nodup_map hnd hd hb
      (by rw [norm_of_nonneg h0, norm_bnot_of_nonneg h0])
    exact bnot_ne_self d this.symm
  · intro hb
    obtain ⟨t, ht, hn⟩ := List.mem_map.mp hmem
    rcases norm_eq_cases t with h | h
    · rw [hn] at h; rw [← h]; exact ht
    · rw [hn] at h; rw [h] at ht; exact absurd ht hb

theorem applyConditions_length (depends events : List Int) :
    (applyConditions depends events).length = depends.length := by
  simp [applyConditions]

theorem nameable_applyConditions (net : Network) (depends events : List Int)
    (h : ∀ d ∈ depends, 0 ≤ d ∧ d < net.length) :
    ∀ x ∈ applyConditions depends events, nameable net x = true := by
  intro x hx
  obtain ⟨d, hd, rfl⟩ := List.mem_map.mp hx
  obtain ⟨h0, h1⟩ := h d hd
  have hn : ∀ y, norm y = d → nameable net y = true := by
    intro y hy
    obtain ⟨ev, hev⟩ := eventAt_isSome_iff.mpr ⟨h0, h1⟩
    simp [nameable, hy, hev]
  split
  · exact hn _ (norm_bnot_of_nonneg h0)
  · exact hn _ (norm_of_nonneg h0)

/-- Under a full assignment the slot that the code derives for an event is the
one whose bits record which dependencies are asserted true. -/
theorem probIndex_applyConditions {net : Network} {terms : List Int}
    (hfull : FullAssignment net terms) (depends : List Int)
    (hd : ∀ d ∈ depends, 0 ≤ d ∧ d < net.length) (hk : depends.length ≤ 31) :
    probIndex (applyConditions depends terms) = assertedIndex depends terms := by
  rw [probIndex_eq_patternValue _ (by rw [applyConditions_length]; exact hk), assertedIndex]
  congr 1
  rw [patternValue_eq_iff _ _ (by simp [applyConditions])]
  simp only [applyConditions, List.map_map]
  apply List.map_congr_left
  intro d hdm
  obtain ⟨h0, h1⟩ := hd d hdm
  have hpol := fullAssignment_polarity hfull h0 h1
  have hb : ¬ (0 ≤ bnot d) := not_le.mpr (bnot_neg_of_nonneg h0)
  by_cases hc : d ∈ terms
  · have : ¬ bnot d ∈ terms := hpol.mp hc
    simp [this, hc, h0]
  · have : bnot d ∈ terms := by
      by_contra hcon; exact hc (hpol.mpr hcon)
    simp [this, hc, hb]

theorem termFactor_eq_chainFactor {net : Network} {terms : List Int}
    (hfull : FullAssignment net terms) (hdeps : DependsOnEvents net)
    (hk : ∀ ev ∈ net, ev.depends.length ≤ 31) (t : Int) (ht : t ∈ terms) :
    termFactor net terms t = orMissing (chainFactor net terms (norm t)) := by
  have hmem : norm t ∈ handles net :=
    (List.Perm.mem_iff hfull).mp (List.mem_map.mpr ⟨t, ht, rfl⟩)
  obtain ⟨h0, h1⟩ := handles_mem.mp hmem
  obtain ⟨ev, hev⟩ := eventAt_isSome_iff.mpr ⟨h0, h1⟩
  have hevm := eventAt_mem hev
  have hd := hdeps ev hevm
  have hidx := probIndex_applyConditions hfull ev.depends hd (hk ev hevm)
  have hmiss := missingData_of_nameable net _ (nameable_applyConditions net ev.depends terms hd)
  have hlen : (applyConditions ev.depends terms).length = 0 ↔ ev.depends = [] := by
    rw [applyConditions_length]; exact List.length_eq_zero
  have hpol := fullAssignment_polarity hfull h0 h1
  -- the polarity of the term itself
  have hsign : (t < 0 ↔ ¬ norm t ∈ terms) := by
    rcases norm_eq_cases t with h | h
    · have : 0 ≤ t := by rw [h]; exact h0
      constructor
      · intro hlt; omega
      · intro hn; rw [← h] at hn; exact absurd ht hn
    · have hlt : t < 0 := by rw [h]; exact bnot_neg_of_nonneg h0
      constructor
      · intro _ hn
        rw [h] at ht
        exact hpol.mp hn ht
      · intro _; exact hlt
  simp only [termFactor, hev, chainFactor]
  cases hr : (if ev.depends = [] then wholeNumber ev.probabilities
      else readIndexed ev.probabilities (assertedIndex ev.depends terms)) with
  | none =>
    have hr' : (if (applyConditions ev.depends terms).length = 0 then wholeNumber ev.probabilities
        else readIndexed ev.probabilities (probIndex (applyConditions ev.depends terms)))
        = none := by
      rw [hidx]; simp only [hlen]; exact hr
    rw [lookupNumber_of_none net t _ ev hev hr', hmiss]
    rfl
  | some p =>
    have hr' : (if (applyConditions ev.depends terms).length = 0 then wholeNumber ev.probabilities
        else readIndexed ev.probabilities (probIndex (applyConditions ev.depends terms)))
        = some p := by
      rw [hidx]; simp only [hlen]; exact hr
    rw [lookupNumber_of_some net t _ ev p hev hr']
    by_cases hlt : t < 0
    · have : ¬ norm t ∈ terms := hsign.mp hlt
      simp [hlt, this, orMissing]
    · have : norm t ∈ terms := by
        by_contra hcon; exact hlt (hsign.mpr hcon)
      simp [hlt, this, orMissing]

/-- Chain rule for events with at most 31 dependencies: for every network
whose dependency lists name events of the network and have at most 31 entries,
and every term list that mentions every event exactly once,
`jointProbability` returns the chain-rule product over all events (each factor
the entry of the event's table at the index whose bit `i` is 1 exactly when the
`i`-th dependency is asserted true, complemented when the event is asserted
false), and raises the missing-data error when a factor has no entry. -/
theorem jointProbability_chain_rule (net : Network) (terms : List Int)
    (hfull : FullAssignment net terms) (hdeps : DependsOnEvents net)
    (hk : ∀ ev ∈ net, ev.depends.length ≤ 31) :
    jointProbability net terms = orMissing (chainRuleProduct net terms) := by
  rw [jointProbability,
    jointLoop_of_factors net terms (fun t => chainFactor net terms (norm t)) terms 1
      (fun t ht => termFactor_eq_chainFactor hfull hdeps hk t ht)]
  have hperm : (terms.map (fun t => chainFactor net terms (norm t))).Perm
      ((handles net).map (chainFactor net terms)) := by
    have := List.Perm.map (chainFactor net terms) hfull
    rwa [List.map_map] at this
  rw [productOf_perm hperm, chainRuleProduct]
  cases productOf ((handles net).map (chainFactor net terms)) with
  | none => rfl
  | some q => simp


/-- Witness of `jointProbability_chain_rule`: a full assignment of the test
network. -/
theorem jointProbability_chain_rule_witness :
    FullAssignment testNetwork [0, -2, 2, -4, 4] ∧ DependsOnEvents testNetwork ∧
    (∀ ev ∈ testNetwork, ev.depends.length ≤ 31) ∧
    jointProbability testNetwork [0, -2, 2, -4, 4]
      = orMissing (chainRuleProduct testNetwork [0, -2, 2, -4, 4]) :=
  ⟨List.Perm.of_eq (by decide), by decide, by decide,
    jointProbability_chain_rule testNetwork [0, -2, 2, -4, 4]
      (List.Perm.of_eq (by decide)) (by decide) (by decide)⟩

/-- With 32 dependencies, under the all-true assignment of `wideNetwork` the
index whose bits record the asserted dependencies is `2^32 - 1`, where the
table of event 32 holds nothing, so the chain-rule product has no value, while
`jointProbability` reads slot `-1`, where the builder stored the value for the
all-true combination. -/
theorem jointProbability_reads_wrapped_slot :
    FullAssignment wideNetwork ((List.range 33).map Int.ofNat) ∧
    DependsOnEvents wideNetwork ∧
    assertedIndex ((List.range 32).map Int.ofNat) ((List.range 33).map Int.ofNat)
      = 2 ^ 32 - 1 ∧
    chainRuleProduct wideNetwork ((List.range 33).map Int.ofNat) = none ∧
    jointProbability wideNetwork ((List.range 33).map Int.ofNat)
      = .ok (3 / 42949672960) :=
  ⟨List.Perm.of_eq (by decide), by decide, by decide, by decide!, by decide!⟩

/-- The network `aliasNetwork` is what the builder produces: 33 events given the
probability one half by `is(1/2)`, and `P(33).given(0, ~1, ..., ~32).is(1/5)`. -/
theorem aliasNetwork_built :
    facts (blankNetwork 34)
      ((List.range 33).map (fun i => built (invokeIs (P (Int.ofNat i) []) (1/2))) ++
        [built (chain (P 33 [])
          [(signed ((List.range 33).map Int.ofNat) (true :: List.replicate 32 false),
            1/5)])])
      = (aliasNetwork, none) := by
  decide!

/-- C4, evaluation at the failing input: in `aliasNetwork` event 33 has the 33
dependencies `0, ..., 32` and one stored value, 1/5, for the combination "only
dependency 0 true" (slot 1). Under the full assignment in which only
dependency 32 and event 33 are true, the index whose bit `i` is 1 exactly when
the `i`-th dependency is asserted true is `2^32`; the table of event 33 holds
nothing there, so the chain-rule product has no value. `jointProbability`
derives index 1, since `1 << 32` is `1 << 0`, and returns the product
`(1/2)^33 * (1/5)` made with the value stored for the other combination. -/
theorem jointProbability_reads_aliased_slot :
    FullAssignment aliasNetwork
      (signed ((List.range 34).map Int.ofNat) (List.replicate 32 false ++ [true, true])) ∧
    DependsOnEvents aliasNetwork ∧
    (eventAt aliasNetwork 33).map (fun ev => (ev.depends, ev.probabilities))
      = some ((List.range 33).map Int.ofNat, .table [(1, 1/5)]) ∧
    assertedIndex ((List.range 33).map Int.ofNat)
      (signed ((List.range 34).map Int.ofNat) (List.replicate 32 false ++ [true, true]))
      = 2 ^ 32 ∧
    readIndexed (.table [(1, 1/5)]) (2 ^ 32) = none ∧
    chainRuleProduct aliasNetwork
      (signed ((List.range 34).map Int.ofNat) (List.replicate 32 false ++ [true, true]))
      = none ∧
    jointProbability aliasNetwork
      (signed ((List.range 34).map Int.ofNat) (List.replicate 32 false ++ [true, true]))
      = .ok (1 / 42949672960) :=
  ⟨List.Perm.of_eq (by decide), by decide, by decide!, by decide, by decide!, by decide!,
    by decide!⟩

/-! ## Enumeration of the nuisance variables -/

theorem shiftLeftOne_of_le {m : Nat} (h : m ≤ 30) : (shiftLeftOne m).toNat = 2 ^ m := by
  have hm : m % 32 = m := Nat.mod_eq_of_lt (by omega)
  have hlt : 2 ^ m < 2 ^ 31 := Nat.pow_lt_pow_right (by norm_num) (by omega)
  rw [shiftLeftOne, hm, Nat.one_shiftLeft, toInt32_of_lt hlt, Int.toNat_ofNat]

theorem nuisanceSigns_succ (i : Nat) : ∀ (l : List Int) (n : Nat), n + 1 + l.length ≤ 32 →
    nuisanceSigns i l (n + 1) = nuisanceSigns (i / 2) l n
  | [], _, _ => rfl
  | h :: l, n, hn => by
    simp only [List.length_cons] at hn
    have h1 : (n + 1) % 32 = n + 1 := Nat.mod_eq_of_lt (by omega)
    have h2 : n % 32 = n := Nat.mod_eq_of_lt (by omega)
    have hs : i >>> (n + 1) = (i / 2) >>> n := by
      rw [Nat.shiftRight_eq_div_pow, Nat.shiftRight_eq_div_pow, Nat.div_div_eq_div_mul,
        pow_succ, Nat.mul_comm]
    simp only [nuisanceSigns, h1, h2, hs]
    rw [nuisanceSigns_succ i l (n + 1) (by omega)]

theorem nuisanceSigns_cons (i : Nat) (h : Int) (l : List Int) (hl : l.length + 1 ≤ 32) :
    nuisanceSigns i (h :: l) 0
      = (if i % 2 = 0 then bnot h else h) :: nuisanceSigns (i / 2) l 0 := by
  simp only [nuisanceSigns, Nat.zero_mod, Nat.shiftRight_zero, Nat.and_one_is_mod, Nat.zero_add]
  rw [nuisanceSigns_succ i l 0 (by omega)]

theorem range_double_perm {β : Type} (a b : Nat → β) : ∀ K : Nat,
    ((List.range (2 * K)).map (fun i => if i % 2 = 0 then a (i / 2) else b (i / 2))).Perm
      ((List.range K).map b ++ (List.range K).map a)
  | 0 => by simp
  | K + 1 => by
    have ih := range_double_perm a b K
    have e1 : 2 * (K + 1) = (2 * K + 1) + 1 := by ring
    have m0 : (2 * K) % 2 = 0 := by omega
    have m1 : (2 * K + 1) % 2 = 1 := by omega
    have d0 : (2 * K) / 2 = K := by omega
    have d1 : (2 * K + 1) / 2 = K := by omega
    rw [e1, List.range_succ, List.range_succ, List.range_succ (n := K)]
    simp only [List.map_append, List.map_cons, List.map_nil, m0, m1, d0, d1, if_true,
      one_ne_zero, if_false, List.append_assoc, List.singleton_append]
    -- X ++ [a K, b K] ~ B ++ (b K :: (A ++ [a K]))
    have h1 := ih.append_right [a K, b K]
    refine h1.trans ?_
    rw [List.append_assoc]
    refine List.Perm.append_left _ ?_
    -- A ++ [a K, b K] ~ b K :: (A ++ [a K])
    have h2 : (List.map a (List.range K) ++ [a K, b K]).Perm
        (b K :: (List.map a (List.range K) ++ [a K])) := by
      have : List.map a (List.range K) ++ [a K, b K]
          = (List.map a (List.range K) ++ [a K]) ++ [b K] := by simp
      rw [this]
      exact List.perm_append_singleton _ _
    exact h2

/-- For at most 30 free variables the bit counter of `nuisanceIterate` yields
every truth assignment of them exactly once. -/
theorem nuisanceSigns_perm : ∀ (l : List Int), l.length ≤ 30 →
    ((List.range (2 ^ l.length)).map (fun i => nuisanceSigns i l 0)).Perm (assignments l)
  | [], _ => by simp [nuisanceSigns, assignments]
  | h :: l, hl => by
    simp only [List.length_cons] at hl
    have ih := nuisanceSigns_perm l (by omega)
    have hfun : (fun i => nuisanceSigns i (h :: l) 0)
        = (fun i => if i % 2 = 0 then (fun j => bnot h :: nuisanceSigns j l 0) (i / 2)
            else (fun j => h :: nuisanceSigns j l 0) (i / 2)) := by
      funext i
      rw [nuisanceSigns_cons i h l (by omega)]
      split <;> rfl
    rw [List.length_cons, pow_succ, Nat.mul_comm, hfun]
    refine (range_double_perm (fun j => bnot h :: nuisanceSigns j l 0)
      (fun j => h :: nuisanceSigns j l 0) (2 ^ l.length)).trans ?_
    simp only [assignments]
    have e1 : (List.range (2 ^ l.length)).map (fun j => h :: nuisanceSigns j l 0)
        = ((List.range (2 ^ l.length)).map (fun j => nuisanceSigns j l 0)).map
            (fun s => h :: s) := by
      rw [List.map_map]; rfl
    have e2 : (List.range (2 ^ l.length)).map (fun j => bnot h :: nuisanceSigns j l 0)
        = ((List.range (2 ^ l.length)).map (fun j => nuisanceSigns j l 0)).map
            (fun s => bnot h :: s) := by
      rw [List.map_map]; rfl
    rw [e1, e2]
    exact (ih.map _).append (ih.map _)

theorem nuisanceIterate_perm (depends nuisance : List Int) (h : nuisance.length ≤ 30) :
    (nuisanceIterate depends nuisance).Perm ((assignments nuisance).map (fun s => depends ++ s)) := by
  rw [nuisanceIterate, shiftLeftOne_of_le h]
  have := (nuisanceSigns_perm nuisance h).map (fun s => depends ++ s)
  rwa [List.map_map] at this

theorem assignments_norm_perm : ∀ (l : List Int),
    (assignments l).Perm (assignments (l.map norm))
  | [] => List.Perm.refl _
  | h :: l => by
    have ih := assignments_norm_perm l
    simp only [assignments, List.map_cons]
    by_cases hh : 0 ≤ h
    · rw [norm_of_nonneg hh]
      exact (ih.map _).append (ih.map _)
    · have hn : norm h = bnot h := by simp [norm, hh]
      rw [hn, bnot_bnot]
      exact ((ih.map _).append (ih.map _)).trans List.perm_append_comm

theorem assignments_length (l : List Int) : (assignments l).length = 2 ^ l.length := by
  induction l with
  | nil => rfl
  | cons h l ih => simp [assignments, ih, pow_succ]; ring

theorem mem_assignments_map_norm : ∀ (l : List Int), (∀ h ∈ l, 0 ≤ h) →
    ∀ s ∈ assignments l, s.map norm = l
  | [], _, s, hs => by
    simp [assignments] at hs; subst hs; rfl
  | h :: l, hl, s, hs => by
    have h0 := hl h (List.mem_cons_self _ _)
    have ih := mem_assignments_map_norm l (fun x hx => hl x (List.mem_cons_of_mem _ hx))
    simp only [assignments, List.mem_append, List.mem_map] at hs
    rcases hs with ⟨s', hs', rfl⟩ | ⟨s', hs', rfl⟩
    · simp [norm_of_nonneg h0, ih s' hs']
    · simp [norm_bnot_of_nonneg h0, ih s' hs']

theorem signBy_mem_assignments (choose : Int → Bool) : ∀ (l : List Int),
    l.map (fun h => if choose h then h else bnot h) ∈ assignments l
  | [] => by simp [assignments]
  | h :: l => by
    have ih := signBy_mem_assignments choose l
    simp only [assignments, List.map_cons, List.mem_append, List.mem_map]
    by_cases hc : choose h = true
    · left; exact ⟨_, ih, by simp [hc]⟩
    · right; exact ⟨_, ih, by simp [hc]⟩

/-! ## Sums of joint probabilities -/

theorem sumOfJoint_perm (net : Network) {l₁ l₂ : List (List Int)} (h : l₁.Perm l₂) :
    sumOfJoint net l₁ = sumOfJoint net l₂ := by
  induction h with
  | nil => rfl
  | cons x _ ih => simp only [sumOfJoint, ih]
  | swap x y l =>
    simp only [sumOfJoint]
    cases jointProbability net x <;> cases jointProbability net y <;>
      cases sumOfJoint net l <;> simp [add_left_comm]
  | trans _ _ ih₁ ih₂ => exact ih₁.trans ih₂

theorem sumJoint_of_sum (net : Network) (fixed : List Int) :
    ∀ (L : List (List Int)) (acc s : ℚ),
    sumOfJoint net (L.map (fun c => fixed ++ c)) = some s →
    sumJoint net fixed L acc = .ok (acc + s) := by
  intro L
  induction L with
  | nil =>
    intro acc s h
    simp only [List.map_nil, sumOfJoint, Option.some.injEq] at h
    simp [sumJoint, ← h]
  | cons c L ih =>
    intro acc s h
    simp only [List.map_cons, sumOfJoint] at h
    cases hj : jointProbability net (fixed ++ c) with
    | error err => rw [hj] at h; cases h
    | ok p =>
      rw [hj] at h
      cases hs : sumOfJoint net (L.map (fun c => fixed ++ c)) with
      | none => rw [hs] at h; cases h
      | some s' =>
        rw [hs] at h
        simp only [Option.map_some', Option.some.injEq] at h
        simp only [sumJoint, hj]
        rw [ih (acc + p) s' hs, ← h, add_assoc]

/-! ## Nuisance variables -/

theorem contains_iff_mem {l : List Int} {a : Int} : l.contains a = true ↔ a ∈ l := by
  simp [List.contains]

theorem nuisanceVariables_eq (net : Network) (events : List Int) :
    nuisanceVariables net events
      = (handles net).filter (fun d => !(events.map norm).contains d) := rfl

theorem mem_nuisanceVariables {net : Network} {events : List Int} {h : Int} :
    h ∈ nuisanceVariables net events ↔
      (0 ≤ h ∧ h < net.length) ∧ ∀ t ∈ events, norm t ≠ h := by
  rw [nuisanceVariables_eq, List.mem_filter, handles_mem]
  have : (List.map norm events).contains h = false ↔ ∀ t ∈ events, norm t ≠ h := by
    rw [← Bool.not_eq_true, contains_iff_mem, List.mem_map]
    constructor
    · intro hn t ht heq; exact hn ⟨t, ht, heq⟩
    · rintro hn ⟨t, ht, heq⟩; exact hn t ht heq
  simp only [Bool.not_eq_true', this]

theorem nuisanceVariables_nodup (net : Network) (events : List Int) :
    (nuisanceVariables net events).Nodup := by
  rw [nuisanceVariables_eq]
  exact (handles_nodup net).filter _

theorem nuisanceVariables_nonneg (net : Network) (events : List Int) :
    ∀ h ∈ nuisanceVariables net events, 0 ≤ h :=
  fun _ hh => (mem_nuisanceVariables.mp hh).1.1

theorem handles_length (net : Network) : (handles net).length = net.length := by
  simp [handles]

theorem map_norm_of_nonneg : ∀ (l : List Int), (∀ h ∈ l, 0 ≤ h) → l.map norm = l
  | [], _ => rfl
  | h :: l, hl => by
    rw [List.map_cons, norm_of_nonneg (hl h (List.mem_cons_self _ _)),
      map_norm_of_nonneg l (fun x hx => hl x (List.mem_cons_of_mem _ hx))]

/-- The free variables of the denominator, the nuisance variables and the
targets, are distinct events of the network. -/
theorem nuisance_targets_length (net : Network) (targets observations : List Int)
    (hmention : ∀ t ∈ targets ++ observations, norm t < net.length)
    (hdistinct : ((targets ++ observations).map norm).Nodup) :
    (nuisanceVariables net (targets ++ observations) ++ targets).length ≤ net.length := by
  have hnd : (nuisanceVariables net (targets ++ observations) ++ targets.map norm).Nodup := by
    rw [List.nodup_append]
    refine ⟨nuisanceVariables_nodup _ _, ?_, ?_⟩
    · rw [List.map_append, List.nodup_append] at hdistinct
      exact hdistinct.1
    · intro x hx hy
      obtain ⟨t, ht, rfl⟩ := List.mem_map.mp hy
      exact (mem_nuisanceVariables.mp hx).2 t (List.mem_append_left _ ht) rfl
  have hsub : nuisanceVariables net (targets ++ observations) ++ targets.map norm
      ⊆ handles net := by
    intro x hx
    rcases List.mem_append.mp hx with h | h
    · exact handles_mem.mpr (mem_nuisanceVariables.mp h).1
    · obtain ⟨t, ht, rfl⟩ := List.mem_map.mp h
      exact handles_mem.mpr ⟨norm_nonneg t, hmention t (List.mem_append_left _ ht)⟩
  have := (List.subperm_of_subset hnd hsub).length_le
  rw [handles_length] at this
  simpa using this

/-- The enumeration path of `conditionalProbability` returns the quotient of
the two sums over truth assignments. -/
theorem conditionalProbability_of_sums (net : Network) (targets observations : List Int)
    (N D : ℚ) (hsize : net.length ≤ 30)
    (hmention : ∀ t ∈ targets ++ observations, norm t < net.length)
    (hdistinct : ((targets ++ observations).map norm).Nodup)
    (hshort : ∃ first rest, targets = first :: rest ∧
      perfectMatch net first observations = .ok false)
    (hN : sumOfJoint net
      ((assignments (nuisanceVariables net (targets ++ observations))).map
        (fun s => targets ++ observations ++ s)) = some N)
    (hD : sumOfJoint net
      ((assignments (nuisanceVariables net (targets ++ observations) ++ targets.map norm)).map
        (fun t => observations ++ t)) = some D) :
    conditionalProbability net targets observations = .ok (divide N D) := by
  obtain ⟨first, rest, htargets, hpm⟩ := hshort
  have hlen := nuisance_targets_length net targets observations hmention hdistinct
  have hlen1 : (nuisanceVariables net (targets ++ observations)).length ≤ 30 := by
    rw [List.length_append] at hlen; omega
  have hlen2 : (nuisanceVariables net (targets ++ observations) ++ targets).length ≤ 30 := by
    omega
  -- numerator
  have hnum : sumJoint net targets
      (nuisanceIterate observations (nuisanceVariables net (targets ++ observations))) 0
      = .ok N := by
    have hperm := (nuisanceIterate_perm observations _ hlen1).map (fun c => targets ++ c)
    rw [List.map_map] at hperm
    have := sumJoint_of_sum net targets _ 0 N (by
      rw [sumOfJoint_perm net hperm, ← hN]
      congr 1
      apply List.map_congr_left
      intro s _
      simp)
    simpa using this
  -- denominator
  have hden : sumJoint net []
      (nuisanceIterate observations
        (nuisanceVariables net (targets ++ observations) ++ targets)) 0 = .ok D := by
    have hperm := (nuisanceIterate_perm observations _ hlen2).map (fun c => ([] : List Int) ++ c)
    rw [List.map_map] at hperm
    have hnorm := (assignments_norm_perm
      (nuisanceVariables net (targets ++ observations) ++ targets)).map
        (fun s => ([] : List Int) ++ (observations ++ s))
    rw [List.map_append, map_norm_of_nonneg _ (nuisanceVariables_nonneg _ _)] at hnorm
    have := sumJoint_of_sum net [] _ 0 D (by
      rw [sumOfJoint_perm net hperm]
      have h2 : (List.map ((fun c => ([] : List Int) ++ c) ∘ fun s => observations ++ s)
          (assignments (nuisanceVariables net (targets ++ observations) ++ targets)))
          = List.map (fun s => ([] : List Int) ++ (observations ++ s))
            (assignments (nuisanceVariables net (targets ++ observations) ++ targets)) := rfl
      rw [h2, sumOfJoint_perm net hnorm, ← hD]
      congr 1)
    simpa using this
  subst htargets
  simp only [conditionalProbability, hpm, hnum, hden]

/-- C1, the general case of `conditionalProbability`: for a network of at most
30 events and a query whose targets and observations mention pairwise distinct
events of it, that does not take the exact-match shortcut and whose sums meet
no missing data, the result is `N / D`, where `N` is the sum of
`jointProbability(targets ++ observations ++ s)` over all `2^n` truth
assignments `s` of the `n` events mentioned in neither list (each exactly once),
and `D` the sum of `jointProbability(observations ++ t)` over all
`2^(n + |targets|)` truth assignments `t` of those events and the target
events. -/
theorem conditionalProbability_general (net : Network) (targets observations : List Int)
    (N D : ℚ) (hsize : net.length ≤ 30)
    (hmention : ∀ t ∈ targets ++ observations, norm t < net.length)
    (hdistinct : ((targets ++ observations).map norm).Nodup)
    (hshort : ∃ first rest, targets = first :: rest ∧
      perfectMatch net first observations = .ok false)
    (hN : sumOfJoint net
      ((assignments (nuisanceVariables net (targets ++ observations))).map
        (fun s => targets ++ observations ++ s)) = some N)
    (hD : sumOfJoint net
      ((assignments (nuisanceVariables net (targets ++ observations) ++ targets.map norm)).map
        (fun t => observations ++ t)) = some D) :
    conditionalProbability net targets observations = .ok (divide N D) ∧
    (nuisanceVariables net (targets ++ observations)).Nodup ∧
    (∀ h, h ∈ nuisanceVariables net (targets ++ observations) ↔
      (0 ≤ h ∧ h < net.length) ∧ ∀ t ∈ targets ++ observations, norm t ≠ h) ∧
    (assignments (nuisanceVariables net (targets ++ observations))).length
      = 2 ^ (nuisanceVariables net (targets ++ observations)).length ∧
    (assignments (nuisanceVariables net (targets ++ observations) ++ targets.map norm)).length
      = 2 ^ ((nuisanceVariables net (targets ++ observations)).length + targets.length) :=
  ⟨conditionalProbability_of_sums net targets observations N D hsize hmention hdistinct
      hshort hN hD,
    nuisanceVariables_nodup _ _, fun _ => mem_nuisanceVariables,
    assignments_length _, by rw [assignments_length]; simp⟩

/-- Witness of `conditionalProbability_general`: `P(A | ~D)` in the test
network, `(39/500) / (17/25)`. -/
theorem conditionalProbability_general_witness :
    perfectMatch testNetwork 0 [-4] = .ok false ∧
    sumOfJoint testNetwork
      ((assignments (nuisanceVariables testNetwork ([0] ++ [-4]))).map
        (fun s => [0] ++ [-4] ++ s)) = some (39/500) ∧
    sumOfJoint testNetwork
      ((assignments (nuisanceVariables testNetwork ([0] ++ [-4]) ++ [0].map norm)).map
        (fun t => [-4] ++ t)) = some (17/25) ∧
    conditionalProbability testNetwork [0] [-4] = .ok (divide (39/500) (17/25)) :=
  ⟨by decide, by decide!, by decide!,
    (conditionalProbability_general testNetwork [0] [-4] (39/500) (17/25) (by decide)
      (by decide) (by decide) ⟨0, [], rfl, by decide⟩ (by decide!) (by decide!)).1⟩

/-! ## Missing data -/

theorem productOf_none_of_mem : ∀ (l : List (Option ℚ)), none ∈ l → productOf l = none
  | [], h => by simp at h
  | none :: _, _ => rfl
  | some p :: l, h => by
    have : none ∈ l := by simpa using h
    simp [productOf, productOf_none_of_mem l this]

/-- With dependency lists that name events of the network, the loop body of
`jointProbability` for a term over an event of the network yields a value or
the missing-data `ReferenceError`. -/
theorem termFactor_value_or_missing (net : Network) (hdeps : DependsOnEvents net)
    (terms : List Int) (t : Int) (ht : norm t < net.length) :
    termFactor net terms t = orMissing (termFactor net terms t).toOption := by
  obtain ⟨ev, hev⟩ := eventAt_isSome_iff.mpr ⟨norm_nonneg t, ht⟩
  have hmiss := missingData_of_nameable net _
    (nameable_applyConditions net ev.depends terms (hdeps ev (eventAt_mem hev)))
  simp only [termFactor, hev]
  cases hr : (if (applyConditions ev.depends terms).length = 0 then wholeNumber ev.probabilities
      else readIndexed ev.probabilities (probIndex (applyConditions ev.depends terms))) with
  | none =>
    rw [lookupNumber_of_none net t _ ev hev hr, hmiss]; rfl
  | some p =>
    rw [lookupNumber_of_some net t _ ev p hev hr]
    split <;> rfl

theorem jointProbability_value_or_missing (net : Network) (hdeps : DependsOnEvents net)
    (terms : List Int) (hvalid : ∀ t ∈ terms, norm t < net.length) :
    jointProbability net terms
      = orMissing (productOf (terms.map (fun t => (termFactor net terms t).toOption))) := by
  rw [jointProbability, jointLoop_of_factors net terms
    (fun t => (termFactor net terms t).toOption) terms 1
    (fun t ht => termFactor_value_or_missing net hdeps terms t (hvalid t ht))]
  cases productOf (terms.map (fun t => (termFactor net terms t).toOption)) with
  | none => rfl
  | some q => simp

theorem jointProbability_missing (net : Network) (hdeps : DependsOnEvents net)
    (terms : List Int) (hvalid : ∀ t ∈ terms, norm t < net.length)
    (t : Int) (ht : t ∈ terms) (hfail : termFactor net terms t = .error .referenceError) :
    jointProbability net terms = .error .referenceError := by
  rw [jointProbability_value_or_missing net hdeps terms hvalid, productOf_none_of_mem]
  · rfl
  · exact List.mem_map.mpr ⟨t, ht, by rw [hfail]; rfl⟩

theorem sumJoint_missing (net : Network) (fixed : List Int) :
    ∀ (L : List (List Int)) (acc : ℚ),
    (∀ c ∈ L, (∃ q, jointProbability net (fixed ++ c) = .ok q) ∨
      jointProbability net (fixed ++ c) = .error .referenceError) →
    (∃ c ∈ L, jointProbability net (fixed ++ c) = .error .referenceError) →
    sumJoint net fixed L acc = .error .referenceError := by
  intro L
  induction L with
  | nil => intro _ _ h; obtain ⟨c, hc, _⟩ := h; simp at hc
  | cons c L ih =>
    intro acc hall hex
    rcases hall c (List.mem_cons_self _ _) with ⟨q, hq⟩ | herr
    · simp only [sumJoint, hq]
      apply ih _ (fun x hx => hall x (List.mem_cons_of_mem _ hx))
      obtain ⟨c', hc', he⟩ := hex
      rcases List.mem_cons.mp hc' with rfl | hmem
      · rw [hq] at he; cases he
      · exact ⟨c', hmem, he⟩
    · simp only [sumJoint, herr]

theorem orMissing_cases (x : Option ℚ) :
    (∃ q, orMissing x = .ok q) ∨ orMissing x = .error .referenceError := by
  cases x with
  | none => right; rfl
  | some q => left; exact ⟨q, rfl⟩

/-- Incomplete networks of at most 30 events: for a network of at most
30 events whose dependency lists name events of the network, and a query over
its events that is answered by enumeration, if some event has no stored value
for the combination of its dependencies' truth values under a full assignment
that contains all the targets and observations (an event without any data
included), `conditionalProbability` raises the missing-data `ReferenceError`. -/
theorem incomplete_network_fails (net : Network) (targets observations a : List Int)
    (v : Int) (ev : Event) (hsize : net.length ≤ 30)
    (hmention : ∀ t ∈ targets ++ observations, norm t < net.length)
    (hdeps : DependsOnEvents net)
    (hshort : ∃ first rest, targets = first :: rest ∧
      perfectMatch net first observations = .ok false)
    (hfull : FullAssignment net a) (hcons : ∀ t ∈ targets ++ observations, t ∈ a)
    (hev : eventAt net v = some ev)
    (hmiss : (if ev.depends = [] then wholeNumber ev.probabilities
      else readIndexed ev.probabilities (probIndex (applyConditions ev.depends a))) = none) :
    conditionalProbability net targets observations = .error .referenceError := by
  obtain ⟨first, rest, htargets, hpm⟩ := hshort
  obtain ⟨hv0, hv1⟩ := eventAt_isSome_iff.mp ⟨ev, hev⟩
  have hnuis_len : (nuisanceVariables net (targets ++ observations)).length ≤ 30 := by
    have := (List.subperm_of_subset (nuisanceVariables_nodup net (targets ++ observations))
      (fun x hx => handles_mem.mpr (mem_nuisanceVariables.mp hx).1)).length_le
    rw [handles_length] at this
    omega
  have hperm := nuisanceIterate_perm observations _ hnuis_len
  -- every term list of the numerator is over events of the network
  have hvalid : ∀ c ∈ nuisanceIterate observations
      (nuisanceVariables net (targets ++ observations)),
      ∀ t ∈ targets ++ c, norm t < net.length := by
    intro c hc t ht
    obtain ⟨s, hs, rfl⟩ := List.mem_map.mp ((List.Perm.mem_iff hperm).mp hc)
    rw [← List.append_assoc] at ht
    rcases List.mem_append.mp ht with h | h
    · exact hmention t h
    · have hmap := mem_assignments_map_norm _ (nuisanceVariables_nonneg _ _) s hs
      have : norm t ∈ nuisanceVariables net (targets ++ observations) := by
        rw [← hmap]; exact List.mem_map.mpr ⟨t, h, rfl⟩
      exact (mem_nuisanceVariables.mp this).1.2
  -- the assignment of the nuisance variables taken from `a`
  have hsmem := signBy_mem_assignments (fun h => a.contains h)
    (nuisanceVariables net (targets ++ observations))
  have hcmem : observations ++ (nuisanceVariables net (targets ++ observations)).map
      (fun h => if a.contains h then h else bnot h)
      ∈ nuisanceIterate observations (nuisanceVariables net (targets ++ observations)) :=
    (List.Perm.mem_iff hperm).mpr (List.mem_map.mpr ⟨_, hsmem, rfl⟩)
  -- polarity of the dependencies in that term list
  have hpol : ∀ d : Int, 0 ≤ d → d < net.length →
      ((targets ++ (observations ++ (nuisanceVariables net (targets ++ observations)).map
        (fun h => if a.contains h then h else bnot h))).contains (bnot d)
        = a.contains (bnot d)) := by
    intro d hd0 hd1
    have hnegd := bnot_neg_of_nonneg hd0
    have hp := fullAssignment_polarity hfull hd0 hd1
    rw [Bool.eq_iff_iff, contains_iff_mem, contains_iff_mem, ← List.append_assoc,
      List.mem_append]
    constructor
    · rintro (h | h)
      · exact hcons _ h
      · obtain ⟨x, hx, hxe⟩ := List.mem_map.mp h
        have hx0 := nuisanceVariables_nonneg _ _ x hx
        by_cases hc : a.contains x = true
        · rw [if_pos hc] at hxe; omega
        · rw [if_neg hc] at hxe
          have hxd : x = d := by unfold bnot at hxe; omega
          rw [contains_iff_mem, hxd] at hc
          by_contra hcon
          exact hc (hp.mpr hcon)
    · intro hb
      have hda : d ∉ a := fun h => hp.mp h hb
      by_cases hn : d ∈ nuisanceVariables net (targets ++ observations)
      · right
        refine List.mem_map.mpr ⟨d, hn, ?_⟩
        have : ¬ a.contains d = true := by rw [contains_iff_mem]; exact hda
        rw [if_neg this]
      · left
        have : ∃ t ∈ targets ++ observations, norm t = d := by
          by_contra hcon
          exact hn (mem_nuisanceVariables.mpr ⟨⟨hd0, hd1⟩, fun t ht he => hcon ⟨t, ht, he⟩⟩)
        obtain ⟨t, ht, hte⟩ := this
        rcases norm_eq_cases t with h | h
        · rw [hte] at h; rw [h] at ht; exact absurd (hcons _ ht) hda
        · rw [hte] at h; rw [← h]; exact ht
  have happly : applyConditions ev.depends
      (targets ++ (observations ++ (nuisanceVariables net (targets ++ observations)).map
        (fun h => if a.contains h then h else bnot h)))
      = applyConditions ev.depends a := by
    unfold applyConditions
    apply List.map_congr_left
    intro d hd
    obtain ⟨hd0, hd1⟩ := hdeps ev (eventAt_mem hev) d hd
    rw [hpol d hd0 hd1]
  -- a term over the event `v`
  have hterm : ∃ t ∈ targets ++ (observations ++
      (nuisanceVariables net (targets ++ observations)).map
        (fun h => if a.contains h then h else bnot h)), norm t = v := by
    by_cases hn : v ∈ nuisanceVariables net (targets ++ observations)
    · refine ⟨if a.contains v then v else bnot v, ?_, ?_⟩
      · exact List.mem_append_right _ (List.mem_append_right _
          (List.mem_map.mpr ⟨v, hn, rfl⟩))
      · split
        · exact norm_of_nonneg hv0
        · exact norm_bnot_of_nonneg hv0
    · have : ∃ t ∈ targets ++ observations, norm t = v := by
        by_contra hcon
        exact hn (mem_nuisanceVariables.mpr ⟨⟨hv0, hv1⟩, fun t ht he => hcon ⟨t, ht, he⟩⟩)
      obtain ⟨t, ht, hte⟩ := this
      refine ⟨t, ?_, hte⟩
      rw [← List.append_assoc]
      exact List.mem_append_left _ ht
  obtain ⟨t, ht, hte⟩ := hterm
  have hfail : termFactor net
      (targets ++ (observations ++ (nuisanceVariables net (targets ++ observations)).map
        (fun h => if a.contains h then h else bnot h))) t = .error .referenceError := by
    have hevt : eventAt net (norm t) = some ev := by rw [hte]; exact hev
    have hnone : (if (applyConditions ev.depends a).length = 0 then wholeNumber ev.probabilities
        else readIndexed ev.probabilities (probIndex (applyConditions ev.depends a))) = none := by
      rw [applyConditions_length]
      by_cases h0 : ev.depends = []
      · rw [if_pos h0] at hmiss; rw [if_pos (by rw [h0]; rfl)]; exact hmiss
      · rw [if_neg h0] at hmiss
        rw [if_neg (fun h => h0 (List.length_eq_zero.mp h))]; exact hmiss
    simp only [termFactor, hevt, happly]
    rw [lookupNumber_of_none net t _ ev hevt hnone,
      missingData_of_nameable net _
        (nameable_applyConditions net ev.depends a (hdeps ev (eventAt_mem hev)))]
  have hjoint := jointProbability_missing net hdeps _ (hvalid _ hcmem) t ht hfail
  have hsum := sumJoint_missing net targets
    (nuisanceIterate observations (nuisanceVariables net (targets ++ observations))) 0
    (fun c hc => by
      rw [jointProbability_value_or_missing net hdeps _ (hvalid c hc)]
      exact orMissing_cases _)
    ⟨_, hcmem, hjoint⟩
  subst htargets
  simp only [conditionalProbability, hpm, hsum]

/-- Witness of `incomplete_network_fails`: `P(C)` in a network where only
`P(C | A)` was assigned. -/
theorem incomplete_network_fails_witness :
    FullAssignment gapNetwork [-1, 1] ∧
    perfectMatch gapNetwork 1 [] = .ok false ∧
    readIndexed (.table [(1, 8/10)]) (probIndex (applyConditions [0] [-1, 1])) = none ∧
    conditionalProbability gapNetwork [1] [] = .error .referenceError :=
  ⟨List.Perm.of_eq (by decide), by decide, by decide!,
    incomplete_network_fails gapNetwork [1] [] [-1, 1] 1 ⟨.str "C", .table [(1, 8/10)], [0]⟩
      (by decide) (by decide) (by decide) ⟨1, [], rfl, by decide⟩
      (List.Perm.of_eq (by decide)) (by decide) rfl (by decide!)⟩

/-- C7, evaluation at the failing input: in `partialNetwork` (32 events) event
31 has no value for "event 0 true", a combination consistent with the query
`P(31)`, which is answered by enumeration; the bound `1 << 31` of the numerator
loop is negative and the bound `1 << 32` of the denominator loop is 1, so the
missing entry is never looked up and the query returns the number 0 instead of
raising the missing-data error. -/
theorem incomplete_network_returns_number :
    partialNetwork.length = 32 ∧ DependsOnEvents partialNetwork ∧
    perfectMatch partialNetwork 31 [] = .ok false ∧
    FullAssignment partialNetwork ((List.range 32).map Int.ofNat) ∧
    (31 : Int) ∈ (List.range 32).map Int.ofNat ∧
    (eventAt partialNetwork 31).map (fun ev =>
        readIndexed ev.probabilities
          (probIndex (applyConditions ev.depends ((List.range 32).map Int.ofNat))))
      = some none ∧
    shiftLeftOne 31 = -2147483648 ∧ shiftLeftOne 32 = 1 ∧
    conditionalProbability partialNetwork [31] [] = .ok (.finite 0) :=
  ⟨by decide, by decide, by decide, List.Perm.of_eq (by decide), by decide, by decide!,
    by decide, by decide, by decide!⟩

/-! ## Normalisation of the joint distribution -/

/-- The sum over all subsets `T` of `S` (the events taken true) of the product
over `S` of `p v T` or `1 - p v T` is 1, when no `p u` depends on the polarity of
an event of rank at least that of `u`. -/
theorem sum_prod_eq_one (rank : Int → Nat) (p : Int → Finset Int → ℚ)
    (hind : ∀ u w T, rank u ≤ rank w → p u (insert w T) = p u T) (S : Finset Int) :
    ∑ T in S.powerset, ∏ v in S, (if v ∈ T then p v T else 1 - p v T) = 1 := by
  induction S using Finset.induction_on_max_value rank with
  | h0 => simp
  | step a s ha hmax ih =>
    rw [Finset.sum_powerset_insert ha, ← Finset.sum_add_distrib]
    refine Eq.trans (Finset.sum_congr rfl ?_) ih
    intro T hT
    have hTs : T ⊆ s := Finset.mem_powerset.mp hT
    have haT : a ∉ T := fun h => ha (hTs h)
    rw [Finset.prod_insert ha, Finset.prod_insert ha]
    have hrest : ∏ v in s, (if v ∈ insert a T then p v (insert a T)
        else 1 - p v (insert a T)) = ∏ v in s, (if v ∈ T then p v T else 1 - p v T) := by
      apply Finset.prod_congr rfl
      intro v hv
      have hva : v ≠ a := fun h => ha (h ▸ hv)
      rw [hind v a T (hmax v hv)]
      simp [Finset.mem_insert, hva]
    rw [hrest, if_neg haT, if_pos (Finset.mem_insert_self a T), hind a a T (le_refl _)]
    ring

/-- The sum over the list of all assignments of `l` is the sum over the subsets
of `l` taken true. -/
theorem sum_assignments : ∀ (l : List Int) (f : List Int → ℚ), l.Nodup →
    ((assignments l).map f).sum
      = ∑ T in l.toFinset.powerset, f (l.map (fun v => if v ∈ T then v else bnot v))
  | [], f, _ => by simp [assignments]
  | h :: l, f, hnd => by
    obtain ⟨hh, hl⟩ := List.nodup_cons.mp hnd
    have hh' : h ∉ l.toFinset := fun hm => hh (List.mem_toFinset.mp hm)
    simp only [assignments, List.map_append, List.map_map, List.sum_append, List.toFinset_cons]
    rw [Finset.sum_powerset_insert hh']
    have e1 := sum_assignments l (f ∘ fun s => h :: s) hl
    have e2 := sum_assignments l (f ∘ fun s => bnot h :: s) hl
    rw [e1, e2, add_comm]
    congr 1
    · apply Finset.sum_congr rfl
      intro T hT
      have hT' : h ∉ T := fun hm => hh' (Finset.mem_powerset.mp hT hm)
      simp only [Function.comp, List.map_cons, if_neg hT']
    · apply Finset.sum_congr rfl
      intro T hT
      simp only [Function.comp, List.map_cons, Finset.mem_insert_self, if_true]
      congr 2
      apply List.map_congr_left
      intro v hv
      have hvh : v ≠ h := fun heq => hh (heq ▸ hv)
      simp [Finset.mem_insert, hvh]

theorem productOf_map_some (g : Int → ℚ) : ∀ (l : List Int),
    productOf (l.map (fun t => some (g t))) = some (l.map g).prod
  | [] => rfl
  | t :: l => by simp [productOf, productOf_map_some g l]

/-- In a fully assigned network every lookup of the loop of `jointProbability`
succeeds. -/
theorem termFactor_of_full (net : Network) (hfull : FullyAssigned net) (terms : List Int)
    (t : Int) (ht : norm t < net.length) :
    termFactor net terms t = .ok (if t < 0 then 1 - entryUnder net terms (norm t)
      else entryUnder net terms (norm t)) := by
  obtain ⟨ev, hev⟩ := eventAt_isSome_iff.mpr ⟨norm_nonneg t, ht⟩
  obtain ⟨h0, h1⟩ := hfull (norm t) ev hev
  have hread : ∃ p, (if (applyConditions ev.depends terms).length = 0
      then wholeNumber ev.probabilities
      else readIndexed ev.probabilities (probIndex (applyConditions ev.depends terms)))
      = some p := by
    rw [applyConditions_length]
    by_cases hd : ev.depends = []
    · obtain ⟨p, hp⟩ := h0 hd
      exact ⟨p, by rw [if_pos (by rw [hd]; rfl)]; exact hp⟩
    · obtain ⟨p, hp⟩ := h1 hd (applyConditions ev.depends terms) (applyConditions_length _ _)
      exact ⟨p, by rw [if_neg (fun h => hd (List.length_eq_zero.mp h))]; exact hp⟩
  obtain ⟨p, hp⟩ := hread
  have hentry : entryUnder net terms (norm t) = p := by
    rw [applyConditions_length] at hp
    simp only [entryUnder, hev, hp, Option.getD_some]
  simp only [termFactor, hev]
  rw [lookupNumber_of_some net t _ ev p hev hp, hentry]
  split <;> rfl

theorem jointProbability_of_full (net : Network) (hfull : FullyAssigned net)
    (terms : List Int) (hvalid : ∀ t ∈ terms, norm t < net.length) :
    jointProbability net terms = .ok ((terms.map (fun t =>
      if t < 0 then 1 - entryUnder net terms (norm t)
      else entryUnder net terms (norm t))).prod) := by
  rw [jointProbability, jointLoop_of_factors net terms
    (fun t => some (if t < 0 then 1 - entryUnder net terms (norm t)
      else entryUnder net terms (norm t))) terms 1
    (fun t ht => by rw [termFactor_of_full net hfull terms t (hvalid t ht)]; rfl),
    productOf_map_some]
  simp [orMissing]

theorem sumOfJoint_of_values (net : Network) (g : List Int → ℚ) :
    ∀ (L : List (List Int)), (∀ c ∈ L, jointProbability net c = .ok (g c)) →
    sumOfJoint net L = some (L.map g).sum
  | [], _ => rfl
  | c :: L, h => by
    have ih := sumOfJoint_of_values net g L (fun x hx => h x (List.mem_cons_of_mem _ hx))
    simp [sumOfJoint, h c (List.mem_cons_self _ _), ih]

/-- In the term list built from the events `l` and the set `T` of those taken
true, a non-negative handle appears negated exactly when it is in `l` and not
in `T`. -/
theorem bnot_mem_signed_list (l : List Int) (hl : ∀ v ∈ l, 0 ≤ v) (T : Finset Int)
    (d : Int) (hd : 0 ≤ d) :
    bnot d ∈ l.map (fun v => if v ∈ T then v else bnot v) ↔ d ∈ l ∧ d ∉ T := by
  have hneg := bnot_neg_of_nonneg hd
  rw [List.mem_map]
  constructor
  · rintro ⟨v, hv, he⟩
    have hv0 := hl v hv
    by_cases hvT : v ∈ T
    · rw [if_pos hvT] at he; omega
    · rw [if_neg hvT] at he
      have : v = d := by unfold bnot at he; omega
      rw [← this]; exact ⟨hv, hvT⟩
  · rintro ⟨hdl, hdT⟩
    exact ⟨d, hdl, by rw [if_neg hdT]⟩

theorem entryUnder_insert (net : Network) (rank : Int → Nat)
    (hrank : ∀ (v : Int) (ev : Event), eventAt net v = some ev →
      ∀ d ∈ ev.depends, 0 ≤ d ∧ rank d < rank v)
    (l : List Int) (hl : ∀ v ∈ l, 0 ≤ v) (u w : Int) (T : Finset Int)
    (huw : rank u ≤ rank w) :
    entryUnder net (l.map (fun v => if v ∈ insert w T then v else bnot v)) u
      = entryUnder net (l.map (fun v => if v ∈ T then v else bnot v)) u := by
  unfold entryUnder
  cases hev : eventAt net u with
  | none => rfl
  | some ev =>
    have happly : applyConditions ev.depends
        (l.map (fun v => if v ∈ insert w T then v else bnot v))
        = applyConditions ev.depends (l.map (fun v => if v ∈ T then v else bnot v)) := by
      unfold applyConditions
      apply List.map_congr_left
      intro d hd
      obtain ⟨hd0, hdr⟩ := hrank u ev hev d hd
      have hdw : d ≠ w := by
        rintro rfl; omega
      have : (l.map (fun v => if v ∈ insert w T then v else bnot v)).contains (bnot d)
          = (l.map (fun v => if v ∈ T then v else bnot v)).contains (bnot d) := by
        rw [Bool.eq_iff_iff, contains_iff_mem, contains_iff_mem,
          bnot_mem_signed_list l hl _ d hd0, bnot_mem_signed_list l hl _ d hd0]
        simp [Finset.mem_insert, hdw]
      rw [this]
    simp only [happly]

/-- The joint distribution over any list of distinct events of a fully assigned
acyclic network sums to 1. -/
theorem sumOfJoint_assignments (net : Network) (hac : Acyclic net)
    (hfull : FullyAssigned net) (l : List Int) (hnd : l.Nodup)
    (hl : ∀ v ∈ l, 0 ≤ v ∧ v < net.length) :
    sumOfJoint net (assignments l) = some 1 := by
  obtain ⟨rank, hrank⟩ := hac
  have hl0 : ∀ v ∈ l, 0 ≤ v := fun v hv => (hl v hv).1
  have hvalid : ∀ a ∈ assignments l, ∀ t ∈ a, norm t < net.length := by
    intro a ha t ht
    have hmap := mem_assignments_map_norm l hl0 a ha
    have : norm t ∈ l := by rw [← hmap]; exact List.mem_map.mpr ⟨t, ht, rfl⟩
    exact (hl _ this).2
  rw [sumOfJoint_of_values net (fun terms => (terms.map (fun t =>
      if t < 0 then 1 - entryUnder net terms (norm t)
      else entryUnder net terms (norm t))).prod) (assignments l)
    (fun a ha => jointProbability_of_full net hfull a (hvalid a ha)),
    sum_assignments l _ hnd]
  congr 1
  refine Eq.trans (Finset.sum_congr rfl ?_) (sum_prod_eq_one rank
    (fun v T => entryUnder net (l.map (fun x => if x ∈ T then x else bnot x)) v)
    (fun u w T huw => entryUnder_insert net rank hrank l hl0 u w T huw) l.toFinset)
  intro T _
  rw [List.prod_toFinset _ hnd, List.map_map]
  congr 1
  apply List.map_congr_left
  intro v hv
  have hv0 := hl0 v hv
  by_cases hvT : v ∈ T
  · simp only [Function.comp, if_pos hvT, not_lt.mpr hv0, if_false, norm_of_nonneg hv0]
  · simp only [Function.comp, if_neg hvT, bnot_neg_of_nonneg hv0, if_true,
      norm_bnot_of_nonneg hv0]

/-! ## Checking the hypotheses on a concrete network -/

/-- A network in which every dependency is an earlier event is acyclic. -/
theorem acyclic_of_earlier (net : Network)
    (h : ∀ p ∈ net.enum, ∀ d ∈ p.2.depends, 0 ≤ d ∧ d < (p.1 : Int)) : Acyclic net := by
  refine ⟨Int.toNat, ?_⟩
  intro v ev hev d hd
  have hv0 := eventAt_nonneg hev
  have hmem : (v.toNat, ev) ∈ net.enum := by
    rw [List.mk_mem_enum_iff_getElem?]
    simpa [eventAt, not_lt.mpr hv0] using hev
  obtain ⟨h0, h1⟩ := h _ hmem d hd
  have h2 : d < (v.toNat : Int) := h1
  exact ⟨h0, by omega⟩

/-- A network in which every event without dependencies holds a readable number
and every event with `k ≤ 31` dependencies holds a value in each of the slots
`0 .. 2^k - 1` is fully assigned. -/
theorem fullyAssigned_of_slots (net : Network)
    (h : ∀ ev ∈ net,
      (ev.depends = [] → (wholeNumber ev.probabilities).isSome = true) ∧
      (ev.depends ≠ [] → ev.depends.length ≤ 31 ∧
        ∀ i ∈ List.range (2 ^ ev.depends.length),
          (readIndexed ev.probabilities (Int.ofNat i)).isSome = true)) :
    FullyAssigned net := by
  intro v ev hev
  obtain ⟨h0, h1⟩ := h ev (eventAt_mem hev)
  constructor
  · intro hd
    exact Option.isSome_iff_exists.mp (h0 hd)
  · intro hd signs hlen
    obtain ⟨hk, hslots⟩ := h1 hd
    have hidx := probIndex_eq_patternValue signs (by omega)
    have hlt := patternValue_lt signs
    rw [hlen] at hlt
    rw [hidx]
    exact Option.isSome_iff_exists.mp (hslots _ (List.mem_range.mpr hlt))

/-! ## Normalisation and the complement law -/

theorem sumOfJoint_append (net : Network) : ∀ (L₁ L₂ : List (List Int)) (s : ℚ),
    sumOfJoint net (L₁ ++ L₂) = some s →
    ∃ s₁ s₂, sumOfJoint net L₁ = some s₁ ∧ sumOfJoint net L₂ = some s₂ ∧ s₁ + s₂ = s
  | [], L₂, s, h => ⟨0, s, rfl, by simpa using h, by simp⟩
  | c :: L₁, L₂, s, h => by
    have h' : sumOfJoint net (c :: (L₁ ++ L₂)) = some s := h
    rw [sumOfJoint] at h'
    cases hj : jointProbability net c with
    | error err => rw [hj] at h'; cases h'
    | ok p =>
      rw [hj] at h'
      cases hs : sumOfJoint net (L₁ ++ L₂) with
      | none => rw [hs] at h'; cases h'
      | some s' =>
        rw [hs] at h'
        have h : p + s' = s := by simpa using h'
        obtain ⟨s₁, s₂, e1, e2, e3⟩ := sumOfJoint_append net L₁ L₂ s' hs
        refine ⟨p + s₁, s₂, ?_, e2, ?_⟩
        · simp [sumOfJoint, hj, e1]
        · rw [← h, ← e3, add_assoc]

/-- C6: for every network whose dependency graph is acyclic and in which every
event has a fully assigned table, the sum of `jointProbability` over all `2^N`
full signed assignments of the `N` events is 1; equivalently, for every event
`e`, summing `jointProbability` with `e` asserted true and with `e` asserted
false over every assignment of the other events gives 1. -/
theorem joint_distribution_normalised (net : Network) (hac : Acyclic net)
    (hfull : FullyAssigned net) :
    sumOfJoint net (assignments (handles net)) = some 1 ∧
    (assignments (handles net)).length = 2 ^ net.length ∧
    ∀ e : Int, 0 ≤ e → e < net.length →
      sumOfJoint net
        ((assignments ((handles net).erase e)).map (fun s => e :: s) ++
          (assignments ((handles net).erase e)).map (fun s => bnot e :: s)) = some 1 := by
  refine ⟨?_, by rw [assignments_length, handles_length], ?_⟩
  · exact sumOfJoint_assignments net hac hfull (handles net) (handles_nodup net)
      (fun v hv => handles_mem.mp hv)
  · intro e he0 he1
    have hnd : (e :: (handles net).erase e).Nodup :=
      List.nodup_cons.mpr ⟨(handles_nodup net).not_mem_erase, (handles_nodup net).erase e⟩
    have hvalid : ∀ v ∈ e :: (handles net).erase e, 0 ≤ v ∧ v < net.length := by
      intro v hv
      rcases List.mem_cons.mp hv with rfl | h
      · exact ⟨he0, he1⟩
      · exact handles_mem.mp (List.mem_of_mem_erase h)
    exact sumOfJoint_assignments net hac hfull _ hnd hvalid

/-- Witness of `joint_distribution_normalised`: the test network. -/
theorem joint_distribution_normalised_witness :
    Acyclic testNetwork ∧ FullyAssigned testNetwork ∧
    sumOfJoint testNetwork (assignments (handles testNetwork)) = some 1 :=
  ⟨acyclic_of_earlier testNetwork (by decide), fullyAssigned_of_slots testNetwork (by decide),
    (joint_distribution_normalised testNetwork (acyclic_of_earlier testNetwork (by decide))
      (fullyAssigned_of_slots testNetwork (by decide))).1⟩

theorem nuisanceVariables_bnot (net : Network) (e : Int) (he : 0 ≤ e) :
    nuisanceVariables net ([bnot e] ++ []) = nuisanceVariables net ([e] ++ []) := by
  rw [nuisanceVariables_eq, nuisanceVariables_eq]
  simp [norm_of_nonneg he, norm_bnot_of_nonneg he]

theorem divide_one (n : ℚ) : divide n 1 = .finite n := by
  simp [divide]

/-- The complement law on the values returned: in a network of at most 30
events whose dependency graph is acyclic and whose tables are fully assigned,
for every event `e` the query `conditionalProbability([e])` returns a value `x`
and `conditionalProbability([~e])` a number `y` with `Number(x) + y = 1`.  The
value `x` is a number when `e` has a dependency or holds a number (then the two
results are `p` and `1 - p`); when `e` has no dependency and holds a one-element
array, `x` is that array. -/
theorem complement_law (net : Network) (e : Int) (ev : Event) (hsize : net.length ≤ 30)
    (hac : Acyclic net) (hfull : FullyAssigned net) (hev : eventAt net e = some ev) :
    ∃ (x : Value) (y : ℚ), conditionalProbability net [e] [] = .ok x.toNum ∧
      conditionalProbability net [bnot e] [] = .ok (.finite y) ∧ x.toNumber + y = 1 ∧
      (ev.depends ≠ [] → x = .number x.toNumber) ∧
      (ev.depends = [] → readWhole ev.probabilities = some x) ∧
      ∀ p, ev.depends = [] → ev.probabilities = .scalar p → x = .number p ∧ y = 1 - p := by
  have he := eventAt_nonneg hev
  obtain ⟨_, he1⟩ := eventAt_isSome_iff.mp ⟨ev, hev⟩
  have hev1 : eventAt net (norm e) = some ev := by rw [norm_of_nonneg he]; exact hev
  have hev2 : eventAt net (norm (bnot e)) = some ev := by
    rw [norm_bnot_of_nonneg he]; exact hev
  have hneg : bnot e < 0 := bnot_neg_of_nonneg he
  by_cases hd : ev.depends = []
  · -- exact match on the empty dependency list
    obtain ⟨p, hp⟩ := (hfull e ev hev).1 hd
    obtain ⟨x, hx, hxp⟩ := Option.map_eq_some'.mp hp
    have hread : (if ([] : List Int).length = 0 then readWhole ev.probabilities
        else (readIndexed ev.probabilities (probIndex [])).map Value.number) = some x := by
      simpa using hx
    have hg1 : getProbability net e [] = .ok x := by
      rw [getProbability_of_value net e [] ev x hev1 hread, if_neg (not_lt.mpr he)]
    have hg2 : getProbability net (bnot e) [] = .ok (.number (1 - x.toNumber)) := by
      rw [getProbability_of_value net (bnot e) [] ev x hev2 hread, if_pos hneg]
    have hm1 : perfectMatch net e [] = .ok true := by
      have := perfectMatch_self net e ev hev1; rwa [hd] at this
    have hm2 : perfectMatch net (bnot e) [] = .ok true := by
      have := perfectMatch_self net (bnot e) ev hev2; rwa [hd] at this
    refine ⟨x, 1 - x.toNumber, ?_, ?_, by ring, fun h => absurd hd h, fun _ => hx, ?_⟩
    · simp only [conditionalProbability, hm1, hg1]
    · simp only [conditionalProbability, hm2, hg2, Value.toNum]
    · intro q _ hq
      rw [hq] at hx
      have hxq : x = .number q := (Option.some.inj hx).symm
      rw [hxq]
      exact ⟨rfl, rfl⟩
  · -- enumeration over the other events
    have hlen : ev.depends.length ≠ 0 := fun h => hd (List.length_eq_zero.mp h)
    have hm1 : perfectMatch net e [] = .ok false := by
      simp [perfectMatch, hev1, hlen]
    have hm2 : perfectMatch net (bnot e) [] = .ok false := by
      simp [perfectMatch, hev2, hlen]
    have hnotin : e ∉ nuisanceVariables net ([e] ++ []) := by
      intro h
      exact (mem_nuisanceVariables.mp h).2 e (by simp) (norm_of_nonneg he)
    have hbound : ∀ v ∈ nuisanceVariables net ([e] ++ []), 0 ≤ v ∧ v < net.length :=
      fun v hv => (mem_nuisanceVariables.mp hv).1
    -- the numerators add up to the whole distribution
    have hall := sumOfJoint_assignments net hac hfull
      (e :: nuisanceVariables net ([e] ++ []))
      (List.nodup_cons.mpr ⟨hnotin, nuisanceVariables_nodup _ _⟩)
      (by
        intro v hv
        rcases List.mem_cons.mp hv with rfl | h
        · exact ⟨he, he1⟩
        · exact hbound v h)
    rw [assignments] at hall
    obtain ⟨x, y, hx, hy, hxy⟩ := sumOfJoint_append net _ _ 1 hall
    -- the denominator is the whole distribution
    have hden := sumOfJoint_assignments net hac hfull
      (nuisanceVariables net ([e] ++ []) ++ [e])
      (by
        rw [List.nodup_append]
        refine ⟨nuisanceVariables_nodup _ _, List.nodup_singleton e, ?_⟩
        intro a ha hb
        rw [List.mem_singleton] at hb
        exact hnotin (hb ▸ ha))
      (by
        intro v hv
        rcases List.mem_append.mp hv with h | h
        · exact hbound v h
        · rw [List.mem_singleton] at h; rw [h]; exact ⟨he, he1⟩)
    have hr1 := conditionalProbability_of_sums net [e] [] x 1 hsize
      (by intro t ht; simp at ht; rw [ht, norm_of_nonneg he]; exact he1)
      (by simp) ⟨e, [], rfl, hm1⟩
      (by rw [← hx]; congr 1)
      (by
        rw [← hden]; congr 1
        simp [norm_of_nonneg he])
    have hr2 := conditionalProbability_of_sums net [bnot e] [] y 1 hsize
      (by intro t ht; simp at ht; rw [ht, norm_bnot_of_nonneg he]; exact he1)
      (by simp) ⟨bnot e, [], rfl, hm2⟩
      (by rw [nuisanceVariables_bnot net e he, ← hy]; congr 1)
      (by
        rw [nuisanceVariables_bnot net e he, ← hden]; congr 1
        simp [norm_bnot_of_nonneg he])
    rw [divide_one] at hr1 hr2
    exact ⟨.number x, y, hr1, hr2, hxy, fun _ => rfl, fun h0 => absurd h0 hd,
      fun p h0 _ => absurd h0 hd⟩

/-- The complement law at event `D` of the test network. -/
theorem complement_law_on_testNetwork :
    ∃ (x : Value) (y : ℚ), conditionalProbability testNetwork [3] [] = .ok x.toNum ∧
      conditionalProbability testNetwork [bnot 3] [] = .ok (.finite y) ∧ x.toNumber + y = 1 ∧
      (([0, 1] : List Int) ≠ [] → x = .number x.toNumber) ∧
      (([0, 1] : List Int) = [] →
        readWhole (.table [(0, 2/10), (1, 8/10), (2, 1/10), (3, 7/10)]) = some x) ∧
      ∀ p, ([0, 1] : List Int) = [] →
        ProbData.table [(0, 2/10), (1, 8/10), (2, 1/10), (3, 7/10)] = .scalar p →
        x = .number p ∧ y = 1 - p :=
  complement_law testNetwork 3
    ⟨.str "D", .table [(0, 2/10), (1, 8/10), (2, 1/10), (3, 7/10)], [0, 1]⟩ (by decide)
    (acyclic_of_earlier testNetwork (by decide))
    (fullyAssigned_of_slots testNetwork (by decide)) rfl

/-- C5, evaluation at the failing input: the network after
`facts(P(e).given().is(3/10))` on a single event is acyclic and fully assigned
(the event has no dependency and holds a value for the one combination of no
dependencies).  The query `conditionalProbability([e])` returns the array
`[3/10]`, not a number, so the coercion `+P(e)` throws a `TypeError` and there
is no sum with the result 7/10 of `conditionalProbability([~e])`. -/
theorem complement_query_returns_array :
    (chain (P 0 []) [([], 3/10)]).toOption.map (fun p => facts (blankNetwork 1) [.prob p])
      = some (oneSlotNetwork, none) ∧
    Acyclic oneSlotNetwork ∧ FullyAssigned oneSlotNetwork ∧
    conditionalProbability oneSlotNetwork [0] [] = .ok (.array (3/10)) ∧
    conditionalProbability oneSlotNetwork [bnot 0] [] = .ok (.finite (7/10)) ∧
    coerce oneSlotNetwork (P 0 []) = .error .typeError ∧
    coerce oneSlotNetwork (P (bnot 0) []) = .ok (.finite (7/10)) :=
  ⟨by decide!, acyclic_of_earlier oneSlotNetwork (by decide),
    fullyAssigned_of_slots oneSlotNetwork (by decide), by decide!, by decide!, by decide!,
    by decide!⟩

/-! ## Assignments through the builder -/

theorem percent_bounds {p : ℚ} (h0 : 0 ≤ p) (h100 : p ≤ 100) :
    0 ≤ percent p ∧ percent p ≤ 1 := by
  unfold percent
  split
  · constructor
    · positivity
    · rw [div_le_one (by norm_num)]; exact h100
  · rename_i h; exact ⟨h0, not_lt.mp h⟩

theorem setProbability_ok (self : Prob) (givens : Option (List Int)) (p : ℚ)
    (h0 : 0 ≤ p) (h100 : p ≤ 100) :
    setProbability self givens p = .ok
      ⟨if self.event < 0 then bnot self.event else self.event, self.depends,
        (match givens with
          | none => .scalar (if self.event < 0 then 1 - percent p else percent p)
          | some gs => writeIndexed self.probabilities (probIndex gs)
              (if self.event < 0 then 1 - percent p else percent p)),
        .undefined,
        (match givens with
          | none => .undefined
          | some _ => .conditional),
        self.toPrimitive⟩ := by
  have hr : ¬ (p < 0 ∨ p > 100) := by
    rintro (h | h)
    · exact absurd h0 (not_le.mpr h)
    · exact absurd h100 (not_le.mpr h)
  cases givens <;> simp only [setProbability, hr, if_false, percent_eq]

theorem setProbability_error_iff (self : Prob) (givens : Option (List Int)) (p : ℚ) :
    setProbability self givens p = .error .rangeError ↔ p < 0 ∨ p > 100 := by
  constructor
  · intro h
    by_contra hr
    have h0 : 0 ≤ p := not_lt.mp (fun hlt => hr (Or.inl hlt))
    have h100 : p ≤ 100 := not_lt.mp (fun hgt => hr (Or.inr hgt))
    rw [setProbability_ok self givens p h0 h100] at h
    cases h
  · intro h
    simp only [setProbability, h, if_true]

theorem setProbability_ok_or_range (self : Prob) (givens : Option (List Int)) (p : ℚ) :
    (∃ q, setProbability self givens p = .ok q) ∨
      setProbability self givens p = .error .rangeError := by
  by_cases h : p < 0 ∨ p > 100
  · right; exact (setProbability_error_iff self givens p).mpr h
  · left
    exact ⟨_, setProbability_ok self givens p (not_lt.mp (fun hlt => h (Or.inl hlt)))
      (not_lt.mp (fun hgt => h (Or.inr hgt)))⟩

theorem invokeIs_bound (self : Prob) (givens : Option (List Int)) (p : ℚ)
    (hcap : self.is = .bound givens) : invokeIs self p = setProbability self givens p := by
  simp only [invokeIs, hcap]

theorem invokeIs_undefined (self : Prob) (p : ℚ) (hcap : self.is = .undefined) :
    invokeIs self p = .error .typeError := by
  simp only [invokeIs, hcap]

/-- C13, percentage normalisation: on a non-negated event, `is(p)` stores `p`
for `0 ≤ p ≤ 1` and `p / 100` for `1 < p ≤ 100` (as the number of the object for
an unconditional `is`, in the slot of the given combination otherwise); hence
`is(p)` and `is(p / 100)` leave identical objects for `p` in `(1, 100]`; and
every value that an `is` stores lies in `[0, 1]`. -/
theorem percentage_normalisation (self : Prob) (givens : Option (List Int)) (p : ℚ)
    (hcap : self.is = .bound givens) (hev : 0 ≤ self.event) :
    (0 ≤ p → p ≤ 1 → ∃ q, invokeIs self p = .ok q ∧
      (givens = none → q.probabilities = .scalar p) ∧
      (∀ gs cells, givens = some gs → self.probabilities = .table cells →
        q.probabilities = .table ((probIndex gs, p) :: cells))) ∧
    (1 < p → p ≤ 100 → ∃ q, invokeIs self p = .ok q ∧
      (givens = none → q.probabilities = .scalar (p / 100)) ∧
      (∀ gs cells, givens = some gs → self.probabilities = .table cells →
        q.probabilities = .table ((probIndex gs, p / 100) :: cells)) ∧
      invokeIs self (p / 100) = invokeIs self p) ∧
    (∀ (other : Prob) (v : ℚ) (q : Prob), other.is = .bound givens →
      invokeIs other v = .ok q →
      (givens = none → ∃ w, q.probabilities = .scalar w ∧ 0 ≤ w ∧ w ≤ 1) ∧
      (∀ gs cells, givens = some gs → other.probabilities = .table cells →
        ∃ w, q.probabilities = .table ((probIndex gs, w) :: cells) ∧ 0 ≤ w ∧ w ≤ 1)) := by
  have hneg : ¬ self.event < 0 := not_lt.mpr hev
  refine ⟨?_, ?_, ?_⟩
  · intro h0 h1
    have hp : percent p = p := by simp [percent, not_lt.mpr h1]
    rw [invokeIs_bound self givens p hcap,
      setProbability_ok self givens p h0 (le_trans h1 (by norm_num))]
    refine ⟨_, rfl, ?_, ?_⟩
    · intro hg; subst hg; simp [hneg, hp]
    · intro gs cells hg ht; subst hg; simp [hneg, hp, ht, writeIndexed]
  · intro h1 h100
    have h0 : 0 ≤ p := le_trans (by norm_num) (le_of_lt h1)
    have hp : percent p = p / 100 := by simp [percent, h1]
    have hq0 : 0 ≤ p / 100 := by positivity
    have hq1 : p / 100 ≤ 1 := by rw [div_le_one (by norm_num)]; exact h100
    have hpq : percent (p / 100) = p / 100 := by simp [percent, not_lt.mpr hq1]
    rw [invokeIs_bound self givens p hcap, invokeIs_bound self givens (p / 100) hcap,
      setProbability_ok self givens p h0 h100,
      setProbability_ok self givens (p / 100) hq0 (le_trans hq1 (by norm_num))]
    refine ⟨_, rfl, ?_, ?_, ?_⟩
    · intro hg; subst hg; simp [hneg, hp]
    · intro gs cells hg ht; subst hg; simp [hneg, hp, ht, writeIndexed]
    · rw [hp, hpq]
  · intro other v q hc hq
    rw [invokeIs_bound other givens v hc] at hq
    have hrange : ¬ (v < 0 ∨ v > 100) := by
      intro h
      rw [(setProbability_error_iff other givens v).mpr h] at hq
      cases hq
    have h0 : 0 ≤ v := not_lt.mp (fun hlt => hrange (Or.inl hlt))
    have h100 : v ≤ 100 := not_lt.mp (fun hgt => hrange (Or.inr hgt))
    obtain ⟨b0, b1⟩ := percent_bounds h0 h100
    rw [setProbability_ok other givens v h0 h100] at hq
    have hq' := (Except.ok.inj hq).symm
    have hw : 0 ≤ (if other.event < 0 then 1 - percent v else percent v) ∧
        (if other.event < 0 then 1 - percent v else percent v) ≤ 1 := by
      split
      · constructor <;> linarith
      · exact ⟨b0, b1⟩
    constructor
    · intro hg; subst hg
      exact ⟨_, by rw [hq'], hw.1, hw.2⟩
    · intro gs cells hg ht; subst hg
      exact ⟨_, by rw [hq']; simp [ht, writeIndexed], hw.1, hw.2⟩

/-- Witness of `percentage_normalisation`: `P(e).is(50)` and `P(e).is(0.5)`. -/
theorem percentage_normalisation_witness :
    (P 0 []).is = .bound none ∧ (0 : Int) ≤ (P 0 []).event ∧
    ∃ q, invokeIs (P 0 []) 50 = .ok q ∧
      ((none : Option (List Int)) = none → q.probabilities = .scalar (50 / 100)) ∧
      (∀ gs cells, (none : Option (List Int)) = some gs →
        (P 0 []).probabilities = .table cells →
        q.probabilities = .table ((probIndex gs, 50 / 100) :: cells)) ∧
      invokeIs (P 0 []) (50 / 100) = invokeIs (P 0 []) 50 :=
  ⟨rfl, by decide,
    (percentage_normalisation (P 0 []) none 50 rfl (by decide)).2.1 (by norm_num)
      (by norm_num)⟩

/-- C14, out-of-range assignment: for a builder that exposes `is` and every
number `p`, `is(p)` raises the `RangeError` if and only if `p < 0` or `p > 100`
(so does `setProbability` on any object), and a call that raises leaves the
object, with its event, dependency list, probability data and members, as it
was. -/
theorem out_of_range_iff (self : Prob) (givens : Option (List Int)) (p : ℚ)
    (hcap : self.is = .bound givens) :
    (invokeIs self p = .error .rangeError ↔ p < 0 ∨ p > 100) ∧
    ((runIs self p).2 = some .rangeError ↔ p < 0 ∨ p > 100) ∧
    ((runIs self p).2 = some .rangeError → (runIs self p).1 = self) ∧
    (∀ (other : Prob) (gs : Option (List Int)),
      setProbability other gs p = .error .rangeError ↔ p < 0 ∨ p > 100) := by
  have hinv := invokeIs_bound self givens p hcap
  have hiff := setProbability_error_iff self givens p
  refine ⟨by rw [hinv]; exact hiff, ?_, ?_, fun other gs => setProbability_error_iff other gs p⟩
  · unfold runIs
    rw [hinv]
    rcases setProbability_ok_or_range self givens p with ⟨q, hq⟩ | herr
    · rw [hq]
      constructor
      · intro h; cases h
      · intro h; rw [hiff.mpr h] at hq; cases hq
    · rw [herr]
      exact ⟨fun _ => hiff.mp herr, fun _ => rfl⟩
  · unfold runIs
    cases invokeIs self p with
    | ok q => intro h; cases h
    | error err => intro _; rfl

/-- Witness of `out_of_range_iff`: `P(e).is(-1)`. -/
theorem out_of_range_iff_witness :
    (P 0 []).is = .bound none ∧
    (invokeIs (P 0 []) (-1) = .error .rangeError ↔ (-1 : ℚ) < 0 ∨ (-1 : ℚ) > 100) ∧
    (runIs (P 0 []) (-1)).1 = P 0 [] :=
  ⟨rfl, (out_of_range_iff (P 0 []) none (-1) rfl).1,
    (out_of_range_iff (P 0 []) none (-1) rfl).2.2.1
      ((out_of_range_iff (P 0 []) none (-1) rfl).2.1.mpr (Or.inl (by norm_num)))⟩

/-! ## The members of a probability object along a chain -/

theorem setProbability_members {self q : Prob} {givens : Option (List Int)} {p : ℚ}
    (h : setProbability self givens p = .ok q) :
    q.is = .undefined ∧ q.depends = self.depends ∧
    (givens = none → q.given = .undefined) ∧
    (∀ gs, givens = some gs → q.given = .conditional) := by
  have hrange : ¬ (p < 0 ∨ p > 100) := by
    intro hr
    rw [(setProbability_error_iff self givens p).mpr hr] at h
    cases h
  rw [setProbability_ok self givens p (not_lt.mp (fun hlt => hrange (Or.inl hlt)))
    (not_lt.mp (fun hgt => hrange (Or.inr hgt)))] at h
  have hq := (Except.ok.inj h).symm
  subst hq
  refine ⟨rfl, rfl, ?_, ?_⟩
  · intro hg; subst hg; rfl
  · intro gs hg; subst hg; rfl

theorem invokeIs_members {self q : Prob} {p : ℚ} (h : invokeIs self p = .ok q) :
    q.is = .undefined ∧ q.depends = self.depends ∧
    (self.is = .bound none → q.given = .undefined) ∧
    (∀ gs, self.is = .bound (some gs) → q.given = .conditional) ∧
    (∀ targets, q.given ≠ .joint targets) := by
  cases hcap : self.is with
  | undefined => rw [invokeIs_undefined self p hcap] at h; cases h
  | bound givens =>
    rw [invokeIs_bound self givens p hcap] at h
    obtain ⟨h1, h2, h3, h4⟩ := setProbability_members h
    refine ⟨h1, h2, ?_, ?_, ?_⟩
    · intro hg; exact h3 (IsMember.bound.inj hg)
    · intro gs hg; exact h4 gs (IsMember.bound.inj hg)
    · intro targets hj
      cases givens with
      | none => rw [h3 rfl] at hj; cases hj
      | some gs => rw [h4 gs rfl] at hj; cases hj

theorem invokeGiven_members {self q : Prob} {events : List Int}
    (h : invokeGiven self events = .ok q) :
    q.given = .undefined ∧ q.event = self.event ∧ q.probabilities = self.probabilities ∧
    (self.given = .conditional → q.is = .bound (some events) ∧
      q.depends = if self.depends.length = 0 then events.map norm else self.depends) ∧
    (∀ targets, self.given = .joint targets → q.is = self.is ∧ q.depends = events.map norm) := by
  unfold invokeGiven at h
  cases hg : self.given with
  | undefined => rw [hg] at h; cases h
  | conditional =>
    rw [hg] at h
    have hq := (Except.ok.inj h).symm
    subst hq
    exact ⟨rfl, rfl, rfl, fun _ => ⟨rfl, rfl⟩, fun _ hj => by cases hj⟩
  | joint targets =>
    rw [hg] at h
    have hq := (Except.ok.inj h).symm
    subst hq
    exact ⟨rfl, rfl, rfl, (fun hj => by cases hj), fun _ _ => ⟨rfl, rfl⟩⟩

/-- Along the calls that return, an object whose `given` is still the closure
of a joint query has declared no dependency. -/
theorem reachable_joint_depends {e : Int} {others : List Int} {p : Prob}
    (h : Reachable (P e others) p) : ∀ targets, p.given = .joint targets → p.depends = [] := by
  induction h with
  | start =>
    intro targets _
    unfold P
    split <;> rfl
  | afterIs p p' v _ hcall _ =>
    intro targets hj
    exact absurd hj ((invokeIs_members hcall).2.2.2.2 targets)
  | afterGiven p p' events _ hcall _ =>
    intro targets hj
    rw [(invokeGiven_members hcall).1] at hj
    cases hj

/-- Along the calls that return, a joint query never has an `is`. -/
theorem reachable_joint_is {e : Int} {others : List Int} (hne : others ≠ []) {p : Prob}
    (h : Reachable (P e others) p) :
    p.is = .undefined ∧ (p.given = .undefined ∨ ∃ targets, p.given = .joint targets) := by
  induction h with
  | start =>
    have hlen : ¬ others.length = 0 := by
      intro h0; exact hne (List.length_eq_zero.mp h0)
    unfold P
    rw [if_neg hlen]
    exact ⟨rfl, Or.inr ⟨_, rfl⟩⟩
  | afterIs p p' v _ hcall ih =>
    rw [invokeIs_undefined p v ih.1] at hcall
    cases hcall
  | afterGiven p p' events _ hcall ih =>
    obtain ⟨hg, -, -, -, hj⟩ := invokeGiven_members hcall
    refine ⟨?_, Or.inl hg⟩
    rcases ih.2 with hu | ⟨targets, ht⟩
    · unfold invokeGiven at hcall
      rw [hu] at hcall
      cases hcall
    · rw [(hj targets ht).1]; exact ih.1

theorem runGiven_depends (p : Prob) (events : List Int)
    (hjoint : ∀ targets, p.given = .joint targets → p.depends = []) (hne : p.depends ≠ []) :
    (runGiven p events).1.depends = p.depends := by
  unfold runGiven
  cases hcall : invokeGiven p events with
  | error err => rfl
  | ok q =>
    obtain ⟨-, -, -, hc, hj⟩ := invokeGiven_members hcall
    show q.depends = p.depends
    cases hg : p.given with
    | undefined =>
      unfold invokeGiven at hcall
      rw [hg] at hcall
      cases hcall
    | conditional =>
      rw [(hc hg).2, if_neg]
      intro h0
      exact hne (List.length_eq_zero.mp h0)
    | joint targets => exact absurd (hjoint targets hg) hne

/-- C15, declaring dependencies: the first `given` on a fresh builder `P(e)`
sets the dependency list to the handles passed, each negated handle replaced by
its non-negated form, in the order passed, and leaves the event and the
probability data as they were; and on any object that a builder has become, a
`given` made while the dependency list is non-empty leaves the list as it is,
whatever handles it is passed (and whether it returns or throws). -/
theorem given_declares_once (e : Int) (passed : List Int) :
    (∃ q, invokeGiven (P e []) passed = .ok q ∧ q.depends = passed.map norm ∧
      (∀ d ∈ q.depends, 0 ≤ d) ∧ q.event = e ∧ q.probabilities = (P e []).probabilities) ∧
    (∀ (others : List Int) (p : Prob) (later : List Int), Reachable (P e others) p →
      p.depends ≠ [] → (runGiven p later).1.depends = p.depends) := by
  constructor
  · refine ⟨createConditional (P e []) passed, rfl, rfl, ?_, rfl, rfl⟩
    intro d hd
    have hd' : d ∈ passed.map norm := hd
    obtain ⟨x, -, hx⟩ := List.mem_map.mp hd'
    rw [← hx]
    exact norm_nonneg x
  · intro others p later hreach hne
    exact runGiven_depends p later (reachable_joint_depends hreach) hne

/-- Witness of `given_declares_once`: `P(e1).given(~e0, e2)` declares `[e0, e2]`,
and after `.is(0.1)` a `given(e5)` leaves that list as it is. -/
theorem given_declares_once_witness :
    (∃ q, invokeGiven (P 1 []) [bnot 0, 2] = .ok q ∧ q.depends = [bnot 0, 2].map norm ∧
      (∀ d ∈ q.depends, 0 ≤ d) ∧ q.event = 1 ∧ q.probabilities = (P 1 []).probabilities) ∧
    (runGiven ⟨1, [0, 2], .table [(2, 1/10)], .undefined, .conditional, .ofEvent [bnot 0, 2]⟩
      [5]).1.depends = [0, 2] :=
  ⟨(given_declares_once 1 [bnot 0, 2]).1,
    (given_declares_once 1 [bnot 0, 2]).2 []
      ⟨1, [0, 2], .table [(2, 1/10)], .undefined, .conditional, .ofEvent [bnot 0, 2]⟩ [5]
      (Reachable.afterIs (createConditional (P 1 []) [bnot 0, 2]) _ (1/10)
        (Reachable.afterGiven (P 1 []) _ [bnot 0, 2] Reachable.start rfl) (by decide!))
      (by decide)⟩

/-- C16, call-order restrictions: a fresh single-event builder exposes `is` and
`given`; a joint query exposes `given` and, whatever calls follow, never `is`;
after `given` the object exposes no `given` (and, for a single event, exposes
`is`); after an unconditional `is` it exposes neither member; after a
conditional `is` it exposes `given` and not `is`.  Hence a second `is` directly
after an `is`, and a second `given` directly after a `given`, is a call of
`undefined`, a `TypeError`. -/
theorem call_order_restrictions (e : Int) (others : List Int) :
    ((P e []).is = .bound none ∧ (P e []).given = .conditional) ∧
    (others ≠ [] → (P e others).is = .undefined ∧ (P e others).given = .joint (e :: others)) ∧
    (others ≠ [] → ∀ p, Reachable (P e others) p → p.is = .undefined) ∧
    (∀ (p q : Prob) (events : List Int), invokeGiven p events = .ok q →
      q.given = .undefined ∧ (p.given = .conditional → q.is = .bound (some events))) ∧
    (∀ (p q : Prob) (v : ℚ), invokeIs p v = .ok q →
      q.is = .undefined ∧ (p.is = .bound none → q.given = .undefined) ∧
      (∀ gs, p.is = .bound (some gs) → q.given = .conditional)) ∧
    (∀ (p q : Prob) (v w : ℚ), invokeIs p v = .ok q → invokeIs q w = .error .typeError) ∧
    (∀ (p q : Prob) (first second : List Int), invokeGiven p first = .ok q →
      invokeGiven q second = .error .typeError) := by
  refine ⟨⟨rfl, rfl⟩, ?_, ?_, ?_, ?_, ?_, ?_⟩
  · intro hne
    have hlen : ¬ others.length = 0 := by
      intro h0; exact hne (List.length_eq_zero.mp h0)
    unfold P
    rw [if_neg hlen]
    exact ⟨rfl, rfl⟩
  · intro hne p hreach
    exact (reachable_joint_is hne hreach).1
  · intro p q events hcall
    obtain ⟨hg, -, -, hc, -⟩ := invokeGiven_members hcall
    exact ⟨hg, fun h => (hc h).1⟩
  · intro p q v hcall
    obtain ⟨h1, -, h3, h4, -⟩ := invokeIs_members hcall
    exact ⟨h1, h3, h4⟩
  · intro p q v w hcall
    exact invokeIs_undefined q w (invokeIs_members hcall).1
  · intro p q first second hcall
    unfold invokeGiven
    rw [(invokeGiven_members hcall).1]

/-- Witness of `call_order_restrictions`: the joint query `P(e1, e2)`, and the
second `is` of `P(e1).is(0.3).is(0.4)`. -/
theorem call_order_restrictions_witness :
    ((P 1 [2]).is = .undefined ∧ (P 1 [2]).given = .joint [1, 2]) ∧
    invokeIs ⟨1, [], .scalar (3/10), .undefined, .undefined, .fixed [1] []⟩ (4/10)
      = .error .typeError :=
  ⟨(call_order_restrictions 1 [2]).2.1 (by decide),
    (call_order_restrictions 1 [2]).2.2.2.2.2.1 (P 1 []) _ (3/10) (4/10) (by decide!)⟩

/-- C12, negated builders: the chain `P(~e1).given(e0).is(0.1).given(~e0).is(0.3)`
leaves event 1 with the table `[0.3, 0.9]`.  The first assignment is
complemented (slot 1 holds `1 - 0.1`); it also replaces `this.event` by the
non-negated handle, so the second assignment stores `0.3` where the complement
`0.7` belongs. -/
theorem negated_builder_complements_first_only :
    chain (P (bnot 1) []) [([0], 1/10), ([bnot 0], 3/10)] =
      .ok ⟨1, [0], .table [(0, 3/10), (1, 9/10)], .undefined, .conditional,
        .ofEvent [bnot 0]⟩ := by
  decide!

/-! ## Later `given` calls and the declared order -/

theorem signed_contains : ∀ (D : List Int) (c : List Bool), (∀ d ∈ D, 0 ≤ d) → D.Nodup →
    c.length = D.length → D.map (fun d => (signed D c).contains d) = c
  | [], [], _, _, _ => rfl
  | [], _ :: _, _, _, h => by simp at h
  | _ :: _, [], _, _, h => by simp at h
  | d :: D, b :: c, hD, hnd, h => by
    have hD' : ∀ x ∈ D, 0 ≤ x := fun x hx => hD x (List.mem_cons_of_mem _ hx)
    have hlen : c.length = D.length := by simpa using h
    have ih := signed_contains D c hD' (List.nodup_cons.mp hnd).2 hlen
    have hd : 0 ≤ d := hD d (List.mem_cons_self _ _)
    have hdD : d ∉ D := (List.nodup_cons.mp hnd).1
    have hnorm : (signed D c).map norm = D := signed_map_norm D c hD' hlen
    have hmem : ∀ x, 0 ≤ x → (x ∈ signed D c → x ∈ D) := by
      intro x hx hxs
      have : norm x ∈ (signed D c).map norm := List.mem_map_of_mem norm hxs
      rw [hnorm, norm_of_nonneg hx] at this
      exact this
    have hcons : signed (d :: D) (b :: c) = (if b then d else bnot d) :: signed D c := rfl
    rw [List.map_cons, hcons]
    congr 1
    · cases b with
      | true => simp
      | false =>
        have h1 : d ≠ bnot d := fun heq => bnot_ne_self d heq.symm
        have h2 : d ∉ signed D c := fun hin => hdD (hmem d hd hin)
        simp [List.contains, List.elem_cons, h1, h2]
    · rw [← ih]
      apply List.map_congr_left
      intro x hx
      have hx0 : 0 ≤ x := hD' x hx
      have hne : x ≠ (if b then d else bnot d) := by
        cases b with
        | true =>
          simp only [if_true]
          intro heq; exact hdD (heq ▸ hx)
        | false =>
          have := bnot_neg_of_nonneg hd
          simp only [Bool.false_eq_true, if_false]
          intro heq; omega
      rw [ih]
      simp [List.contains, List.elem_cons, hne]

/-- For handles passed in declared order, the slot that `probIndex` computes is
the declared-order index of the dependencies asserted true. -/
theorem probIndex_signed_eq_assertedIndex (D : List Int) (c : List Bool)
    (hD : ∀ d ∈ D, 0 ≤ d) (hnd : D.Nodup) (hk : D.length ≤ 31) (hc : c.length = D.length) :
    probIndex (signed D c) = assertedIndex D (signed D c) := by
  rw [probIndex_eq_patternValue _ (by rw [signed_length D c hc]; exact hk)]
  unfold assertedIndex
  congr 1
  rw [patternValue_eq_iff _ _ (by rw [signed_length D c hc, List.length_map]),
    signed_polarity D c hD hc, List.map_map]
  refine (signed_contains D c hD hnd hc).symm.trans ?_
  apply List.map_congr_left
  intro d _
  have hbool : ∀ b : Bool, b = decide ((if b = true then (0 : Int) else -1) ≥ 0) := by
    intro b; cases b <;> decide
  exact hbool _

/-- The declared-order index of a handle list agrees with its passed-order
index exactly when, position by position, the handle passed is non-negated if
and only if the dependency declared at that position is asserted true. -/
theorem patternValue_eq_assertedIndex_iff (D events : List Int)
    (hlen : events.length = D.length) :
    (((patternValue events : Nat) : Int) = assertedIndex D events) ↔
      events.map (fun e => decide (e ≥ 0)) = D.map (fun d => events.contains d) := by
  unfold assertedIndex
  rw [Int.ofNat_inj, patternValue_eq_iff _ _ (by rw [List.length_map]; exact hlen),
    List.map_map]
  have hbool : ∀ b : Bool, decide ((if b = true then (0 : Int) else -1) ≥ 0) = b := by
    intro b; cases b <;> decide
  have hmap : D.map ((fun e : Int => decide (e ≥ 0)) ∘
      (fun d => if events.contains d then (0 : Int) else -1))
      = D.map (fun d => events.contains d) := by
    apply List.map_congr_left
    intro d _
    exact hbool _
  rw [hmap]

/-- C11 (as amended), chained assignments: on a builder for a non-negated event
whose dependency list `D` is declared, a later `given(events).is(v)` with at
most 31 handles, passed in any order, keeps the list and writes the value
(after the percentage rule) into the slot whose bit `i` is 1 exactly when the
`i`-th handle of `events`, in the order passed, is non-negated.  When `events`
names as many handles as `D` has entries, this slot is the declared-order slot
if and only if, position by position, the handle passed is non-negated exactly
when the dependency declared at that position is asserted true by `events`; in
particular it is the declared-order slot when the dependencies (non-negated,
pairwise distinct) are passed in declared order, each as it is or negated. -/
theorem later_given_writes_passed_order_slot (p : Prob) (D : List Int)
    (cells : List (Int × ℚ)) (events : List Int) (v : ℚ)
    (hgiven : p.given = .conditional) (hdep : p.depends = D)
    (htab : p.probabilities = .table cells) (hev : 0 ≤ p.event)
    (hk : events.length ≤ 31) (hv0 : 0 ≤ v) (hv100 : v ≤ 100) :
    (∃ q r, invokeGiven p events = .ok q ∧ invokeIs q v = .ok r ∧
      r.event = p.event ∧
      r.depends = (if D.length = 0 then events.map norm else D) ∧
      r.given = .conditional ∧
      r.probabilities = .table ((((patternValue events : Nat) : Int), percent v) :: cells)) ∧
    (∀ i : Nat, (patternValue events).testBit i = true ↔
      ∃ hi : i < events.length, 0 ≤ events.get ⟨i, hi⟩) ∧
    (events.length = D.length →
      ((((patternValue events : Nat) : Int) = assertedIndex D events) ↔
        events.map (fun e => decide (e ≥ 0)) = D.map (fun d => events.contains d))) ∧
    (∀ c : List Bool, (∀ d ∈ D, 0 ≤ d) → D.Nodup → c.length = D.length →
      events = signed D c →
      ((patternValue events : Nat) : Int) = assertedIndex D events) := by
  refine ⟨?_, ?_, patternValue_eq_assertedIndex_iff D events, ?_⟩
  · have hq : invokeGiven p events = .ok (createConditional p events) := by
      simp only [invokeGiven, hgiven]
    have hqdep : (createConditional p events).depends
        = (if D.length = 0 then events.map norm else D) := by
      show (if p.depends.length = 0 then events.map norm else p.depends) = _
      rw [hdep]
    have hneg : ¬ (createConditional p events).event < 0 := not_lt.mpr hev
    have hr := setProbability_ok (createConditional p events) (some events) v hv0 hv100
    refine ⟨createConditional p events, _, hq,
      (invokeIs_bound _ (some events) v rfl).trans hr, ?_, hqdep, rfl, ?_⟩
    · show (if (createConditional p events).event < 0 then _ else _) = p.event
      rw [if_neg hneg]; rfl
    · show writeIndexed (createConditional p events).probabilities _ _ = _
      rw [if_neg hneg, probIndex_eq_patternValue events hk]
      show writeIndexed p.probabilities _ _ = _
      rw [htab]
      rfl
  · intro i
    constructor
    · intro hbit
      have hi : i < events.length := by
        by_contra hcon
        have hlt : patternValue events < 2 ^ i :=
          lt_of_lt_of_le (patternValue_lt events)
            (Nat.pow_le_pow_right (by norm_num) (not_lt.mp hcon))
        rw [Nat.testBit_lt_two_pow hlt] at hbit
        cases hbit
      refine ⟨hi, ?_⟩
      rw [patternValue_testBit events i hi] at hbit
      exact of_decide_eq_true hbit
    · rintro ⟨hi, h0⟩
      rw [patternValue_testBit events i hi]
      exact decide_eq_true h0
  · intro c hD hnd hc hevents
    have hk' : D.length ≤ 31 := by
      rw [hevents, signed_length D c hc] at hk; exact hk
    rw [hevents, ← probIndex_eq_patternValue _ (by rw [signed_length D c hc]; exact hk')]
    exact probIndex_signed_eq_assertedIndex D c hD hnd hk' hc

/-- Witness of `later_given_writes_passed_order_slot`: the builder after
`P(e2).given(e0, e1).is(0.1)`, continued with `.given(~e1, e0).is(0.3)`, the
handles in another order than declared. -/
theorem later_given_writes_passed_order_slot_witness :
    (∃ q r, invokeGiven ⟨2, [0, 1], .table [(3, 1/10)], .undefined, .conditional, .ofEvent [0, 1]⟩
        [bnot 1, 0] = .ok q ∧ invokeIs q (3/10) = .ok r ∧
      r.event = 2 ∧
      r.depends = (if [(0 : Int), 1].length = 0 then [bnot 1, 0].map norm else [0, 1]) ∧
      r.given = .conditional ∧
      r.probabilities = .table
        ((((patternValue [bnot 1, 0] : Nat) : Int), percent (3/10)) :: [(3, 1/10)])) ∧
    patternValue [bnot 1, 0] = 2 ∧ assertedIndex [0, 1] [bnot 1, 0] = 1 :=
  ⟨(later_given_writes_passed_order_slot
    ⟨2, [0, 1], .table [(3, 1/10)], .undefined, .conditional, .ofEvent [0, 1]⟩ [0, 1]
    [(3, 1/10)] [bnot 1, 0] (3/10) rfl rfl rfl (by decide) (by decide) (by norm_num)
    (by norm_num)).1, by decide, by decide⟩

/-- Counterexample to C11 as stated: after `P(e2).given(e0, e1).is(0.1)`, the
call `.given(~e1, e0).is(0.3)` names the same two dependencies with `e0` true
and `e1` false, so the declared-order slot is 1; the value is written into slot
2, the index of the handles in the order passed, and slot 1 stays empty. -/
theorem later_given_indexes_by_passed_order :
    chain (P 2 []) [([0, 1], 1/10), ([bnot 1, 0], 3/10)] =
      .ok ⟨2, [0, 1], .table [(2, 3/10), (3, 1/10)], .undefined, .conditional,
        .ofEvent [bnot 1, 0]⟩ ∧
    assertedIndex [0, 1] [bnot 1, 0] = 1 ∧
    readIndexed (.table [(2, 3/10), (3, 1/10)]) 1 = none := by
  decide!

/-! ## `facts` -/

theorem eventAt_isSome_of_length {n1 n2 : Network} (h : n1.length = n2.length) (v : Int) :
    (eventAt n1 v).isSome = (eventAt n2 v).isSome := by
  unfold eventAt
  split
  · rfl
  · simp only [List.get?_eq_getElem?]
    by_cases hv : v.toNat < n1.length
    · rw [List.getElem?_eq_getElem hv, List.getElem?_eq_getElem (h ▸ hv)]; rfl
    · rw [List.getElem?_eq_none (not_lt.mp hv), List.getElem?_eq_none (h ▸ not_lt.mp hv)]

theorem accepted_of_length {n1 n2 : Network} (h : n1.length = n2.length) (a : Fact) :
    accepted n1 a = accepted n2 a := by
  cases a with
  | other => rfl
  | prob p => exact eventAt_isSome_of_length h p.event

theorem eventAt_none_of_length {n1 n2 : Network} (h : n1.length = n2.length) {v : Int}
    (hv : eventAt n1 v = none) : eventAt n2 v = none := by
  have := eventAt_isSome_of_length h v
  rw [hv] at this
  cases h2 : eventAt n2 v with
  | none => rfl
  | some ev => rw [h2] at this; cases this

theorem eventAt_set_of_ne (net : Network) (e v : Int) (new : Event) (he : 0 ≤ e)
    (hne : v ≠ e) : eventAt (net.set e.toNat new) v = eventAt net v := by
  unfold eventAt
  split
  · rfl
  · rename_i hv
    simp only [List.get?_eq_getElem?]
    rw [List.getElem?_set_ne]
    omega

theorem facts_cons_prob (net : Network) (p : Prob) (rest : List Fact) (ev : Event)
    (h : eventAt net p.event = some ev) :
    facts net (.prob p :: rest) =
      facts (net.set p.event.toNat ⟨ev.id, p.probabilities, p.depends⟩) rest := by
  simp only [facts, h]

theorem facts_cons_unknown (net : Network) (p : Prob) (rest : List Fact)
    (h : eventAt net p.event = none) :
    facts net (.prob p :: rest) = (net, some .referenceError) := by
  simp only [facts, h]

theorem set_keeps_ids (net : Network) (e : Int) (ev : Event) (data : ProbData)
    (deps : List Int) (h : eventAt net e = some ev) :
    (net.set e.toNat ⟨ev.id, data, deps⟩).map Event.id = net.map Event.id := by
  have he := eventAt_nonneg h
  simp only [eventAt, not_lt.mpr he, if_false, List.get?_eq_getElem?] at h
  rw [List.map_set]
  apply List.ext_getElem?
  intro n
  by_cases hn : e.toNat = n
  · subst hn
    rw [List.getElem?_set_self', List.getElem?_map, h]
    rfl
  · rw [List.getElem?_set_ne hn]

/-- Whatever its arguments, `facts` keeps the number of events and every
identifier. -/
theorem facts_keeps_shape : ∀ (args : List Fact) (net : Network),
    (facts net args).1.length = net.length ∧
      (facts net args).1.map Event.id = net.map Event.id
  | [], _ => ⟨rfl, rfl⟩
  | .other :: _, _ => ⟨rfl, rfl⟩
  | .prob p :: rest, net => by
    cases h : eventAt net p.event with
    | none => rw [facts_cons_unknown net p rest h]; exact ⟨rfl, rfl⟩
    | some ev =>
      rw [facts_cons_prob net p rest ev h]
      obtain ⟨h1, h2⟩ := facts_keeps_shape rest
        (net.set p.event.toNat ⟨ev.id, p.probabilities, p.depends⟩)
      exact ⟨by rw [h1, List.length_set], by rw [h2, set_keeps_ids net p.event ev _ _ h]⟩

/-- The loop runs through a prefix of accepted arguments without an exception. -/
theorem facts_append : ∀ (pre : List Fact) (net : Network) (rest : List Fact),
    (∀ a ∈ pre, accepted net a = true) →
    (facts net pre).2 = none ∧ facts net (pre ++ rest) = facts (facts net pre).1 rest
  | [], _, _, _ => ⟨rfl, rfl⟩
  | .other :: _, _, _, h => by
    have := h .other (List.mem_cons_self _ _)
    cases this
  | .prob p :: pre, net, rest, h => by
    have hp : (eventAt net p.event).isSome = true := h (.prob p) (List.mem_cons_self _ _)
    obtain ⟨ev, hev⟩ := Option.isSome_iff_exists.mp hp
    have hlen : (net.set p.event.toNat ⟨ev.id, p.probabilities, p.depends⟩).length
        = net.length := List.length_set _ _ _
    have ih := facts_append pre (net.set p.event.toNat ⟨ev.id, p.probabilities, p.depends⟩)
      rest (fun a ha => by
        rw [accepted_of_length hlen a]; exact h a (List.mem_cons_of_mem _ ha))
    rw [List.cons_append, facts_cons_prob net p (pre ++ rest) ev hev,
      facts_cons_prob net p pre ev hev]
    exact ih

/-- A `ReferenceError` of `facts` comes from an argument with an unknown event
that follows accepted arguments only. -/
theorem facts_reference_error : ∀ (args : List Fact) (net : Network),
    (facts net args).2 = some .referenceError →
    ∃ pre p post, args = pre ++ .prob p :: post ∧ (∀ a ∈ pre, accepted net a = true) ∧
      eventAt net p.event = none
  | [], _, h => by cases h
  | .other :: _, _, h => by cases h
  | .prob p :: rest, net, h => by
    cases hev : eventAt net p.event with
    | none => exact ⟨[], p, rest, rfl, (fun a ha => by cases ha), hev⟩
    | some ev =>
      rw [facts_cons_prob net p rest ev hev] at h
      have hlen : (net.set p.event.toNat ⟨ev.id, p.probabilities, p.depends⟩).length
          = net.length := List.length_set _ _ _
      obtain ⟨pre, q, post, hargs, hpre, hq⟩ := facts_reference_error rest _ h
      refine ⟨.prob p :: pre, q, post, by rw [hargs]; rfl, ?_, eventAt_none_of_length hlen hq⟩
      intro a ha
      rcases List.mem_cons.mp ha with rfl | ha
      · show (eventAt net p.event).isSome = true
        rw [hev]; rfl
      · rw [← accepted_of_length hlen a]; exact hpre a ha

/-- After a run over accepted arguments, an event holds the data of the last
object that names it, or what it held before when none does. -/
theorem facts_data : ∀ (args : List Fact) (net : Network),
    (∀ a ∈ args, accepted net a = true) → ∀ (v : Int) (ev : Event),
    eventAt net v = some ev →
    (∀ p, lastFor v args = some p →
      eventAt (facts net args).1 v = some ⟨ev.id, p.probabilities, p.depends⟩) ∧
    (lastFor v args = none → eventAt (facts net args).1 v = some ev)
  | [], _, _, _, _, hev => ⟨(fun p hp => by cases hp), fun _ => hev⟩
  | .other :: _, _, h, _, _, _ => by
    have := h .other (List.mem_cons_self _ _)
    cases this
  | .prob p :: rest, net, h, v, ev, hev => by
    have hp : (eventAt net p.event).isSome = true := h (.prob p) (List.mem_cons_self _ _)
    obtain ⟨ev0, hev0⟩ := Option.isSome_iff_exists.mp hp
    have hlen : (net.set p.event.toNat ⟨ev0.id, p.probabilities, p.depends⟩).length
        = net.length := List.length_set _ _ _
    have hrest : ∀ a ∈ rest,
        accepted (net.set p.event.toNat ⟨ev0.id, p.probabilities, p.depends⟩) a = true :=
      fun a ha => by rw [accepted_of_length hlen a]; exact h a (List.mem_cons_of_mem _ ha)
    rw [facts_cons_prob net p rest ev0 hev0]
    have hlast : lastFor v (.prob p :: rest) =
        (lastFor v rest).orElse (fun _ => if p.event = v then some p else none) := by
      simp only [lastFor]
      cases lastFor v rest <;> rfl
    by_cases hv : v = p.event
    · subst hv
      rw [hev] at hev0
      have hev0' := (Option.some.inj hev0).symm
      subst hev0'
      have ih := facts_data rest _ hrest p.event _
        (eventAt_set_self net p.event ev0 ⟨ev0.id, p.probabilities, p.depends⟩ hev)
      constructor
      · intro q hq
        rw [hlast] at hq
        cases hl : lastFor p.event rest with
        | some q' =>
          rw [hl] at hq
          have hq' : q' = q := Option.some.inj hq
          subst hq'
          exact ih.1 q' hl
        | none =>
          rw [hl] at hq
          have hq' : p = q := by simpa using hq
          subst hq'
          exact ih.2 hl
      · intro hn
        rw [hlast] at hn
        cases hl : lastFor p.event rest with
        | some q' => rw [hl] at hn; cases hn
        | none => rw [hl] at hn; simp at hn
    · have hset := eventAt_set_of_ne net p.event v ⟨ev0.id, p.probabilities, p.depends⟩
        (eventAt_nonneg hev0) hv
      have ih := facts_data rest _ hrest v ev (by rw [hset]; exact hev)
      have hne : ¬ p.event = v := fun heq => hv heq.symm
      constructor
      · intro q hq
        rw [hlast] at hq
        cases hl : lastFor v rest with
        | some q' =>
          rw [hl] at hq
          have hq' : q' = q := Option.some.inj hq
          subst hq'
          exact ih.1 q' hl
        | none => rw [hl] at hq; simp [hne] at hq
      · intro hn
        rw [hlast] at hn
        cases hl : lastFor v rest with
        | some q' => rw [hl] at hn; cases hn
        | none => exact ih.2 hl

/-- C17 (as amended), `facts`: the arguments are taken in order and the first
one that is refused decides the exception.  After arguments that are all
probability objects for events of the network, a first argument that is not a
probability object raises the `TypeError`; `facts` raises the `ReferenceError`
if and only if the first refused argument is a probability object whose event
is not in the network.  In every case the number of events and all identifiers
are unchanged.  When every argument is a probability object for an event of the
network there is no exception, every event named by an argument holds the
dependency list and probability data of the last argument that names it, and
every other event is unchanged. -/
theorem facts_first_refusal_decides (net : Network) (args : List Fact) :
    ((facts net args).1.length = net.length ∧
      (facts net args).1.map Event.id = net.map Event.id) ∧
    (∀ pre post, args = pre ++ .other :: post → (∀ a ∈ pre, accepted net a = true) →
      (facts net args).2 = some .typeError) ∧
    ((facts net args).2 = some .referenceError ↔
      ∃ pre p post, args = pre ++ .prob p :: post ∧ (∀ a ∈ pre, accepted net a = true) ∧
        eventAt net p.event = none) ∧
    ((∀ a ∈ args, accepted net a = true) →
      (facts net args).2 = none ∧
      ∀ (v : Int) (ev : Event), eventAt net v = some ev →
        (∀ p, lastFor v args = some p →
          eventAt (facts net args).1 v = some ⟨ev.id, p.probabilities, p.depends⟩) ∧
        (lastFor v args = none → eventAt (facts net args).1 v = some ev)) := by
  refine ⟨facts_keeps_shape args net, ?_, ⟨facts_reference_error args net, ?_⟩, ?_⟩
  · intro pre post hargs hpre
    rw [hargs, (facts_append pre net (.other :: post) hpre).2]
    rfl
  · rintro ⟨pre, p, post, hargs, hpre, hp⟩
    rw [hargs, (facts_append pre net (.prob p :: post) hpre).2,
      facts_cons_unknown _ p post
        (eventAt_none_of_length (facts_keeps_shape pre net).1.symm hp)]
  · intro hall
    exact ⟨(facts_append args net [] hall).1, facts_data args net hall⟩

/-- Witness of `facts_first_refusal_decides`: the call
`facts(P(e1).is(0.5), P(e0).given(e1).is(0.1).given(~e1).is(0.9))` of the tests,
on two fresh events. -/
theorem facts_first_refusal_decides_witness :
    (facts (blankNetwork 2)
      [built (invokeIs (P 1 []) (1/2)),
        built (chain (P 0 []) [([1], 1/10), ([bnot 1], 9/10)])]).2 = none ∧
    eventAt (facts (blankNetwork 2)
      [built (invokeIs (P 1 []) (1/2)),
        built (chain (P 0 []) [([1], 1/10), ([bnot 1], 9/10)])]).1 0
      = some ⟨.num 0, .table [(0, 9/10), (1, 1/10)], [1]⟩ :=
  have h := (facts_first_refusal_decides (blankNetwork 2)
    [built (invokeIs (P 1 []) (1/2)),
      built (chain (P 0 []) [([1], 1/10), ([bnot 1], 9/10)])]).2.2.2 (by decide!)
  ⟨h.1, (h.2 0 ⟨.num 0, .table [], []⟩ (by decide)).1
    ⟨0, [1], .table [(0, 9/10), (1, 1/10)], .undefined, .conditional, .ofEvent [bnot 1]⟩
    (by decide!)⟩

/-- Counterexample to C17 as stated: in `facts(P(777).is(0.4), 42)` an argument
is not a probability object, and the call raises the `ReferenceError` of the
argument before it, not a `TypeError`; in `facts(42, P(777).is(0.4))` an
argument names an event that is not in the network, and the call raises the
`TypeError`, not the `ReferenceError`. -/
theorem facts_reports_first_refusal_only :
    (facts (blankNetwork 1) [built (invokeIs (P 777 []) (4/10)), .other]).2
      = some .referenceError ∧
    (facts (blankNetwork 1) [.other, built (invokeIs (P 777 []) (4/10))]).2
      = some .typeError := by
  decide!

/-! ## The event registry -/

theorem EVENT_of_not_null (s : Registry) (arg : EventArg) (h : arg ≠ .null) :
    ∃ (counter : Nat) (id : Ident),
      EVENT s arg = (⟨counter, s.network ++ [⟨id, .table [], []⟩]⟩,
        .ok (Int.ofNat s.network.length)) ∧
      (∀ supplied, arg = .value supplied → id = supplied) ∧
      (∀ chunk rest, arg = .template (chunk :: rest) → chunk ≠ "" → id = .str chunk) := by
  cases arg with
  | omitted =>
    exact ⟨_, _, rfl, (fun _ h => by cases h), fun _ _ h => by cases h⟩
  | value id =>
    refine ⟨_, id, rfl, fun _ h => ?_, fun _ _ h => by cases h⟩
    cases h; rfl
  | null => exact absurd rfl h
  | template strings =>
    cases strings with
    | nil => exact ⟨_, _, rfl, (fun _ h => by cases h), fun _ _ h => by cases h⟩
    | cons chunk rest =>
      by_cases hc : chunk = ""
      · refine ⟨s.id_counter + 1, .num s.id_counter, ?_, (fun _ h => by cases h),
          fun c r h hne => ?_⟩
        · simp [EVENT, hc, pushEvent]
        · cases h; exact absurd hc hne
      · refine ⟨s.id_counter, .str chunk, ?_, (fun _ h => by cases h), fun c r h _ => ?_⟩
        · simp [EVENT, hc, pushEvent]
        · cases h; rfl

/-- A sequence of `EVENT` calls none of which passes `null`: call number `n`
returns the handle `n` (counted from the events that exist already), every call
appends one event without dependencies or probability data, and the events that
existed are kept. -/
theorem events_of_not_null : ∀ (args : List EventArg) (s : Registry),
    (∀ a ∈ args, a ≠ .null) →
    (events s args).2 = (List.range args.length).map
      (fun n => (Except.ok (Int.ofNat (s.network.length + n)) : Except Err Int)) ∧
    ∃ added : List Event, (events s args).1.network = s.network ++ added ∧
      added.length = args.length ∧
      ∀ ev ∈ added, ev.probabilities = .table [] ∧ ev.depends = []
  | [], s, _ => ⟨rfl, [], by simp [events], rfl, fun _ h => by cases h⟩
  | arg :: rest, s, h => by
    obtain ⟨counter, id, hstep, -, -⟩ :=
      EVENT_of_not_null s arg (h arg (List.mem_cons_self _ _))
    obtain ⟨ih1, added, ih2, ih3, ih4⟩ := events_of_not_null rest
      ⟨counter, s.network ++ [⟨id, .table [], []⟩]⟩
      (fun a ha => h a (List.mem_cons_of_mem _ ha))
    simp only [events, hstep]
    refine ⟨?_, ⟨id, .table [], []⟩ :: added, ?_, ?_, ?_⟩
    · rw [ih1, List.length_cons, List.range_succ_eq_map, List.map_cons, List.map_map]
      simp only [List.length_append, List.length_singleton, Nat.add_zero, List.cons.injEq,
        true_and]
      apply List.map_congr_left
      intro n _
      simp only [Function.comp]
      congr 2
      omega
    · rw [ih2]; simp
    · simp [ih3]
    · intro ev hev
      rcases List.mem_cons.mp hev with rfl | hev
      · exact ⟨rfl, rfl⟩
      · exact ih4 ev hev

/-- C18, event registry: `EVENT(null)` throws a `TypeError` (the test
`"raw" in id` is evaluated on `null`, whose type is `"object"`) and creates no
event, so in the sequence `EVENT("S"); EVENT(null); EVENT()` call number 1
returns no handle and call number 2 returns the handle 1. -/
theorem EVENT_null_throws :
    EVENT reset .null = (reset, .error .typeError) ∧
    (events reset [.value (.str "S"), .null, .omitted]).2
      = [.ok 0, .error .typeError, .ok 1] ∧
    (events reset [.value (.str "S"), .null, .omitted]).1.network
      = [⟨.str "S", .table [], []⟩, ⟨.num 0, .table [], []⟩] := by
  decide

/-! ## Enumeration of the nuisance variables -/

theorem nuisanceSigns_eq_zipWith (i : Nat) : ∀ (l : List Int) (n : Nat), n + l.length ≤ 32 →
    nuisanceSigns i l n =
      List.zipWith (fun j x => if i.testBit j then x else bnot x) (List.range' n l.length) l
  | [], _, _ => by simp [nuisanceSigns]
  | x :: l, n, hn => by
    simp only [List.length_cons] at hn
    have hmod : n % 32 = n := Nat.mod_eq_of_lt (by omega)
    have ih := nuisanceSigns_eq_zipWith i l (n + 1) (by omega)
    simp only [nuisanceSigns, hmod, List.length_cons, List.range'_succ, List.zipWith_cons_cons,
      ih]
    congr 1
    rw [Nat.testBit_to_div_mod, Nat.and_one_is_mod, Nat.shiftRight_eq_div_pow]
    by_cases hb : i / 2 ^ n % 2 = 0
    · simp [hb]
    · have : i / 2 ^ n % 2 = 1 := by omega
      simp [this]

theorem nuisanceSigns_eq_bitAssignment (i : Nat) (l : List Int) (h : l.length ≤ 32) :
    nuisanceSigns i l 0 = bitAssignment i l := by
  rw [nuisanceSigns_eq_zipWith i l 0 (by omega), bitAssignment, List.range_eq_range']

theorem assignments_nodup : ∀ (l : List Int), (assignments l).Nodup
  | [] => by simp [assignments]
  | h :: l => by
    have ih := assignments_nodup l
    simp only [assignments]
    rw [List.nodup_append]
    refine ⟨ih.map (fun a b hab => List.tail_eq_of_cons_eq hab),
      ih.map (fun a b hab => List.tail_eq_of_cons_eq hab), ?_⟩
    intro s hs1 hs2
    obtain ⟨a, -, ha⟩ := List.mem_map.mp hs1
    obtain ⟨b, -, hb⟩ := List.mem_map.mp hs2
    rw [← hb] at ha
    exact bnot_ne_self h (List.head_eq_of_cons_eq ha).symm

/-- Nuisance enumeration up to 30 free variables: for every prefix and every
list of `m ≤ 30` free variables, `nuisanceIterate` yields exactly `2 ^ m` combinations;
combination number `i` is the prefix followed by the free variables in their
order, the `j`-th as given when bit `j` of `i` is set and complemented when it
is clear; and the combinations are pairwise distinct. -/
theorem nuisanceIterate_enumerates (depends nuisance : List Int)
    (hm : nuisance.length ≤ 30) :
    (nuisanceIterate depends nuisance).length = 2 ^ nuisance.length ∧
    (∀ i, i < 2 ^ nuisance.length →
      (nuisanceIterate depends nuisance)[i]? = some (depends ++ bitAssignment i nuisance)) ∧
    (∀ i, (bitAssignment i nuisance).length = nuisance.length ∧
      ∀ j (hj : j < nuisance.length), (bitAssignment i nuisance)[j]? =
        some (if i.testBit j then nuisance.get ⟨j, hj⟩ else bnot (nuisance.get ⟨j, hj⟩))) ∧
    (nuisanceIterate depends nuisance).Nodup := by
  refine ⟨?_, ?_, ?_, ?_⟩
  · rw [nuisanceIterate, List.length_map, List.length_range, shiftLeftOne_of_le hm]
  · intro i hi
    rw [nuisanceIterate, shiftLeftOne_of_le hm, List.getElem?_map,
      List.getElem?_range hi, Option.map_some',
      nuisanceSigns_eq_bitAssignment i nuisance (by omega)]
  · intro i
    constructor
    · simp [bitAssignment]
    · intro j hj
      simp only [bitAssignment, List.getElem?_zipWith]
      rw [List.getElem?_range hj, List.getElem?_eq_getElem hj]
      rfl
  · rw [(nuisanceIterate_perm depends nuisance hm).nodup_iff]
    exact (assignments_nodup nuisance).map (fun a b hab => List.append_cancel_left hab)

/-- Witness of `nuisanceIterate_enumerates`: prefix `[7]`, free variables
`[0, 1]`. -/
theorem nuisanceIterate_enumerates_witness :
    (nuisanceIterate [7] [0, 1]).length = 2 ^ 2 ∧
    nuisanceIterate [7] [0, 1] = [[7, -1, -2], [7, 0, -2], [7, -1, 1], [7, 0, 1]] ∧
    (nuisanceIterate [7] [0, 1]).Nodup :=
  ⟨(nuisanceIterate_enumerates [7] [0, 1] (by decide)).1, by decide,
    (nuisanceIterate_enumerates [7] [0, 1] (by decide)).2.2.2⟩

/-- C20, evaluation at the failing input: for the 31 free variables
`0, ..., 30` the bound `1 << 31` of the loop is negative and nothing is
produced, where `2^31` combinations are due; for 32 free variables the bound is
`1 << 32 = 1` and one combination is produced. -/
theorem nuisanceIterate_wraps_at_31 :
    (nuisanceIterate [] ((List.range 31).map Int.ofNat)).length = 0 ∧
    (nuisanceIterate [] ((List.range 32).map Int.ofNat)).length = 1 := by
  decide!

/-! ## Returned probabilities -/

theorem lookup_mem : ∀ (cells : List (Int × ℚ)) (i : Int) (q : ℚ),
    cells.lookup i = some q → ∃ c ∈ cells, c.2 = q
  | [], _, _, h => by simp at h
  | (k, b) :: cells, i, q, h => by
    rw [List.lookup_cons] at h
    cases hk : (i == k) with
    | true =>
      rw [hk] at h
      exact ⟨(k, b), List.mem_cons_self _ _, Option.some.inj h⟩
    | false =>
      rw [hk] at h
      obtain ⟨c, hc, hq⟩ := lookup_mem cells i q h
      exact ⟨c, List.mem_cons_of_mem _ hc, hq⟩

theorem readIndexed_unit {d : ProbData} (hd : unitData d = true) {i : Int} {q : ℚ}
    (h : readIndexed d i = some q) : 0 ≤ q ∧ q ≤ 1 := by
  cases d with
  | scalar p => cases h
  | table cells =>
    obtain ⟨c, hc, hq⟩ := lookup_mem cells i q h
    have := List.all_eq_true.mp hd c hc
    rw [← hq]
    exact of_decide_eq_true this

theorem wholeNumber_unit {d : ProbData} (hd : unitData d = true) {q : ℚ}
    (h : wholeNumber d = some q) : 0 ≤ q ∧ q ≤ 1 := by
  cases d with
  | scalar p =>
    have hq : p = q := Option.some.inj h
    rw [← hq]
    exact of_decide_eq_true hd
  | table cells =>
    rw [wholeNumber_table] at h
    split at h
    · exact readIndexed_unit hd h
    · cases h

theorem lookupNumber_unit {net : Network} (hstored : StoredInUnit net) {e : Int}
    {deps : List Int} {p : ℚ} (h : lookupNumber net e deps = .ok p) : 0 ≤ p ∧ p ≤ 1 := by
  cases hev : eventAt net (norm e) with
  | none => rw [lookupNumber_of_unknown net e deps hev] at h; cases h
  | some ev =>
    have hd := hstored ev (eventAt_mem hev)
    cases hr : (if deps.length = 0 then wholeNumber ev.probabilities
        else readIndexed ev.probabilities (probIndex deps)) with
    | none => rw [lookupNumber_of_none net e deps ev hev hr] at h; cases h
    | some q =>
      have hq : 0 ≤ q ∧ q ≤ 1 := by
        split at hr
        · exact wholeNumber_unit hd hr
        · exact readIndexed_unit hd hr
      rw [lookupNumber_of_some net e deps ev q hev hr] at h
      split at h
      · have := Except.ok.inj h
        constructor <;> linarith [hq.1, hq.2]
      · have := Except.ok.inj h
        constructor <;> linarith [hq.1, hq.2]

theorem termFactor_unit {net : Network} (hstored : StoredInUnit net) {terms : List Int}
    {t : Int} {f : ℚ} (h : termFactor net terms t = .ok f) : 0 ≤ f ∧ f ≤ 1 := by
  unfold termFactor at h
  cases hev : eventAt net (norm t) with
  | none => rw [hev] at h; cases h
  | some ev => rw [hev] at h; exact lookupNumber_unit hstored h

theorem termFactor_congr (net : Network) {a b : List Int} (hab : ∀ x, x ∈ a ↔ x ∈ b)
    (t : Int) : termFactor net a t = termFactor net b t := by
  have happly : ∀ depends, applyConditions depends a = applyConditions depends b := by
    intro depends
    unfold applyConditions
    apply List.map_congr_left
    intro d _
    have : a.contains (bnot d) = b.contains (bnot d) := by
      rw [Bool.eq_iff_iff, contains_iff_mem, contains_iff_mem]
      exact hab _
    rw [this]
  unfold termFactor
  cases eventAt net (norm t) with
  | none => rfl
  | some ev => simp only [happly]

theorem jointLoop_ok_iff (net : Network) (events : List Int) :
    ∀ (rest : List Int) (acc q : ℚ),
    jointLoop net events rest acc = .ok q ↔
      (∀ t ∈ rest, ∃ f, termFactor net events t = .ok f) ∧
      q = acc * (rest.map (fun t => (termFactor net events t).toOption.getD 0)).prod := by
  intro rest
  induction rest with
  | nil =>
    intro acc q
    simp only [jointLoop, List.map_nil, List.prod_nil, mul_one, List.not_mem_nil,
      false_implies, implies_true, true_and]
    constructor
    · intro h; exact (Except.ok.inj h).symm
    · intro h; rw [h]
  | cons t rest ih =>
    intro acc q
    rw [jointLoop_cons]
    cases hf : termFactor net events t with
    | error err =>
      constructor
      · intro h; cases h
      · rintro ⟨hall, -⟩
        obtain ⟨f, hf'⟩ := hall t (List.mem_cons_self _ _)
        rw [hf] at hf'; cases hf'
    | ok p =>
      show jointLoop net events rest (acc * p) = .ok q ↔ _
      rw [ih (acc * p) q]
      simp only [List.map_cons, List.prod_cons, hf, List.mem_cons, forall_eq_or_imp]
      constructor
      · rintro ⟨hall, hq⟩
        refine ⟨⟨⟨p, rfl⟩, hall⟩, ?_⟩
        rw [hq]
        simp [Except.toOption, mul_assoc]
      · rintro ⟨⟨-, hall⟩, hq⟩
        refine ⟨hall, ?_⟩
        rw [hq]
        simp [Except.toOption, mul_assoc]

theorem jointProbability_nonneg {net : Network} (hstored : StoredInUnit net)
    {terms : List Int} {q : ℚ} (h : jointProbability net terms = .ok q) : 0 ≤ q := by
  obtain ⟨hall, hq⟩ := (jointLoop_ok_iff net terms terms 1 q).mp h
  rw [hq, one_mul]
  apply List.prod_nonneg
  intro x hx
  obtain ⟨t, ht, rfl⟩ := List.mem_map.mp hx
  obtain ⟨f, hf⟩ := hall t ht
  rw [hf]
  exact (termFactor_unit hstored hf).1

theorem jointProbability_perm_ok (net : Network) {a b : List Int} (hab : a.Perm b) {q : ℚ}
    (h : jointProbability net a = .ok q) : jointProbability net b = .ok q := by
  obtain ⟨hall, hq⟩ := (jointLoop_ok_iff net a a 1 q).mp h
  have hmem : ∀ x, x ∈ a ↔ x ∈ b := fun x => hab.mem_iff
  refine (jointLoop_ok_iff net b b 1 q).mpr ⟨?_, ?_⟩
  · intro t ht
    rw [← termFactor_congr net hmem t]
    exact hall t ((hmem t).mpr ht)
  · rw [hq]
    congr 1
    have hfun : (fun t => (termFactor net b t).toOption.getD 0)
        = (fun t => (termFactor net a t).toOption.getD 0) := by
      funext t
      rw [termFactor_congr net hmem t]
    rw [hfun]
    exact (hab.map _).prod_eq

/-- The value of `jointProbability`, 0 when it throws. -/
theorem jointProbability_perm (net : Network) {a b : List Int} (hab : a.Perm b) :
    (jointProbability net a).toOption.getD 0 = (jointProbability net b).toOption.getD 0 := by
  cases ha : jointProbability net a with
  | ok q => rw [jointProbability_perm_ok net hab ha]
  | error err =>
    cases hb : jointProbability net b with
    | ok q =>
      rw [jointProbability_perm_ok net hab.symm hb] at ha
      cases ha
    | error err2 => rfl

theorem jointProbability_getD_nonneg {net : Network} (hstored : StoredInUnit net)
    (terms : List Int) : 0 ≤ (jointProbability net terms).toOption.getD 0 := by
  cases h : jointProbability net terms with
  | ok q => exact jointProbability_nonneg hstored h
  | error err => exact le_refl _

theorem sumJoint_ok (net : Network) (fixed : List Int) :
    ∀ (L : List (List Int)) (acc s : ℚ), sumJoint net fixed L acc = .ok s →
    s = acc + (L.map (fun c => (jointProbability net (fixed ++ c)).toOption.getD 0)).sum := by
  intro L
  induction L with
  | nil =>
    intro acc s h
    simp only [sumJoint] at h
    simp [← Except.ok.inj h]
  | cons c L ih =>
    intro acc s h
    simp only [sumJoint] at h
    cases hj : jointProbability net (fixed ++ c) with
    | error err => rw [hj] at h; cases h
    | ok p =>
      rw [hj] at h
      have := ih (acc + p) s h
      rw [this]
      simp [hj, Except.toOption, add_assoc]

theorem self_mem_assignments : ∀ (l : List Int), l ∈ assignments l
  | [] => by simp [assignments]
  | h :: l => by
    simp only [assignments, List.mem_append, List.mem_map]
    exact Or.inl ⟨l, self_mem_assignments l, rfl⟩

/-- The assignments of `l₁` followed by `l₂` as given are among the assignments
of `l₁ ++ l₂`, so a sum of non-negative values over the former is at most the
sum over the latter. -/
theorem sum_assignments_le : ∀ (l₁ l₂ : List Int) (g : List Int → ℚ), (∀ x, 0 ≤ g x) →
    ((assignments l₁).map (fun a => g (a ++ l₂))).sum ≤ ((assignments (l₁ ++ l₂)).map g).sum
  | [], l₂, g, hg => by
    simp only [assignments, List.map_cons, List.map_nil, List.sum_cons, List.sum_nil, add_zero,
      List.nil_append]
    apply List.single_le_sum
    · intro x hx
      obtain ⟨c, -, rfl⟩ := List.mem_map.mp hx
      exact hg c
    · exact List.mem_map_of_mem g (self_mem_assignments l₂)
  | h :: l₁, l₂, g, hg => by
    have ih1 := sum_assignments_le l₁ l₂ (fun s => g (h :: s)) (fun x => hg _)
    have ih2 := sum_assignments_le l₁ l₂ (fun s => g (bnot h :: s)) (fun x => hg _)
    simp only [assignments, List.cons_append, List.map_append, List.map_map, List.sum_append,
      Function.comp] at ih1 ih2 ⊢
    exact add_le_add ih1 ih2

theorem nuisanceIterate_of_31 (depends nuisance : List Int) (h : nuisance.length = 31) :
    nuisanceIterate depends nuisance = [] := by
  have : (shiftLeftOne 31).toNat = 0 := by decide
  rw [nuisanceIterate, h, this]
  rfl

theorem divide_finite {n d r : ℚ} (h : divide n d = .finite r) : d ≠ 0 ∧ r = n / d := by
  unfold divide at h
  split at h
  · cases h
  · rename_i hd
    exact ⟨hd, (Num.finite.inj h).symm⟩

/-- Returned numbers up to 31 enumerated variables: for a network whose stored
probabilities all lie in `[0, 1]` and a query whose denominator enumerates at
most 31 variables (the events mentioned neither as target nor as observation,
plus the targets), a finite number returned by `conditionalProbability` lies in
`[0, 1]`. -/
theorem conditionalProbability_in_unit (net : Network) (events dependencies : List Int)
    (r : ℚ) (hstored : StoredInUnit net)
    (hsize : (nuisanceVariables net (events ++ dependencies)).length + events.length ≤ 31)
    (hret : conditionalProbability net events dependencies = .ok (.finite r)) :
    0 ≤ r ∧ r ≤ 1 := by
  cases events with
  | nil => simp only [conditionalProbability] at hret; cases hret
  | cons first rest =>
    cases hpm : perfectMatch net first dependencies with
    | error err => simp only [conditionalProbability, hpm] at hret; cases hret
    | ok matched =>
      cases matched with
      | true =>
        cases hp : getProbability net first dependencies with
        | error err => simp only [conditionalProbability, hpm, hp] at hret; cases hret
        | ok x =>
          simp only [conditionalProbability, hpm, hp] at hret
          cases x with
          | number q =>
            have hr : q = r := Num.finite.inj (Except.ok.inj hret)
            rw [← hr]
            exact lookupNumber_unit hstored (by rw [lookupNumber, hp]; rfl)
          | array v =>
            have := Except.ok.inj hret
            cases this
      | false =>
        cases hN : sumJoint net (first :: rest) (nuisanceIterate dependencies
            (nuisanceVariables net (first :: rest ++ dependencies))) 0 with
        | error err => simp only [conditionalProbability, hpm, hN] at hret; cases hret
        | ok N =>
          cases hD : sumJoint net [] (nuisanceIterate dependencies
              (nuisanceVariables net (first :: rest ++ dependencies) ++ first :: rest)) 0 with
          | error err => simp only [conditionalProbability, hpm, hN, hD] at hret; cases hret
          | ok D =>
            simp only [conditionalProbability, hpm, hN, hD] at hret
            obtain ⟨hD0, hr⟩ := divide_finite (Except.ok.inj hret)
            have hN' := sumJoint_ok net _ _ 0 N hN
            have hD' := sumJoint_ok net _ _ 0 D hD
            rw [zero_add] at hN' hD'
            have hlen2 : (nuisanceVariables net (first :: rest ++ dependencies)
                ++ first :: rest).length ≤ 31 := by
              rw [List.length_append]; exact hsize
            by_cases h31 : (nuisanceVariables net (first :: rest ++ dependencies)
                ++ first :: rest).length = 31
            · rw [nuisanceIterate_of_31 _ _ h31] at hD'
              exact absurd hD' hD0
            · have hlen2' : (nuisanceVariables net (first :: rest ++ dependencies)
                  ++ first :: rest).length ≤ 30 := by omega
              have hlen1 : (nuisanceVariables net (first :: rest ++ dependencies)).length
                  ≤ 30 := by
                rw [List.length_append] at hlen2'; omega
              have hpermN := ((nuisanceIterate_perm dependencies _ hlen1).map
                (fun c => (jointProbability net ((first :: rest) ++ c)).toOption.getD 0)).sum_eq
              have hpermD := ((nuisanceIterate_perm dependencies _ hlen2').map
                (fun c => (jointProbability net ([] ++ c)).toOption.getD 0)).sum_eq
              rw [hpermN, List.map_map] at hN'
              rw [hpermD, List.map_map] at hD'
              have hle := sum_assignments_le
                (nuisanceVariables net (first :: rest ++ dependencies)) (first :: rest)
                (fun b => (jointProbability net (dependencies ++ b)).toOption.getD 0)
                (fun x => jointProbability_getD_nonneg hstored _)
              have hNeq : N = ((assignments
                  (nuisanceVariables net (first :: rest ++ dependencies))).map
                  (fun a => (jointProbability net
                    (dependencies ++ (a ++ first :: rest))).toOption.getD 0)).sum := by
                rw [hN']
                congr 1
                apply List.map_congr_left
                intro a _
                simp only [Function.comp]
                apply jointProbability_perm
                have h1 : ((first :: rest) ++ (dependencies ++ a)).Perm
                    ((dependencies ++ a) ++ (first :: rest)) := List.perm_append_comm
                rw [List.append_assoc] at h1
                exact h1
              have hDeq : D = ((assignments
                  (nuisanceVariables net (first :: rest ++ dependencies)
                    ++ first :: rest)).map
                  (fun b => (jointProbability net (dependencies ++ b)).toOption.getD 0)).sum := by
                rw [hD']
                congr 1
              have hND : N ≤ D := by rw [hNeq, hDeq]; exact hle
              have hN0 : 0 ≤ N := by
                rw [hNeq]
                apply List.sum_nonneg
                intro x hx
                obtain ⟨c, -, rfl⟩ := List.mem_map.mp hx
                exact jointProbability_getD_nonneg hstored _
              have hDpos : 0 < D := lt_of_le_of_ne (le_trans hN0 hND) (Ne.symm hD0)
              rw [hr]
              exact ⟨div_nonneg hN0 (le_of_lt hDpos), (div_le_one hDpos).mpr hND⟩

/-- The number returned for `P(A | ~D)` in the test network lies in `[0, 1]`. -/
theorem conditionalProbability_in_unit_on_testNetwork :
    StoredInUnit testNetwork ∧
    conditionalProbability testNetwork [0] [-4] = .ok (.finite (39/340)) ∧
    (0 : ℚ) ≤ 39/340 ∧ (39/340 : ℚ) ≤ 1 :=
  ⟨by decide!, by decide!,
    conditionalProbability_in_unit testNetwork [0] [-4] (39/340) (by decide!) (by decide)
      (by decide!)⟩

/-- C19, evaluation at the failing input: in a network of 33 events with stored
probabilities 1/10, 1/2 and 9/10, whose last event depends on the first, the
query for the last event completes, its denominator is not zero, and the number
returned is 9/2. -/
theorem conditionalProbability_exceeds_one :
    StoredInUnit overflowNetwork ∧
    conditionalProbability overflowNetwork [32] [] = .ok (.finite (9/2)) ∧
    ¬ ((9/2 : ℚ) ≤ 1) := by
  decide!

/-! ## Dependencies that are not among the terms -/

theorem applyConditions_eq_resolved (depends terms : List Int) :
    applyConditions depends terms = resolved depends terms := by
  unfold applyConditions resolved
  apply List.map_congr_left
  intro d _
  by_cases h : bnot d ∈ terms
  · rw [if_pos h, if_pos (contains_iff_mem.mpr h)]
  · rw [if_neg h, if_neg (fun hc => h (contains_iff_mem.mp hc))]

theorem mem_resolved_pos {D terms : List Int} (hD : ∀ d ∈ D, 0 ≤ d) {d : Int} (hd : 0 ≤ d) :
    d ∈ resolved D terms ↔ d ∈ D ∧ bnot d ∉ terms := by
  unfold resolved
  rw [List.mem_map]
  constructor
  · rintro ⟨x, hx, he⟩
    by_cases h : bnot x ∈ terms
    · rw [if_pos h] at he
      have := bnot_neg_of_nonneg (hD x hx)
      omega
    · rw [if_neg h] at he
      subst he
      exact ⟨hx, h⟩
  · rintro ⟨h1, h2⟩
    exact ⟨d, h1, by rw [if_neg h2]⟩

theorem mem_resolved_neg {D terms : List Int} (hD : ∀ d ∈ D, 0 ≤ d) {d : Int} (hd : 0 ≤ d) :
    bnot d ∈ resolved D terms ↔ d ∈ D ∧ bnot d ∈ terms := by
  unfold resolved
  rw [List.mem_map]
  constructor
  · rintro ⟨x, hx, he⟩
    by_cases h : bnot x ∈ terms
    · rw [if_pos h] at he
      have hxd : x = d := by unfold bnot at he; omega
      subst hxd
      exact ⟨hx, h⟩
    · rw [if_neg h] at he
      have := bnot_neg_of_nonneg hd
      have := hD x hx
      omega
  · rintro ⟨h1, h2⟩
    exact ⟨d, h1, by rw [if_pos h2]⟩

theorem jointProbability_ok_of_full (net : Network) (hfull : FullyAssigned net)
    (terms : List Int) (hvalid : ∀ t ∈ terms, norm t < net.length) :
    jointProbability net terms = .ok (jointValue net terms) :=
  jointProbability_of_full net hfull terms hvalid

/-- C21, unresolved dependencies default to true: `jointProbability` looks every
term up under the combination in which a dependency of its event is false when
the negated dependency is among the terms and true otherwise, whether or not
the dependency is among the terms.  So a dependency that appears in neither
polarity is taken as true, and one that appears in both polarities as false.
No check is made: in a fully assigned network the call returns a number for
every list of terms over events of the network; and for an event `e` with the
single parent `d`, `jointProbability` of the single term `e` returns the entry
stored for `d` true. -/
theorem jointProbability_defaults_to_true (net : Network) (terms : List Int) :
    (∀ t ev, eventAt net (norm t) = some ev →
      termFactor net terms t
        = (getProbability net t (resolved ev.depends terms)).map Value.toNumber) ∧
    (∀ (D : List Int) (d : Int), (∀ x ∈ D, 0 ≤ x) → d ∈ D →
      (d ∉ terms → bnot d ∉ terms → d ∈ resolved D terms ∧ bnot d ∉ resolved D terms) ∧
      (d ∈ terms → bnot d ∈ terms → bnot d ∈ resolved D terms ∧ d ∉ resolved D terms)) ∧
    (FullyAssigned net → (∀ t ∈ terms, norm t < net.length) →
      jointProbability net terms = .ok (jointValue net terms)) ∧
    (∀ (e d : Int) (ev : Event) (p : ℚ), eventAt net e = some ev → ev.depends = [d] → 0 ≤ d →
      readIndexed ev.probabilities (probIndex [d]) = some p →
      jointProbability net [e] = .ok p) := by
  refine ⟨?_, ?_, ?_, ?_⟩
  · intro t ev hev
    simp only [termFactor, hev, applyConditions_eq_resolved, lookupNumber]
  · intro D d hD hd
    have hd0 := hD d hd
    constructor
    · intro _ hn
      exact ⟨(mem_resolved_pos hD hd0).mpr ⟨hd, hn⟩,
        fun h => hn ((mem_resolved_neg hD hd0).mp h).2⟩
    · intro _ hn
      exact ⟨(mem_resolved_neg hD hd0).mpr ⟨hd, hn⟩,
        fun h => ((mem_resolved_pos hD hd0).mp h).2 hn⟩
  · intro hfull hvalid
    exact jointProbability_ok_of_full net hfull terms hvalid
  · intro e d ev p hev hdep hd hp
    have he := eventAt_nonneg hev
    have hev' : eventAt net (norm e) = some ev := by rw [norm_of_nonneg he]; exact hev
    have hne : bnot d ≠ e := by
      have := bnot_neg_of_nonneg hd
      omega
    have happly : applyConditions ev.depends [e] = [d] := by
      rw [applyConditions_eq_resolved, hdep]
      simp [resolved, hne]
    have hfactor : termFactor net [e] e = .ok p := by
      simp only [termFactor, hev', happly]
      rw [lookupNumber_of_some net e [d] ev p hev' (by simpa using hp)]
      simp [not_lt.mpr he]
    rw [jointProbability, jointLoop_cons, hfactor]
    simp [jointLoop]

/-- Witness of `jointProbability_defaults_to_true`: in the test network
`jointProbability(C)` is the entry `P(C | A) = 0.8`, and with both `A` and `~A`
among the terms `C` is looked up under `A` false. -/
theorem jointProbability_defaults_to_true_witness :
    jointProbability testNetwork [2] = .ok (8/10) ∧
    resolved [0] [0, bnot 0, 2] = [bnot 0] ∧
    jointProbability testNetwork [0, bnot 0, 2] = .ok (3/10 * (7/10) * (4/10)) :=
  ⟨(jointProbability_defaults_to_true testNetwork [2]).2.2.2 2 0
      ⟨.str "C", .table [(0, 4/10), (1, 8/10)], [0]⟩ (8/10) rfl rfl (by decide) (by decide!),
    by decide, by decide!⟩

/-! ## Summing out the events above a fixed one -/

/-- Summing out an event `a` on whose polarity nothing else depends and whose
two factors add up to 1. -/
theorem sum_out_event (a : Int) (s : Finset Int) (ha : a ∉ s) (W : Finset Int → ℚ)
    (G : Int → Finset Int → ℚ) (hW : ∀ T, W (insert a T) = W T)
    (hG : ∀ v ∈ s, ∀ T, G v (insert a T) = G v T)
    (hone : ∀ T, a ∉ T → G a T + G a (insert a T) = 1) :
    ∑ T in (insert a s).powerset, W T * ∏ v in insert a s, G v T
      = ∑ T in s.powerset, W T * ∏ v in s, G v T := by
  rw [Finset.sum_powerset_insert ha, ← Finset.sum_add_distrib]
  apply Finset.sum_congr rfl
  intro T hT
  have haT : a ∉ T := fun h => ha (Finset.mem_powerset.mp hT h)
  rw [Finset.prod_insert ha, Finset.prod_insert ha, hW T]
  have hrest : ∏ v in s, G v (insert a T) = ∏ v in s, G v T :=
    Finset.prod_congr rfl (fun v hv => hG v hv T)
  rw [hrest]
  have h1 := hone T haT
  calc W T * (G a T * ∏ v in s, G v T) + W T * (G a (insert a T) * ∏ v in s, G v T)
      = (G a T + G a (insert a T)) * (W T * ∏ v in s, G v T) := by ring
    _ = W T * ∏ v in s, G v T := by rw [h1, one_mul]

/-- The weighted sum over the polarities of the events of `S` does not depend on
the polarity of an event `e` outside `S`, when a factor depends only on events
of lower rank, the weight only on events of rank below that of `e`, and the two
factors of an event above `e` add up to 1. -/
theorem sum_free_of_event (rank : Int → Nat) (e : Int) (W : Finset Int → ℚ)
    (G : Int → Finset Int → ℚ)
    (hG : ∀ u w T, rank u ≤ rank w → u ≠ w → G u (insert w T) = G u T)
    (hone : ∀ a T, rank e < rank a → a ∉ T → G a T + G a (insert a T) = 1)
    (hW : ∀ w T, rank e ≤ rank w → W (insert w T) = W T) (S : Finset Int) :
    e ∉ S →
    ∑ T in S.powerset, W (insert e T) * ∏ v in S, G v (insert e T)
      = ∑ T in S.powerset, W T * ∏ v in S, G v T := by
  induction S using Finset.induction_on_max_value rank with
  | h0 =>
    intro _
    have h0 := hW e ∅ (le_refl _)
    simp only [Finset.powerset_empty, Finset.sum_singleton, Finset.prod_empty, mul_one]
    exact h0
  | step a s ha hmax ih =>
    intro he
    have hea : e ≠ a := fun h => he (h ▸ Finset.mem_insert_self a s)
    have hes : e ∉ s := fun h => he (Finset.mem_insert_of_mem h)
    by_cases hr : rank e < rank a
    · have hsa : ∀ v ∈ s, v ≠ a := fun v hv h => ha (h ▸ hv)
      rw [sum_out_event a s ha W G (fun T => hW a T (le_of_lt hr))
        (fun v hv T => hG v a T (hmax v hv) (hsa v hv)) (fun T hT => hone a T hr hT),
        ← ih hes]
      exact sum_out_event a s ha (fun T => W (insert e T)) (fun v T => G v (insert e T))
        (fun T => by
          show W (insert e (insert a T)) = W (insert e T)
          rw [Finset.Insert.comm, hW a _ (le_of_lt hr)])
        (fun v hv T => by
          show G v (insert e (insert a T)) = G v (insert e T)
          rw [Finset.Insert.comm, hG v a _ (hmax v hv) (hsa v hv)])
        (fun T hT => by
          show G a (insert e T) + G a (insert e (insert a T)) = 1
          rw [Finset.Insert.comm]
          apply hone a _ hr
          intro hm
          rcases Finset.mem_insert.mp hm with h | h
          · exact hea h.symm
          · exact hT h)
    · have hle : rank a ≤ rank e := not_lt.mp hr
      apply Finset.sum_congr rfl
      intro T _
      rw [hW e T (le_refl _)]
      congr 1
      apply Finset.prod_congr rfl
      intro v hv
      have hve : v ≠ e := fun h => he (h ▸ hv)
      have hrv : rank v ≤ rank e := by
        rcases Finset.mem_insert.mp hv with h | h
        · rw [h]; exact hle
        · exact le_trans (hmax v h) hle
      exact hG v e T hrv hve

/-! ## The value of a term list -/

theorem entryUnder_congr (net : Network) (v : Int) (a b : List Int)
    (h : ∀ ev, eventAt net v = some ev → ∀ d ∈ ev.depends, (bnot d ∈ a ↔ bnot d ∈ b)) :
    entryUnder net a v = entryUnder net b v := by
  unfold entryUnder
  cases hev : eventAt net v with
  | none => rfl
  | some ev =>
    have happly : applyConditions ev.depends a = applyConditions ev.depends b := by
      rw [applyConditions_eq_resolved, applyConditions_eq_resolved]
      unfold resolved
      apply List.map_congr_left
      intro d hd
      have := h ev hev d hd
      by_cases hb : bnot d ∈ b
      · rw [if_pos hb, if_pos (this.mpr hb)]
      · rw [if_neg hb, if_neg (fun ha => hb (this.mp ha))]
    simp only [happly]

theorem jointValue_perm (net : Network) {a b : List Int} (h : a.Perm b) :
    jointValue net a = jointValue net b := by
  unfold jointValue
  have hfun : (fun t => if t < 0 then 1 - entryUnder net a (norm t)
      else entryUnder net a (norm t))
      = (fun t => if t < 0 then 1 - entryUnder net b (norm t)
      else entryUnder net b (norm t)) := by
    funext t
    rw [entryUnder_congr net (norm t) a b (fun _ _ d _ => h.mem_iff)]
  rw [hfun]
  exact (h.map _).prod_eq

/-- An unconditional event among the terms contributes its stored number as a
factor, each time it is listed, and changes no other factor. -/
theorem jointValue_cons_unconditional (net : Network)
    (hdeps : ∀ (v : Int) (ev : Event), eventAt net v = some ev → ∀ d ∈ ev.depends, 0 ≤ d)
    (a : Int) (ev : Event) (p : ℚ) (hev : eventAt net a = some ev) (hdep : ev.depends = [])
    (hp : wholeNumber ev.probabilities = some p) (terms : List Int) :
    jointValue net (a :: terms) = p * jointValue net terms := by
  have ha := eventAt_nonneg hev
  unfold jointValue
  rw [List.map_cons, List.prod_cons]
  congr 1
  · rw [if_neg (not_lt.mpr ha), norm_of_nonneg ha]
    simp [entryUnder, hev, hdep, applyConditions, hp]
  · congr 1
    apply List.map_congr_left
    intro t _
    rw [entryUnder_congr net (norm t) (a :: terms) terms]
    intro ev' hev' d hd
    have hd0 := hdeps _ ev' hev' d hd
    have hne : bnot d ≠ a := by
      have := bnot_neg_of_nonneg hd0
      omega
    simp [hne]

/-- In the term list made of `e` or `~e`, the events of `D` and the events of
`Nu` signed by the set `T` of those taken true, a handle appears negated exactly
when it is `e` or an event of `Nu` and is not in `T`. -/
theorem bnot_mem_termsOf (e : Int) (D Nu : List Int) (he : 0 ≤ e) (hD : ∀ d ∈ D, 0 ≤ d)
    (hNu : ∀ v ∈ Nu, 0 ≤ v) (T : Finset Int) (d : Int) (hd : 0 ≤ d) :
    bnot d ∈ (if e ∈ T then e else bnot e) ::
        (D ++ Nu.map (fun v => if v ∈ T then v else bnot v))
      ↔ (d = e ∧ e ∉ T) ∨ (d ∈ Nu ∧ d ∉ T) := by
  have hneg := bnot_neg_of_nonneg hd
  rw [List.mem_cons, List.mem_append, bnot_mem_signed_list Nu hNu T d hd]
  constructor
  · rintro (h | h | h)
    · by_cases heT : e ∈ T
      · rw [if_pos heT] at h; omega
      · rw [if_neg heT] at h
        left
        exact ⟨by unfold bnot at h; omega, heT⟩
    · have := hD _ h; omega
    · exact Or.inr h
  · rintro (⟨h1, h2⟩ | h)
    · left; rw [if_neg h2, h1]
    · exact Or.inr (Or.inr h)

theorem entryUnder_termsOf_insert (net : Network) (rank : Int → Nat)
    (hrank : ∀ (v : Int) (ev : Event), eventAt net v = some ev →
      ∀ d ∈ ev.depends, 0 ≤ d ∧ rank d < rank v)
    (e : Int) (D Nu : List Int) (he : 0 ≤ e) (hD : ∀ d ∈ D, 0 ≤ d) (hNu : ∀ v ∈ Nu, 0 ≤ v)
    (u w : Int) (T : Finset Int) (huw : rank u ≤ rank w) :
    entryUnder net ((if e ∈ insert w T then e else bnot e) ::
        (D ++ Nu.map (fun v => if v ∈ insert w T then v else bnot v))) u
      = entryUnder net ((if e ∈ T then e else bnot e) ::
        (D ++ Nu.map (fun v => if v ∈ T then v else bnot v))) u := by
  apply entryUnder_congr
  intro ev hev d hd
  obtain ⟨hd0, hdr⟩ := hrank u ev hev d hd
  have hdw : d ≠ w := by rintro rfl; omega
  rw [bnot_mem_termsOf e D Nu he hD hNu _ d hd0, bnot_mem_termsOf e D Nu he hD hNu _ d hd0]
  constructor
  · rintro (⟨h1, h2⟩ | ⟨h1, h2⟩)
    · exact Or.inl ⟨h1, fun h => h2 (Finset.mem_insert_of_mem h)⟩
    · exact Or.inr ⟨h1, fun h => h2 (Finset.mem_insert_of_mem h)⟩
  · rintro (⟨h1, h2⟩ | ⟨h1, h2⟩)
    · refine Or.inl ⟨h1, fun h => ?_⟩
      rcases Finset.mem_insert.mp h with h | h
      · exact hdw (h1.trans h)
      · exact h2 h
    · refine Or.inr ⟨h1, fun h => ?_⟩
      rcases Finset.mem_insert.mp h with h | h
      · exact hdw h
      · exact h2 h

/-- The value of the term list made of `e` or `~e`, the events of `D` and the
events of `Nu` signed by `T`, as a product of the factor of `e`, the factors of
`D` and the factors of `Nu`. -/
theorem jointValue_termsOf (net : Network) (e : Int) (D Nu : List Int) (he : 0 ≤ e)
    (hD : ∀ d ∈ D, 0 ≤ d) (hNu : ∀ v ∈ Nu, 0 ≤ v) (hnd : Nu.Nodup) (T : Finset Int) :
    jointValue net ((if e ∈ T then e else bnot e) ::
        (D ++ Nu.map (fun v => if v ∈ T then v else bnot v)))
      = (if e ∈ T then
          entryUnder net ((if e ∈ T then e else bnot e) ::
            (D ++ Nu.map (fun v => if v ∈ T then v else bnot v))) e
        else 1 - entryUnder net ((if e ∈ T then e else bnot e) ::
            (D ++ Nu.map (fun v => if v ∈ T then v else bnot v))) e) *
        ((D.map (fun d => entryUnder net ((if e ∈ T then e else bnot e) ::
            (D ++ Nu.map (fun v => if v ∈ T then v else bnot v))) d)).prod *
          ∏ v in Nu.toFinset, (if v ∈ T then
            entryUnder net ((if e ∈ T then e else bnot e) ::
              (D ++ Nu.map (fun v => if v ∈ T then v else bnot v))) v
          else 1 - entryUnder net ((if e ∈ T then e else bnot e) ::
              (D ++ Nu.map (fun v => if v ∈ T then v else bnot v))) v)) := by
  generalize hterms : ((if e ∈ T then e else bnot e) ::
    (D ++ Nu.map (fun v => if v ∈ T then v else bnot v))) = terms
  have hneg := bnot_neg_of_nonneg he
  rw [← hterms]
  unfold jointValue
  rw [List.map_cons, List.prod_cons, List.map_append, List.prod_append, hterms]
  congr 1
  · by_cases heT : e ∈ T
    · simp only [if_pos heT, not_lt.mpr he, if_false, norm_of_nonneg he]
    · simp only [if_neg heT, hneg, if_true, norm_bnot_of_nonneg he]
  · congr 1
    · congr 1
      apply List.map_congr_left
      intro d hd
      have hd0 := hD d hd
      simp only [not_lt.mpr hd0, if_false, norm_of_nonneg hd0]
    · rw [List.prod_toFinset _ hnd, List.map_map]
      congr 1
      apply List.map_congr_left
      intro v hv
      have hv0 := hNu v hv
      by_cases hvT : v ∈ T
      · simp only [Function.comp, if_pos hvT, not_lt.mpr hv0, if_false, norm_of_nonneg hv0]
      · simp only [Function.comp, if_neg hvT, bnot_neg_of_nonneg hv0, if_true,
          norm_bnot_of_nonneg hv0]

theorem map_sign_insert (Nu : List Int) (e : Int) (heNu : e ∉ Nu) (T : Finset Int) :
    Nu.map (fun v => if v ∈ insert e T then v else bnot v)
      = Nu.map (fun v => if v ∈ T then v else bnot v) := by
  apply List.map_congr_left
  intro v hv
  have hve : v ≠ e := fun h => heNu (h ▸ hv)
  simp [Finset.mem_insert, hve]

/-- The two sums of an event `e` over the polarities of a list `Nu` of other
events, the dependencies of `e` being asserted true: with `e` true the sum is
`c * X` and with `e` false `(1 - c) * X`, where `c` is the entry of `e` for all
its dependencies true. -/
theorem sums_with_event_fixed (net : Network) (rank : Int → Nat)
    (hrank : ∀ (v : Int) (ev : Event), eventAt net v = some ev →
      ∀ d ∈ ev.depends, 0 ≤ d ∧ rank d < rank v)
    (e : Int) (ev : Event) (hev : eventAt net e = some ev) (c : ℚ)
    (hc : (if ev.depends.length = 0 then wholeNumber ev.probabilities
      else readIndexed ev.probabilities (probIndex ev.depends)) = some c)
    (Nu : List Int) (hnd : Nu.Nodup) (hNu : ∀ v ∈ Nu, 0 ≤ v) (heNu : e ∉ Nu)
    (hDNu : ∀ d ∈ ev.depends, d ∉ Nu) :
    ∃ X : ℚ,
      ∑ T in Nu.toFinset.powerset,
        jointValue net (e :: (ev.depends ++ Nu.map (fun v => if v ∈ T then v else bnot v)))
        = c * X ∧
      ∑ T in Nu.toFinset.powerset,
        jointValue net (bnot e :: (ev.depends ++ Nu.map (fun v => if v ∈ T then v else bnot v)))
        = (1 - c) * X := by
  have he := eventAt_nonneg hev
  have hD : ∀ d ∈ ev.depends, 0 ≤ d := fun d hd => (hrank e ev hev d hd).1
  have heS : e ∉ Nu.toFinset := fun h => heNu (List.mem_toFinset.mp h)
  -- the entry of `e` is the same under every term list of this shape
  have hconst : ∀ T : Finset Int, entryUnder net ((if e ∈ T then e else bnot e) ::
      (ev.depends ++ Nu.map (fun v => if v ∈ T then v else bnot v))) e = c := by
    intro T
    have happly : applyConditions ev.depends ((if e ∈ T then e else bnot e) ::
        (ev.depends ++ Nu.map (fun v => if v ∈ T then v else bnot v))) = ev.depends := by
      rw [applyConditions_eq_resolved]
      unfold resolved
      conv_rhs => rw [← List.map_id ev.depends]
      apply List.map_congr_left
      intro d hd
      obtain ⟨hd0, hdr⟩ := hrank e ev hev d hd
      rw [if_neg, id]
      rw [bnot_mem_termsOf e ev.depends Nu he hD hNu T d hd0]
      rintro (⟨h1, -⟩ | ⟨h1, -⟩)
      · rw [h1] at hdr; omega
      · exact hDNu d hd h1
    simp only [entryUnder, hev, happly, hc, Option.getD_some]
  have hp := fun (u w : Int) (T : Finset Int) (huw : rank u ≤ rank w) =>
    entryUnder_termsOf_insert net rank hrank e ev.depends Nu he hD hNu u w T huw
  have hfree := sum_free_of_event rank e
    (fun T => (ev.depends.map (fun d => entryUnder net ((if e ∈ T then e else bnot e) ::
      (ev.depends ++ Nu.map (fun v => if v ∈ T then v else bnot v))) d)).prod)
    (fun v T => if v ∈ T then
        entryUnder net ((if e ∈ T then e else bnot e) ::
          (ev.depends ++ Nu.map (fun v => if v ∈ T then v else bnot v))) v
      else 1 - entryUnder net ((if e ∈ T then e else bnot e) ::
          (ev.depends ++ Nu.map (fun v => if v ∈ T then v else bnot v))) v)
    (by
      intro u w T huw hne
      show (if u ∈ insert w T then _ else _) = (if u ∈ T then _ else _)
      rw [hp u w T huw]
      by_cases huT : u ∈ T
      · rw [if_pos huT, if_pos (Finset.mem_insert_of_mem huT)]
      · have : u ∉ insert w T := by
          intro h
          rcases Finset.mem_insert.mp h with h | h
          · exact hne h
          · exact huT h
        rw [if_neg huT, if_neg this])
    (by
      intro a T _ haT
      show (if a ∈ T then _ else _) + (if a ∈ insert a T then _ else _) = (1 : ℚ)
      rw [if_neg haT, if_pos (Finset.mem_insert_self a T), hp a a T (le_refl _)]
      ring)
    (by
      intro w T hew
      show (List.map _ _).prod = (List.map _ _).prod
      congr 1
      apply List.map_congr_left
      intro d hd
      have hdr := (hrank e ev hev d hd).2
      exact hp d w T (by omega))
    Nu.toFinset heS
  beta_reduce at hfree
  obtain ⟨X, hX1, hX2⟩ : ∃ X, _ = X ∧ _ = X := ⟨_, hfree, rfl⟩
  refine ⟨X, ?_, ?_⟩
  · rw [← hX1, Finset.mul_sum]
    apply Finset.sum_congr rfl
    intro T hT
    have heT : e ∉ T := fun h => heS (Finset.mem_powerset.mp hT h)
    have hjoint := jointValue_termsOf net e ev.depends Nu he hD hNu hnd (insert e T)
    rw [hconst (insert e T)] at hjoint
    simp only [Finset.mem_insert_self, if_true] at hjoint
    rw [map_sign_insert Nu e heNu T] at hjoint
    rw [hjoint]
    simp only [Finset.mem_insert_self, if_true, map_sign_insert Nu e heNu T]
  · rw [← hX2, Finset.mul_sum]
    apply Finset.sum_congr rfl
    intro T hT
    have heT : e ∉ T := fun h => heS (Finset.mem_powerset.mp hT h)
    have hjoint := jointValue_termsOf net e ev.depends Nu he hD hNu hnd T
    rw [hconst T] at hjoint
    simp only [if_neg heT] at hjoint
    rw [hjoint]
    simp only [if_neg heT]

/-! ## The enumeration path as sums over sets of events -/

theorem conditionalProbability_eq_enumeration (net : Network) (first : Int)
    (rest dependencies : List Int) (hpm : perfectMatch net first dependencies = .ok false) :
    conditionalProbability net (first :: rest) dependencies
      = enumeration net (first :: rest) dependencies := by
  cases hN : sumJoint net (first :: rest) (nuisanceIterate dependencies
      (nuisanceVariables net (first :: rest ++ dependencies))) 0 with
  | error err => simp only [conditionalProbability, enumeration, hpm, hN]
  | ok N =>
    cases hD : sumJoint net [] (nuisanceIterate dependencies
        (nuisanceVariables net (first :: rest ++ dependencies) ++ first :: rest)) 0 with
    | error err => simp only [conditionalProbability, enumeration, hpm, hN, hD]
    | ok D => simp only [conditionalProbability, enumeration, hpm, hN, hD]

theorem sumOfJoint_map_assignments (net : Network) (hfull : FullyAssigned net)
    (l : List Int) (hnd : l.Nodup) (h : List Int → List Int)
    (hvalid : ∀ s ∈ assignments l, ∀ t ∈ h s, norm t < net.length) :
    sumOfJoint net ((assignments l).map h)
      = some (∑ T in l.toFinset.powerset,
          jointValue net (h (l.map (fun v => if v ∈ T then v else bnot v)))) := by
  rw [sumOfJoint_of_values net (jointValue net) _ (by
      intro c hc
      obtain ⟨s, hs, rfl⟩ := List.mem_map.mp hc
      exact jointProbability_ok_of_full net hfull _ (hvalid s hs)),
    List.map_map, sum_assignments l _ hnd]
  rfl

theorem sumOfJoint_ok_of_mem (net : Network) : ∀ (L : List (List Int)) (s : ℚ),
    sumOfJoint net L = some s → ∀ c ∈ L, ∃ q, jointProbability net c = .ok q
  | [], _, _, c, hc => by cases hc
  | x :: L, s, h, c, hc => by
    rw [sumOfJoint] at h
    cases hj : jointProbability net x with
    | error err => rw [hj] at h; cases h
    | ok p =>
      rw [hj] at h
      rcases List.mem_cons.mp hc with rfl | hc'
      · exact ⟨p, hj⟩
      · cases hs : sumOfJoint net L with
        | none => rw [hs] at h; cases h
        | some s' => exact sumOfJoint_ok_of_mem net L s' hs c hc'

theorem valid_of_jointProbability_ok (net : Network) (terms : List Int) (q : ℚ)
    (h : jointProbability net terms = .ok q) : ∀ t ∈ terms, norm t < net.length := by
  intro t ht
  obtain ⟨hall, -⟩ := (jointLoop_ok_iff net terms terms 1 q).mp h
  obtain ⟨f, hf⟩ := hall t ht
  unfold termFactor at hf
  cases hev : eventAt net (norm t) with
  | none => rw [hev] at hf; cases hf
  | some ev => exact (eventAt_isSome_iff.mp ⟨ev, hev⟩).2

/-- The two loops of the enumeration path, for lists of at most 30 free
variables, as sums over all assignments. -/
theorem enumeration_of_sums (net : Network) (targets observations : List Int) (N D : ℚ)
    (hlen : (nuisanceVariables net (targets ++ observations) ++ targets).length ≤ 30)
    (hN : sumOfJoint net
      ((assignments (nuisanceVariables net (targets ++ observations))).map
        (fun s => targets ++ (observations ++ s))) = some N)
    (hD : sumOfJoint net
      ((assignments (nuisanceVariables net (targets ++ observations) ++ targets)).map
        (fun t => observations ++ t)) = some D) :
    sumJoint net targets
      (nuisanceIterate observations (nuisanceVariables net (targets ++ observations))) 0
      = .ok N ∧
    sumJoint net []
      (nuisanceIterate observations
        (nuisanceVariables net (targets ++ observations) ++ targets)) 0 = .ok D ∧
    enumeration net targets observations = .ok (divide N D) := by
  have hlen1 : (nuisanceVariables net (targets ++ observations)).length ≤ 30 := by
    rw [List.length_append] at hlen; omega
  have hnum : sumJoint net targets
      (nuisanceIterate observations (nuisanceVariables net (targets ++ observations))) 0
      = .ok N := by
    have hperm := (nuisanceIterate_perm observations _ hlen1).map (fun c => targets ++ c)
    rw [List.map_map] at hperm
    have := sumJoint_of_sum net targets _ 0 N (by
      rw [sumOfJoint_perm net hperm, ← hN]
      rfl)
    simpa using this
  have hden : sumJoint net []
      (nuisanceIterate observations
        (nuisanceVariables net (targets ++ observations) ++ targets)) 0 = .ok D := by
    have hperm := (nuisanceIterate_perm observations _ hlen).map (fun c => ([] : List Int) ++ c)
    rw [List.map_map] at hperm
    have := sumJoint_of_sum net [] _ 0 D (by
      rw [sumOfJoint_perm net hperm, ← hD]
      rfl)
    simpa using this
  refine ⟨hnum, hden, ?_⟩
  simp only [enumeration, hnum, hden]

theorem nuisance_with_event_length (net : Network) (events : List Int) (e : Int)
    (he : 0 ≤ e ∧ e < net.length) (hmem : ∃ t ∈ events, norm t = e) :
    (nuisanceVariables net events ++ [e]).length ≤ net.length := by
  have hnd : (nuisanceVariables net events ++ [e]).Nodup := by
    rw [List.nodup_append]
    refine ⟨nuisanceVariables_nodup _ _, List.nodup_singleton e, ?_⟩
    intro x hx hy
    rw [List.mem_singleton] at hy
    subst hy
    obtain ⟨t, ht, hte⟩ := hmem
    exact (mem_nuisanceVariables.mp hx).2 t ht hte
  have hsub : nuisanceVariables net events ++ [e] ⊆ handles net := by
    intro x hx
    rcases List.mem_append.mp hx with h | h
    · exact handles_mem.mpr (mem_nuisanceVariables.mp h).1
    · rw [List.mem_singleton] at h
      rw [h]
      exact handles_mem.mpr he
  have := (List.subperm_of_subset hnd hsub).length_le
  rwa [handles_length] at this

/-- The sum over the polarities of the events of `Nu` and of one more event `e`,
listed last, splits into the sum with `e` false and the sum with `e` true. -/
theorem sum_split_last (net : Network) (D Nu : List Int) (e : Int) (heNu : e ∉ Nu) :
    ∑ T in (Nu ++ [e]).toFinset.powerset,
        jointValue net (D ++ (Nu ++ [e]).map (fun v => if v ∈ T then v else bnot v))
      = ∑ T in Nu.toFinset.powerset,
          jointValue net (bnot e :: (D ++ Nu.map (fun v => if v ∈ T then v else bnot v)))
        + ∑ T in Nu.toFinset.powerset,
          jointValue net (e :: (D ++ Nu.map (fun v => if v ∈ T then v else bnot v))) := by
  have heS : e ∉ Nu.toFinset := fun h => heNu (List.mem_toFinset.mp h)
  have hset : (Nu ++ [e]).toFinset = insert e Nu.toFinset := by
    ext x
    simp [or_comm]
  rw [hset, Finset.sum_powerset_insert heS]
  congr 1
  · apply Finset.sum_congr rfl
    intro T hT
    have heT : e ∉ T := fun h => heS (Finset.mem_powerset.mp hT h)
    apply jointValue_perm
    rw [List.map_append, List.map_singleton, if_neg heT, ← List.append_assoc]
    exact List.perm_append_comm
  · apply Finset.sum_congr rfl
    intro T _
    apply jointValue_perm
    rw [List.map_append, List.map_singleton, if_pos (Finset.mem_insert_self e T),
      map_sign_insert Nu e heNu T, ← List.append_assoc]
    exact List.perm_append_comm

/-! ## The exact-match shortcut against the enumeration path -/

/-- The value that a fully assigned network holds for an event under all its
dependencies true, and what the two lookups make of it. -/
theorem entry_all_true (net : Network) (hfull : FullyAssigned net) (e : Int) (ev : Event)
    (hev : eventAt net e = some ev) :
    ∃ x : Value, (if ev.depends.length = 0 then wholeNumber ev.probabilities
        else readIndexed ev.probabilities (probIndex ev.depends)) = some x.toNumber ∧
      getProbability net e ev.depends = .ok x ∧
      (ev.depends ≠ [] → x = .number x.toNumber) ∧
      (ev.depends = [] → readWhole ev.probabilities = some x) := by
  have he := eventAt_nonneg hev
  have hev' : eventAt net (norm e) = some ev := by rw [norm_of_nonneg he]; exact hev
  obtain ⟨h0, h1⟩ := hfull e ev hev
  have hread : ∃ c : ℚ, (if ev.depends.length = 0 then wholeNumber ev.probabilities
      else readIndexed ev.probabilities (probIndex ev.depends)) = some c := by
    by_cases hd : ev.depends = []
    · obtain ⟨c, hc⟩ := h0 hd
      exact ⟨c, by rw [if_pos (by rw [hd]; rfl)]; exact hc⟩
    · obtain ⟨c, hc⟩ := h1 hd ev.depends rfl
      exact ⟨c, by rw [if_neg (fun h => hd (List.length_eq_zero.mp h))]; exact hc⟩
  obtain ⟨c, hc⟩ := hread
  obtain ⟨x, hx, hxc⟩ := read_value_of_number ev.probabilities ev.depends c hc
  refine ⟨x, by rw [hxc]; exact hc, ?_, ?_, ?_⟩
  · rw [getProbability_of_value net e ev.depends ev x hev' hx, if_neg (not_lt.mpr he)]
  · intro hne
    rw [if_neg (fun h => hne (List.length_eq_zero.mp h))] at hx
    obtain ⟨q, -, hq⟩ := Option.map_eq_some'.mp hx
    rw [← hq]
    rfl
  · intro h0
    rw [if_pos (by rw [h0]; rfl)] at hx
    exact hx

/-- The events that are not dependencies of `e` are `e` and the events that are
neither `e` nor a dependency of `e`. -/
theorem nuisance_perm_with_event (net : Network) (e : Int) (D : List Int)
    (he : 0 ≤ e ∧ e < net.length) (hD : ∀ d ∈ D, 0 ≤ d) (heD : e ∉ D) :
    (nuisanceVariables net D).Perm (nuisanceVariables net ([e] ++ D) ++ [e]) := by
  have heNu : e ∉ nuisanceVariables net ([e] ++ D) := by
    intro h
    exact (mem_nuisanceVariables.mp h).2 e (List.mem_append_left _ (List.mem_singleton_self e))
      (norm_of_nonneg he.1)
  apply List.perm_of_nodup_nodup_toFinset_eq (nuisanceVariables_nodup _ _)
  · rw [List.nodup_append]
    refine ⟨nuisanceVariables_nodup _ _, List.nodup_singleton e, ?_⟩
    intro x hx hy
    rw [List.mem_singleton] at hy
    exact heNu (hy ▸ hx)
  · ext x
    simp only [List.mem_toFinset, List.mem_append, List.mem_singleton]
    rw [mem_nuisanceVariables, mem_nuisanceVariables]
    constructor
    · rintro ⟨hv, hn⟩
      by_cases hxe : x = e
      · exact Or.inr hxe
      · left
        refine ⟨hv, ?_⟩
        intro t ht
        rcases List.mem_append.mp ht with h | h
        · rw [List.mem_singleton] at h
          rw [h, norm_of_nonneg he.1]
          exact fun heq => hxe heq.symm
        · exact hn t h
    · rintro (⟨hv, hn⟩ | hxe)
      · exact ⟨hv, fun t ht => hn t (List.mem_append_right _ ht)⟩
      · rw [hxe]
        refine ⟨he, ?_⟩
        intro t ht heq
        rw [norm_of_nonneg (hD t ht)] at heq
        exact heD (heq ▸ ht)

/-- The exact-match shortcut against the enumeration path: in a network of at
most 30 events whose dependency graph is acyclic and whose tables are fully
assigned, for every event `e` with declared dependency list `D` such that the
probability `M` that all events of `D` are true is not zero,
`conditionalProbability([e], D)` returns the value `x` of the direct lookup of
`e` under `D`, and the enumeration path computes the number `Number(x)` for the
same targets and observations; there the numerator is `Number(x) * M` and the
denominator `M`.  The value `x` is a number when `e` has a dependency; when `e`
has none, `x` is what `probabilities` holds, a number or a one-element array. -/
theorem exact_match_agrees_with_enumeration (net : Network) (e : Int) (ev : Event) (M : ℚ)
    (hsize : net.length ≤ 30) (hac : Acyclic net) (hfull : FullyAssigned net)
    (hev : eventAt net e = some ev) (hM : probabilityAllTrue net ev.depends = some M)
    (hM0 : M ≠ 0) :
    ∃ x : Value, getProbability net e ev.depends = .ok x ∧
      conditionalProbability net [e] ev.depends = .ok x.toNum ∧
      enumeration net [e] ev.depends = .ok (.finite x.toNumber) ∧
      (ev.depends ≠ [] → x = .number x.toNumber) ∧
      (ev.depends = [] → readWhole ev.probabilities = some x) ∧
      sumJoint net [e]
        (nuisanceIterate ev.depends (nuisanceVariables net ([e] ++ ev.depends))) 0
        = .ok (x.toNumber * M) ∧
      sumJoint net []
        (nuisanceIterate ev.depends (nuisanceVariables net ([e] ++ ev.depends) ++ [e])) 0
        = .ok M := by
  obtain ⟨rank, hrank⟩ := hac
  have he := eventAt_nonneg hev
  obtain ⟨_, he1⟩ := eventAt_isSome_iff.mp ⟨ev, hev⟩
  have hev' : eventAt net (norm e) = some ev := by rw [norm_of_nonneg he]; exact hev
  have hD0 : ∀ d ∈ ev.depends, 0 ≤ d := fun d hd => (hrank e ev hev d hd).1
  have heD : e ∉ ev.depends := by
    intro h
    have := (hrank e ev hev e h).2
    omega
  obtain ⟨x, hc, hget, hnumber, hwhole⟩ := entry_all_true net hfull e ev hev
  generalize hcx : x.toNumber = c at hc
  -- the dependencies are events of the network
  have hDvalid : ∀ d ∈ ev.depends, d < net.length := by
    intro d hd
    obtain ⟨q, hq⟩ := sumOfJoint_ok_of_mem net _ M hM
      (ev.depends ++ nuisanceVariables net ev.depends)
      (List.mem_map.mpr ⟨_, self_mem_assignments _, rfl⟩)
    have := valid_of_jointProbability_ok net _ q hq d (List.mem_append_left _ hd)
    rwa [norm_of_nonneg (hD0 d hd)] at this
  have hnd := nuisanceVariables_nodup net ([e] ++ ev.depends)
  have hNu0 := nuisanceVariables_nonneg net ([e] ++ ev.depends)
  have hNuv : ∀ v ∈ nuisanceVariables net ([e] ++ ev.depends), v < net.length :=
    fun v hv => (mem_nuisanceVariables.mp hv).1.2
  have heNu : e ∉ nuisanceVariables net ([e] ++ ev.depends) := by
    intro h
    exact (mem_nuisanceVariables.mp h).2 e (List.mem_append_left _ (List.mem_singleton_self e))
      (norm_of_nonneg he)
  have hDNu : ∀ d ∈ ev.depends, d ∉ nuisanceVariables net ([e] ++ ev.depends) := by
    intro d hd h
    exact (mem_nuisanceVariables.mp h).2 d (List.mem_append_right _ hd)
      (norm_of_nonneg (hD0 d hd))
  obtain ⟨X, hin, hout⟩ := sums_with_event_fixed net rank hrank e ev hev c hc
    (nuisanceVariables net ([e] ++ ev.depends)) hnd hNu0 heNu hDNu
  -- validity of the term lists
  have hvalidNu : ∀ (l : List Int), (∀ v ∈ l, 0 ≤ v ∧ v < net.length) →
      ∀ s ∈ assignments l, ∀ t ∈ s, norm t < net.length := by
    intro l hl s hs t ht
    have hmap := mem_assignments_map_norm l (fun v hv => (hl v hv).1) s hs
    have : norm t ∈ l := by rw [← hmap]; exact List.mem_map.mpr ⟨t, ht, rfl⟩
    exact (hl _ this).2
  have hNuvalid : ∀ v ∈ nuisanceVariables net ([e] ++ ev.depends), 0 ≤ v ∧ v < net.length :=
    fun v hv => ⟨hNu0 v hv, hNuv v hv⟩
  have hNue : ∀ v ∈ nuisanceVariables net ([e] ++ ev.depends) ++ [e],
      0 ≤ v ∧ v < net.length := by
    intro v hv
    rcases List.mem_append.mp hv with h | h
    · exact hNuvalid v h
    · rw [List.mem_singleton] at h; rw [h]; exact ⟨he, he1⟩
  have hndNue : (nuisanceVariables net ([e] ++ ev.depends) ++ [e]).Nodup := by
    rw [List.nodup_append]
    refine ⟨hnd, List.nodup_singleton e, ?_⟩
    intro x hx hy
    rw [List.mem_singleton] at hy
    exact heNu (hy ▸ hx)
  -- numerator
  have hN : sumOfJoint net
      ((assignments (nuisanceVariables net ([e] ++ ev.depends))).map
        (fun s => [e] ++ (ev.depends ++ s))) = some (c * X) := by
    rw [sumOfJoint_map_assignments net hfull _ hnd _ (by
      intro s hs t ht
      rcases List.mem_append.mp ht with h | h
      · rw [List.mem_singleton] at h; rw [h, norm_of_nonneg he]; exact he1
      · rcases List.mem_append.mp h with h | h
        · rw [norm_of_nonneg (hD0 t h)]; exact hDvalid t h
        · exact hvalidNu _ hNuvalid s hs t h)]
    exact congrArg some hin
  -- denominator
  have hsplit := sum_split_last net ev.depends (nuisanceVariables net ([e] ++ ev.depends)) e heNu
  rw [hin, hout] at hsplit
  have hXsum : (1 - c) * X + c * X = X := by ring
  rw [hXsum] at hsplit
  have hD : sumOfJoint net
      ((assignments (nuisanceVariables net ([e] ++ ev.depends) ++ [e])).map
        (fun t => ev.depends ++ t)) = some X := by
    rw [sumOfJoint_map_assignments net hfull _ hndNue _ (by
      intro s hs t ht
      rcases List.mem_append.mp ht with h | h
      · rw [norm_of_nonneg (hD0 t h)]; exact hDvalid t h
      · exact hvalidNu _ hNue s hs t h)]
    exact congrArg some hsplit
  -- the probability that the dependencies are all true
  have hperm := nuisance_perm_with_event net e ev.depends ⟨he, he1⟩ hD0 heD
  have hMX : M = X := by
    have hM' : sumOfJoint net ((assignments (nuisanceVariables net ev.depends)).map
        (fun s => ev.depends ++ s)) = some M := hM
    rw [sumOfJoint_map_assignments net hfull _ (nuisanceVariables_nodup _ _) _ (by
      intro s hs t ht
      rcases List.mem_append.mp ht with h | h
      · rw [norm_of_nonneg (hD0 t h)]; exact hDvalid t h
      · exact hvalidNu _ (fun v hv => (mem_nuisanceVariables.mp hv).1) s hs t h)] at hM'
    rw [← Option.some.inj hM', ← hsplit, List.toFinset_eq_of_perm _ _ hperm]
    apply Finset.sum_congr rfl
    intro T _
    apply jointValue_perm
    exact (hperm.map _).append_left _
  rw [← hMX] at hN hD
  have hlen : (nuisanceVariables net ([e] ++ ev.depends) ++ [e]).length ≤ 30 :=
    le_trans (nuisance_with_event_length net _ e ⟨he, he1⟩
      ⟨e, List.mem_append_left _ (List.mem_singleton_self e), norm_of_nonneg he⟩) hsize
  obtain ⟨hnum, hden, henum⟩ := enumeration_of_sums net [e] ev.depends (c * M) M hlen hN hD
  have hdiv : divide (c * M) M = .finite c := by
    rw [divide, if_neg hM0, mul_div_assoc, div_self hM0, mul_one]
  refine ⟨x, hget, ?_, by rw [hcx, henum, hdiv], hnumber, hwhole, by rw [hcx]; exact hnum,
    hden⟩
  simp only [conditionalProbability, perfectMatch_self net e ev hev', hget]

/-- The agreement at event `D` of the test network, whose parents `A` and `B`
are both true with probability 0.18. -/
theorem exact_match_agrees_on_testNetwork :
    probabilityAllTrue testNetwork [0, 1] = some (9/50) ∧
    ∃ x : Value, getProbability testNetwork 3 [0, 1] = .ok x ∧
      conditionalProbability testNetwork [3] [0, 1] = .ok x.toNum ∧
      enumeration testNetwork [3] [0, 1] = .ok (.finite x.toNumber) ∧
      (([0, 1] : List Int) ≠ [] → x = .number x.toNumber) ∧
      (([0, 1] : List Int) = [] →
        readWhole (.table [(0, 2/10), (1, 8/10), (2, 1/10), (3, 7/10)]) = some x) ∧
      sumJoint testNetwork [3]
        (nuisanceIterate [0, 1] (nuisanceVariables testNetwork ([3] ++ [0, 1]))) 0
        = .ok (x.toNumber * (9/50)) ∧
      sumJoint testNetwork []
        (nuisanceIterate [0, 1] (nuisanceVariables testNetwork ([3] ++ [0, 1]) ++ [3])) 0
        = .ok (9/50) :=
  ⟨by decide!,
    exact_match_agrees_with_enumeration testNetwork 3
      ⟨.str "D", .table [(0, 2/10), (1, 8/10), (2, 1/10), (3, 7/10)], [0, 1]⟩ (9/50)
      (by decide) (acyclic_of_earlier testNetwork (by decide))
      (fullyAssigned_of_slots testNetwork (by decide)) rfl (by decide!) (by norm_num)⟩

/-- C22, evaluation at the failing input: the network after
`facts(P(e).given().is(3/10))` on a single event is acyclic and fully assigned,
the declared dependency list of `e` is empty and the probability that all
events of the empty list are true is 1.  The direct lookup, which
`conditionalProbability([e], [])` returns, is the array `[3/10]`; the
enumeration path computes the number 3/10 for the same targets and
observations. -/
theorem exact_match_returns_array_where_enumeration_returns_number :
    Acyclic oneSlotNetwork ∧ FullyAssigned oneSlotNetwork ∧
    (eventAt oneSlotNetwork 0).map (fun ev => ev.depends) = some [] ∧
    probabilityAllTrue oneSlotNetwork [] = some 1 ∧
    perfectMatch oneSlotNetwork 0 [] = .ok true ∧
    conditionalProbability oneSlotNetwork [0] [] = .ok (.array (3/10)) ∧
    enumeration oneSlotNetwork [0] [] = .ok (.finite (3/10)) :=
  ⟨acyclic_of_earlier oneSlotNetwork (by decide),
    fullyAssigned_of_slots oneSlotNetwork (by decide), by decide, by decide!, by decide,
    by decide!, by decide!⟩

/-! ## A target that is also an observation -/

/-- C23, a target that is also an observation is counted twice: in a fully
assigned acyclic network of at most 30 events, for an event `a` without
dependencies whose stored probability `p` is not 0, the numerator of
`conditionalProbability([a], [a])` is `p^2`, the denominator is
`p^2 + p (1 - p)`, and the query returns `p`; so it does not return 1 unless
`p = 1`. -/
theorem target_among_observations (net : Network) (a : Int) (ev : Event) (p : ℚ)
    (hsize : net.length ≤ 30) (hac : Acyclic net) (hfull : FullyAssigned net)
    (hev : eventAt net a = some ev) (hdep : ev.depends = [])
    (hp : (readWhole ev.probabilities).map Value.toNumber = some p) (hp0 : p ≠ 0) :
    sumJoint net [a] (nuisanceIterate [a] (nuisanceVariables net ([a] ++ [a]))) 0
      = .ok (p ^ 2) ∧
    sumJoint net [] (nuisanceIterate [a] (nuisanceVariables net ([a] ++ [a]) ++ [a])) 0
      = .ok (p ^ 2 + p * (1 - p)) ∧
    conditionalProbability net [a] [a] = .ok (.finite p) ∧
    (p ≠ 1 → conditionalProbability net [a] [a] ≠ .ok (.finite 1)) := by
  have hp : wholeNumber ev.probabilities = some p := hp
  have hac' := hac
  obtain ⟨rank, hrank⟩ := hac
  have ha := eventAt_nonneg hev
  obtain ⟨_, ha1⟩ := eventAt_isSome_iff.mp ⟨ev, hev⟩
  have hev' : eventAt net (norm a) = some ev := by rw [norm_of_nonneg ha]; exact hev
  have hdeps : ∀ (v : Int) (ev : Event), eventAt net v = some ev → ∀ d ∈ ev.depends, 0 ≤ d :=
    fun v ev' h d hd => (hrank v ev' h d hd).1
  have hnd := nuisanceVariables_nodup net ([a] ++ [a])
  have hNu0 := nuisanceVariables_nonneg net ([a] ++ [a])
  have hNuvalid : ∀ v ∈ nuisanceVariables net ([a] ++ [a]), 0 ≤ v ∧ v < net.length :=
    fun v hv => (mem_nuisanceVariables.mp hv).1
  have haNu : a ∉ nuisanceVariables net ([a] ++ [a]) := by
    intro h
    exact (mem_nuisanceVariables.mp h).2 a (List.mem_append_left _ (List.mem_singleton_self a))
      (norm_of_nonneg ha)
  have hNua : ∀ v ∈ nuisanceVariables net ([a] ++ [a]) ++ [a], 0 ≤ v ∧ v < net.length := by
    intro v hv
    rcases List.mem_append.mp hv with h | h
    · exact hNuvalid v h
    · rw [List.mem_singleton] at h; rw [h]; exact ⟨ha, ha1⟩
  have hndNua : (nuisanceVariables net ([a] ++ [a]) ++ [a]).Nodup := by
    rw [List.nodup_append]
    refine ⟨hnd, List.nodup_singleton a, ?_⟩
    intro x hx hy
    rw [List.mem_singleton] at hy
    exact haNu (hy ▸ hx)
  have hvalidNu : ∀ (l : List Int), (∀ v ∈ l, 0 ≤ v ∧ v < net.length) →
      ∀ s ∈ assignments l, ∀ t ∈ s, norm t < net.length := by
    intro l hl s hs t ht
    have hmap := mem_assignments_map_norm l (fun v hv => (hl v hv).1) s hs
    have : norm t ∈ l := by rw [← hmap]; exact List.mem_map.mpr ⟨t, ht, rfl⟩
    exact (hl _ this).2
  have hc : (if ev.depends.length = 0 then wholeNumber ev.probabilities
      else readIndexed ev.probabilities (probIndex ev.depends)) = some p := by
    rw [hdep]; simpa using hp
  obtain ⟨X, hin, hout⟩ := sums_with_event_fixed net rank hrank a ev hev p hc
    (nuisanceVariables net ([a] ++ [a])) hnd hNu0 haNu (by rw [hdep]; intro d hd; cases hd)
  rw [hdep] at hin hout
  simp only [List.nil_append] at hin hout
  -- the joint distribution over all events sums to 1
  have hone := sumOfJoint_assignments net hac' hfull
    (nuisanceVariables net ([a] ++ [a]) ++ [a]) hndNua hNua
  have hall : ∑ T in (nuisanceVariables net ([a] ++ [a]) ++ [a]).toFinset.powerset,
      jointValue net ((nuisanceVariables net ([a] ++ [a]) ++ [a]).map
        (fun v => if v ∈ T then v else bnot v)) = 1 := by
    have h := sumOfJoint_map_assignments net hfull _ hndNua (fun s => s)
      (fun s hs t ht => hvalidNu _ hNua s hs t ht)
    rw [List.map_id'] at h
    rw [hone] at h
    exact (Option.some.inj h).symm
  have hsplit := sum_split_last net [] (nuisanceVariables net ([a] ++ [a])) a haNu
  simp only [List.nil_append] at hsplit
  rw [hall, hin, hout] at hsplit
  have hX : X = 1 := by linarith
  -- numerator
  have hN : sumOfJoint net
      ((assignments (nuisanceVariables net ([a] ++ [a]))).map
        (fun s => [a] ++ ([a] ++ s))) = some (p ^ 2) := by
    rw [sumOfJoint_map_assignments net hfull _ hnd _ (by
      intro s hs t ht
      rcases List.mem_append.mp ht with h | h
      · rw [List.mem_singleton] at h; rw [h, norm_of_nonneg ha]; exact ha1
      · rcases List.mem_append.mp h with h | h
        · rw [List.mem_singleton] at h; rw [h, norm_of_nonneg ha]; exact ha1
        · exact hvalidNu _ hNuvalid s hs t h)]
    congr 1
    have hterm : ∀ T : Finset Int,
        jointValue net ([a] ++ ([a] ++ (nuisanceVariables net ([a] ++ [a])).map
          (fun v => if v ∈ T then v else bnot v)))
        = p * jointValue net (a :: (nuisanceVariables net ([a] ++ [a])).map
          (fun v => if v ∈ T then v else bnot v)) := by
      intro T
      exact jointValue_cons_unconditional net hdeps a ev p hev hdep hp _
    rw [Finset.sum_congr rfl (fun T _ => hterm T), ← Finset.mul_sum, hin, hX]
    ring
  -- denominator
  have hD : sumOfJoint net
      ((assignments (nuisanceVariables net ([a] ++ [a]) ++ [a])).map
        (fun t => [a] ++ t)) = some (p ^ 2 + p * (1 - p)) := by
    rw [sumOfJoint_map_assignments net hfull _ hndNua _ (by
      intro s hs t ht
      rcases List.mem_append.mp ht with h | h
      · rw [List.mem_singleton] at h; rw [h, norm_of_nonneg ha]; exact ha1
      · exact hvalidNu _ hNua s hs t h)]
    congr 1
    have hterm : ∀ T : Finset Int,
        jointValue net ([a] ++ (nuisanceVariables net ([a] ++ [a]) ++ [a]).map
          (fun v => if v ∈ T then v else bnot v))
        = p * jointValue net ((nuisanceVariables net ([a] ++ [a]) ++ [a]).map
          (fun v => if v ∈ T then v else bnot v)) := by
      intro T
      exact jointValue_cons_unconditional net hdeps a ev p hev hdep hp _
    rw [Finset.sum_congr rfl (fun T _ => hterm T), ← Finset.mul_sum, hall]
    ring
  have hlen : (nuisanceVariables net ([a] ++ [a]) ++ [a]).length ≤ 30 :=
    le_trans (nuisance_with_event_length net _ a ⟨ha, ha1⟩
      ⟨a, List.mem_append_left _ (List.mem_singleton_self a), norm_of_nonneg ha⟩) hsize
  obtain ⟨hnum, hden, henum⟩ := enumeration_of_sums net [a] [a] _ _ hlen hN hD
  have hpm : perfectMatch net a [a] = .ok false := by
    simp [perfectMatch, hev', hdep]
  have hdiv : divide (p ^ 2) (p ^ 2 + p * (1 - p)) = .finite p := by
    have hden0 : p ^ 2 + p * (1 - p) = p := by ring
    rw [hden0, divide, if_neg hp0]
    congr 1
    field_simp
    ring
  have hres : conditionalProbability net [a] [a] = .ok (.finite p) := by
    rw [conditionalProbability_eq_enumeration net a [] [a] hpm, henum, hdiv]
  refine ⟨hnum, hden, hres, ?_⟩
  intro hp1 h
  rw [hres] at h
  exact hp1 (Num.finite.inj (Except.ok.inj h))

/-- Witness of `target_among_observations`: `P(A | A)` in the test network is
0.3. -/
theorem target_among_observations_witness :
    Acyclic testNetwork ∧ FullyAssigned testNetwork ∧
    conditionalProbability testNetwork [0] [0] = .ok (.finite (3/10)) ∧
    conditionalProbability testNetwork [0] [0] ≠ .ok (.finite 1) :=
  ⟨acyclic_of_earlier testNetwork (by decide), fullyAssigned_of_slots testNetwork (by decide),
    (target_among_observations testNetwork 0 ⟨.str "A", .scalar (3/10), []⟩ (3/10)
      (by decide) (acyclic_of_earlier testNetwork (by decide))
      (fullyAssigned_of_slots testNetwork (by decide)) rfl rfl rfl (by norm_num)).2.2.1,
    (target_among_observations testNetwork 0 ⟨.str "A", .scalar (3/10), []⟩ (3/10)
      (by decide) (acyclic_of_earlier testNetwork (by decide))
      (fullyAssigned_of_slots testNetwork (by decide)) rfl rfl rfl (by norm_num)).2.2.2
      (by norm_num)⟩

end BLN
